import Mathlib

/-!
# ImageSource: zoom and tile arithmetic of the static-image map source

A shallow embedding of `src/maps/sources/ImageSource.cpp`.

Number model.
* `int` is a 32-bit two's-complement integer: an `Int` in `[-2^31, 2^31)`; every
  `int` operation of the source is followed by `wrapInt`.
* `float` and `double` values are the rationals they denote.  Every operation that
  produces a `float` or a `double` is followed by the IEEE-754 rounding to nearest,
  ties to even, at 24 resp. 53 significant bits (`toFloat`, `toDouble`).  These two
  roundings have no exponent range; they are used where the operands come from `int`
  values, which stay far inside the range of either format.  Where a function takes
  `double` arguments of any magnitude (`transformZoomedPoint`), the rounding is
  `roundDouble`, with the exponent range of binary64: gradual underflow below `2^-1022`
  and overflow from `2^1024`.  A value that is not finite (a division by zero, an
  overflow) is `none`.
* `TILE_SIZE` is declared in `ImageSource.h`, which is not part of the sources at hand;
  it is a parameter of every function that uses it.
-/

namespace maps

/-! ## Machine numbers -/

/-- Reading of an integer as a 32-bit two's-complement `int`. -/
def wrapInt (n : ℤ) : ℤ := (n + 2 ^ 31) % 2 ^ 32 - 2 ^ 31

/-- The values of the type `int`. -/
def IsInt (n : ℤ) : Prop := -2 ^ 31 ≤ n ∧ n < 2 ^ 31

instance (n : ℤ) : Decidable (IsInt n) := by
  unfold IsInt
  exact inferInstance

/-- The expression `1 << n` on `int`.  The count is taken modulo 32, as the shift
instructions of x86-64 and AArch64 do (the language leaves counts outside `0..31`
undefined); the shifted value is read back as an `int`, so `1 << 31` is `-2^31`. -/
def shiftLeftOne (n : ℤ) : ℤ := wrapInt (2 ^ (n % 32).toNat)

/-- Nearest integer of a rational, a tie going to the even neighbour. -/
def roundHalfEven (q : ℚ) : ℤ :=
  if q - ⌊q⌋ < 1 / 2 then ⌊q⌋
  else if 1 / 2 < q - ⌊q⌋ then ⌊q⌋ + 1
  else if ⌊q⌋ % 2 = 0 then ⌊q⌋ else ⌊q⌋ + 1

/-- Rounding of a rational to `p` significant bits, to nearest and ties to even: with
`e = ⌊log2 |q|⌋`, the result is the multiple of `2^(e-(p-1))` nearest to `q`. -/
def roundToPrec (p : ℕ) (q : ℚ) : ℚ :=
  if q = 0 then 0
  else (roundHalfEven (q / (2 : ℚ) ^ (Int.log 2 |q| - ((p : ℤ) - 1))) : ℚ)
    * (2 : ℚ) ^ (Int.log 2 |q| - ((p : ℤ) - 1))

/-- Rounding to a `float` (binary32, 24 significant bits). -/
def toFloat (q : ℚ) : ℚ := roundToPrec 24 q

/-- Rounding to a `double` (binary64, 53 significant bits). -/
def toDouble (q : ℚ) : ℚ := roundToPrec 53 q

/-- Truncation toward zero. -/
def truncate (q : ℚ) : ℤ := if 0 ≤ q then ⌊q⌋ else ⌈q⌉

/-- Conversion of a floating-point value to `int`: truncation toward zero.  A value whose
truncation is not an `int` yields `-2^31`, the "integer indefinite" result of the x86-64
conversion instructions (the language leaves that case undefined). -/
def toInt (q : ℚ) : ℤ := if IsInt (truncate q) then truncate q else -2 ^ 31

/-- Integer part of `std::log2 v`, as obtained by the conversion of the `double` result to
`int` (truncation toward zero): `⌊log2 v⌋` for `v ≥ 1` and `⌈log2 v⌉` for `0 < v < 1`.
The `double` nearest to the real logarithm has the same integer part as the real
logarithm unless `v` lies within about `2^-52` (relative) of a power of two without
being one, which a quotient of two `int` values never does.  For `v ≤ 0` the logarithm
is not finite and the function is not used. -/
def log2Trunc (v : ℚ) : ℤ := if 1 ≤ v then Int.log 2 v else Int.clog 2 v

/-- Division in `double`: the rounded quotient, and no finite value for a zero divisor. -/
def divDouble (a b : ℚ) : Option ℚ := if b = 0 then none else some (toDouble (a / b))

/-- The unit in the last place of binary64 at `q`: `2^(e-52)` with `e = ⌊log2 |q|⌋`, and
`2^-1074` for every `q` below `2^-1022` in magnitude (the subnormal numbers). -/
def doubleUlp (q : ℚ) : ℚ := (2 : ℚ) ^ (max (Int.log 2 |q|) (-1022) - 52)

/-- The multiple of `doubleUlp q` nearest to `q`, ties to even. -/
def roundDoubleValue (q : ℚ) : ℚ := (roundHalfEven (q / doubleUlp q) : ℚ) * doubleUlp q

/-- Rounding to a `double` with the exponent range of binary64: the nearest multiple of
the unit in the last place, and no finite value (`none`) when that is `2^1024` or more in
magnitude, where the operation overflows to an infinity. -/
def roundDouble (q : ℚ) : Option ℚ :=
  if (2 : ℚ) ^ (1024 : ℕ) ≤ |roundDoubleValue q| then none else some (roundDoubleValue q)

/-- Division of two finite `double` values: the rounded quotient, and no finite value for
a zero divisor (the quotient is then an infinity or not a number). -/
def quotDouble (a b : ℚ) : Option ℚ := if b = 0 then none else roundDouble (a / b)

/-- A magnitude between `2^-1020` and `2^1021`: inside the normal range of binary64, two
binades away from either end, so that a value within a factor of two of it is still a
normal number. -/
def InDoubleRange (v : ℚ) : Prop := (2 : ℚ) ^ (-1020 : ℤ) ≤ |v| ∧ |v| ≤ (2 : ℚ) ^ (1021 : ℤ)

/-! ## Decimal renderings -/

/-- Value of a string of decimal digits, read from the left. -/
def decodeNat (l : List Char) : ℕ := l.foldl (fun a c => a * 10 + (c.toNat - 48)) 0

/-- Value of a decimal rendering with an optional leading minus sign. -/
def decodeInt : List Char → ℤ
  | '-' :: t => -(decodeNat t : ℤ)
  | l => (decodeNat l : ℤ)

/-! ## The image collaborator and the tile source -/

/-- A point, as `img::Point<T>`. -/
structure Point (α : Type) where
  x : α
  y : α
deriving DecidableEq

/-- A rectangle of source pixels: offset of its top-left corner and extent. -/
structure Region where
  x : ℤ
  y : ℤ
  width : ℤ
  height : ℤ
deriving DecidableEq

/-- A source pixel lies inside a rectangle. -/
def Region.contains (r : Region) (px py : ℤ) : Prop :=
  r.x ≤ px ∧ px < r.x + r.width ∧ r.y ≤ py ∧ py < r.y + r.height

/-- Modelled from the spec: the image collaborator `img::Image`, whose code is not part of
the sources at hand: "a 2D pixel raster with integer width/height; supports cropped-copy
into a destination raster at a given offset, and in-place rescale to a target
width/height".  The pixel data of a raster is represented by its provenance: the window of
the source image that was requested for it (`none` for a raster nothing was copied to). -/
structure Image where
  width : ℤ
  height : ℤ
  window : Option Region
deriving DecidableEq

namespace Image

/-- Modelled from the spec: the constructor `Image(width, height, color)` of the
collaborator, a raster of the given size filled with one colour. -/
def blank (width height : ℤ) : Image := ⟨width, height, none⟩

/-- Modelled from the spec: `copyTo(dst, srcX, srcY)` of the collaborator, which "copies a
rectangular region starting at the given offset into a pre-sized destination buffer,
clipping or zero-filling regions outside source bounds".  The destination keeps its size
and now holds the window of that size at `(srcX, srcY)`. -/
def copyTo (_src dst : Image) (srcX srcY : ℤ) : Image :=
  ⟨dst.width, dst.height, some ⟨srcX, srcY, dst.width, dst.height⟩⟩

/-- Modelled from the spec: `scale(newWidth, newHeight)` of the collaborator, the "in-place
resample to new dimensions": the raster takes the requested size and keeps its content. -/
def scale (img : Image) (newWidth newHeight : ℤ) : Image :=
  ⟨newWidth, newHeight, img.window⟩

/-- The part of a requested window that lies inside the image, which is what a clipping
copy transfers. -/
def clip (src : Image) (r : Region) : Region :=
  ⟨max r.x 0, max r.y 0,
    max 0 (min (r.x + r.width) src.width - max r.x 0),
    max 0 (min (r.y + r.height) src.height - max r.y 0)⟩

end Image

/-- The tile source: it holds the image it serves. -/
structure ImageSource where
  image : Image
deriving DecidableEq

namespace ImageSource

/-- Embedding of `ImageSource::getMinZoomLevel`: `maxDim / TILE_SIZE` is a `double`
division, `std::log2` of it is negated and converted to `int`.  When the quotient is not
positive the logarithm is not finite (or not a number) and the conversion yields the
indefinite value `-2^31`. -/
def getMinZoomLevel (TILE_SIZE : ℤ) (self : ImageSource) : ℤ :=
  if toDouble (((max self.image.width self.image.height : ℤ) : ℚ) / (TILE_SIZE : ℚ)) ≤ 0 then
    -2 ^ 31
  else
    -(log2Trunc (toDouble (((max self.image.width self.image.height : ℤ) : ℚ) / (TILE_SIZE : ℚ))))

/-- Embedding of `ImageSource::getMaxZoomLevel`. -/
def getMaxZoomLevel (_self : ImageSource) : ℤ := 0

/-- Embedding of `ImageSource::getInitialZoomLevel`. -/
def getInitialZoomLevel (_self : ImageSource) : ℤ := -1

/-- Embedding of `ImageSource::supportsWorldCoords`. -/
def supportsWorldCoords (_self : ImageSource) : Bool := false

/-- Embedding of `ImageSource::worldToXY`. -/
def worldToXY (_self : ImageSource) (lon lat : ℚ) (_zoom : ℤ) : Point ℚ := ⟨lon, lat⟩

/-- Embedding of `ImageSource::xyToWorld`. -/
def xyToWorld (_self : ImageSource) (x y : ℚ) (_zoom : ℤ) : Point ℚ := ⟨x, y⟩

/-- Embedding of `ImageSource::zoomToScale`: `1.0 / (1 << -zoom)` for a negative zoom and
`1.0 * (1 << zoom)` otherwise, computed in `double` and returned as `float`. -/
def zoomToScale (zoom : ℤ) : ℚ :=
  if zoom < 0 then
    toFloat (toDouble (1 / (shiftLeftOne (wrapInt (-zoom)) : ℚ)))
  else
    toFloat (toDouble (1 * (shiftLeftOne zoom : ℚ)))

/-- Embedding of `ImageSource::suggestInitialCenter`.  `fullWidth / 2.0` and
`fullHeight / 6.0` are `double` divisions, so are the divisions by `TILE_SIZE`, and the
products with the `float` scale are `double` products; a component is `none` when the
division by a zero `TILE_SIZE` leaves no finite value. -/
def suggestInitialCenter (TILE_SIZE : ℤ) (self : ImageSource) : Point (Option ℚ) :=
  ⟨(divDouble (toDouble ((self.image.width : ℚ) / 2)) (TILE_SIZE : ℚ)).map
      (fun q => toDouble (q * zoomToScale (getInitialZoomLevel self))),
   (divDouble (toDouble ((self.image.height : ℚ) / 6)) (TILE_SIZE : ℚ)).map
      (fun q => toDouble (q * zoomToScale (getInitialZoomLevel self)))⟩

/-- Embedding of `ImageSource::getTileDimensions`. -/
def getTileDimensions (TILE_SIZE : ℤ) (_self : ImageSource) (_zoom : ℤ) : Point ℤ :=
  ⟨TILE_SIZE, TILE_SIZE⟩

/-- Embedding of `ImageSource::transformZoomedPoint`, for finite `double` arguments
`oldX`, `oldY`.  The four widths and heights are `int * float` products (computed in
`float`); each result is a `double` division followed by a `double` multiplication, with
the exponent range of binary64.  A component is `none` when it is not finite: after a
division by a zero width or height, or after an overflow (an infinity multiplied by the
new width is an infinity or not a number). -/
def transformZoomedPoint (self : ImageSource) (oldX oldY : ℚ) (oldZoom newZoom : ℤ) :
    Point (Option ℚ) :=
  ⟨(quotDouble oldX (toFloat (toFloat self.image.width * zoomToScale oldZoom))).bind
      (fun q => roundDouble (q * toFloat (toFloat self.image.width * zoomToScale newZoom))),
   (quotDouble oldY (toFloat (toFloat self.image.height * zoomToScale oldZoom))).bind
      (fun q => roundDouble (q * toFloat (toFloat self.image.height * zoomToScale newZoom)))⟩

/-- Embedding of `ImageSource::checkAndCorrectTileCoordinates`.  The coordinates are
passed by reference: the result is the returned flag together with the values of `x` and
`y` after the call.  `x * TILE_SIZE` is an `int` product, converted to `float` for the
comparison with the `float` product `fullWidth * scale`. -/
def checkAndCorrectTileCoordinates (TILE_SIZE : ℤ) (self : ImageSource) (x y zoom : ℤ) :
    Bool × ℤ × ℤ :=
  if x < 0
      ∨ toFloat (toFloat self.image.width * zoomToScale zoom) ≤ toFloat (wrapInt (x * TILE_SIZE))
      ∨ y < 0
      ∨ toFloat (toFloat self.image.height * zoomToScale zoom) ≤ toFloat (wrapInt (y * TILE_SIZE))
  then (false, x, y)
  else (true, x, y)

/-- Embedding of `ImageSource::getUniqueTileName`: the exception is the `error` case. -/
def getUniqueTileName (TILE_SIZE : ℤ) (self : ImageSource) (x y zoom : ℤ) :
    Except String String :=
  match checkAndCorrectTileCoordinates TILE_SIZE self x y zoom with
  | (false, _, _) => Except.error "Invalid coordinates"
  | (true, x1, y1) => Except.ok (toString zoom ++ "/" ++ toString x1 ++ "/" ++ toString y1)

/-- Embedding of `ImageSource::loadTileImage`.  The buffer size and the copy offsets are
`float` quotients converted to the `int` parameters of the collaborator. -/
def loadTileImage (TILE_SIZE : ℤ) (self : ImageSource) (x y zoom : ℤ) : Image :=
  Image.scale
    (Image.copyTo self.image
      (Image.blank
        (toInt (toFloat (toFloat TILE_SIZE / zoomToScale zoom)))
        (toInt (toFloat (toFloat TILE_SIZE / zoomToScale zoom))))
      (toInt (toFloat (toFloat (wrapInt (x * TILE_SIZE)) / zoomToScale zoom)))
      (toInt (toFloat (toFloat (wrapInt (y * TILE_SIZE)) / zoomToScale zoom))))
    TILE_SIZE TILE_SIZE

end ImageSource

/-! ## Facts on the machine numbers -/

theorem wrapInt_of_isInt {n : ℤ} (h : IsInt n) : wrapInt n = n := by
  unfold IsInt at h
  unfold wrapInt
  omega

theorem roundHalfEven_intCast (n : ℤ) : roundHalfEven (n : ℚ) = n := by
  simp [roundHalfEven]

/-- A value `m * 2^j` whose significand `m` has fewer than `p` bits is not changed by
rounding to `p` bits. -/
theorem roundToPrec_dyadic (p : ℕ) (m j : ℤ) (hm : |m| < 2 ^ p) :
    roundToPrec p ((m : ℚ) * (2 : ℚ) ^ j) = (m : ℚ) * (2 : ℚ) ^ j := by
  by_cases h0 : m = 0
  · simp [roundToPrec, h0]
  have h2 : (0 : ℚ) < (2 : ℚ) ^ j := by positivity
  have hq : (m : ℚ) * (2 : ℚ) ^ j ≠ 0 := by
    have : (m : ℚ) ≠ 0 := by exact_mod_cast h0
    positivity
  have habs : |(m : ℚ) * (2 : ℚ) ^ j| = (|m| : ℤ) * (2 : ℚ) ^ j := by
    rw [abs_mul, abs_of_pos h2, Int.cast_abs]
  have hpos : (0 : ℚ) < |(m : ℚ) * (2 : ℚ) ^ j| := abs_pos.mpr hq
  have hlt : |(m : ℚ) * (2 : ℚ) ^ j| < ((2 : ℕ) : ℚ) ^ ((p : ℤ) + j) := by
    rw [habs, zpow_add₀ (by norm_num : ((2 : ℕ) : ℚ) ≠ 0)]
    have h3 : ((|m| : ℤ) : ℚ) < (2 : ℚ) ^ p := by exact_mod_cast hm
    have h4 : ((2 : ℕ) : ℚ) ^ (p : ℤ) = (2 : ℚ) ^ p := by norm_num
    rw [h4]
    have h5 : ((2 : ℕ) : ℚ) ^ j = (2 : ℚ) ^ j := by norm_num
    rw [h5]
    exact mul_lt_mul_of_pos_right h3 h2
  have hlog : Int.log 2 |(m : ℚ) * (2 : ℚ) ^ j| < (p : ℤ) + j :=
    (Int.lt_zpow_iff_log_lt (by norm_num) hpos).mp hlt
  obtain ⟨d, hd⟩ : ∃ d : ℕ, (d : ℤ) = j - (Int.log 2 |(m : ℚ) * (2 : ℚ) ^ j| - ((p : ℤ) - 1)) :=
    ⟨(j - (Int.log 2 |(m : ℚ) * (2 : ℚ) ^ j| - ((p : ℤ) - 1))).toNat, by
      rw [Int.toNat_of_nonneg]; omega⟩
  have hs : Int.log 2 |(m : ℚ) * (2 : ℚ) ^ j| - ((p : ℤ) - 1) = j - d := by omega
  unfold roundToPrec
  rw [if_neg hq, hs]
  have hdiv : (m : ℚ) * (2 : ℚ) ^ j / (2 : ℚ) ^ (j - (d : ℤ)) = ((m * 2 ^ d : ℤ) : ℚ) := by
    rw [zpow_sub₀ (by norm_num : (2 : ℚ) ≠ 0)]
    push_cast
    field_simp
    ring
  rw [hdiv, roundHalfEven_intCast]
  rw [zpow_sub₀ (by norm_num : (2 : ℚ) ≠ 0)]
  push_cast
  field_simp
  ring

theorem roundToPrec_zpow (p : ℕ) (hp : 1 ≤ p) (k : ℤ) :
    roundToPrec p ((2 : ℚ) ^ k) = (2 : ℚ) ^ k := by
  have h := roundToPrec_dyadic p 1 k (by
    rw [abs_one]
    exact one_lt_pow₀ (by norm_num) (by omega))
  simpa using h

theorem roundToPrec_neg_zpow (p : ℕ) (hp : 1 ≤ p) (k : ℤ) :
    roundToPrec p (-(2 : ℚ) ^ k) = -(2 : ℚ) ^ k := by
  have h := roundToPrec_dyadic p (-1) k (by
    rw [abs_neg, abs_one]
    exact one_lt_pow₀ (by norm_num) (by omega))
  simpa using h

theorem shiftLeftOne_of_le {n : ℤ} (h0 : 0 ≤ n) (h1 : n ≤ 30) :
    shiftLeftOne n = 2 ^ n.toNat := by
  unfold shiftLeftOne
  have hmod : n % 32 = n := by omega
  rw [hmod]
  apply wrapInt_of_isInt
  have hk : n.toNat ≤ 30 := by omega
  have hle : (2 : ℤ) ^ n.toNat ≤ 2 ^ 30 := pow_le_pow_right₀ (by norm_num) hk
  have hpos : (0 : ℤ) < 2 ^ n.toNat := by positivity
  unfold IsInt
  constructor <;> omega

theorem zoomToScale_of_nonneg {zoom : ℤ} (h0 : 0 ≤ zoom) (h1 : zoom ≤ 30) :
    ImageSource.zoomToScale zoom = (2 : ℚ) ^ zoom := by
  unfold ImageSource.zoomToScale
  rw [if_neg (by omega), shiftLeftOne_of_le h0 h1]
  have hz : (((2 : ℤ) ^ zoom.toNat : ℤ) : ℚ) = (2 : ℚ) ^ zoom := by
    push_cast
    rw [← zpow_natCast, Int.toNat_of_nonneg h0]
  rw [hz, one_mul]
  unfold toDouble toFloat
  rw [roundToPrec_zpow 53 (by norm_num), roundToPrec_zpow 24 (by norm_num)]

theorem zoomToScale_of_neg {zoom : ℤ} (h0 : -30 ≤ zoom) (h1 : zoom < 0) :
    ImageSource.zoomToScale zoom = (2 : ℚ) ^ zoom := by
  unfold ImageSource.zoomToScale
  have hw : wrapInt (-zoom) = -zoom := wrapInt_of_isInt (by unfold IsInt; omega)
  rw [if_pos h1, hw, shiftLeftOne_of_le (by omega) (by omega)]
  have hz : (1 : ℚ) / (((2 : ℤ) ^ (-zoom).toNat : ℤ) : ℚ) = (2 : ℚ) ^ zoom := by
    push_cast
    rw [← zpow_natCast, Int.toNat_of_nonneg (by omega), zpow_neg]
    simp
  rw [hz]
  unfold toDouble toFloat
  rw [roundToPrec_zpow 53 (by norm_num), roundToPrec_zpow 24 (by norm_num)]

/-- Within the shift range of `int`, `zoomToScale` is the exact power of two. -/
theorem zoomToScale_eq {zoom : ℤ} (h0 : -30 ≤ zoom) (h1 : zoom ≤ 30) :
    ImageSource.zoomToScale zoom = (2 : ℚ) ^ zoom := by
  rcases lt_or_le zoom 0 with h | h
  · exact zoomToScale_of_neg h0 h
  · exact zoomToScale_of_nonneg h h1

theorem zoomToScale_thirtyOne : ImageSource.zoomToScale 31 = -(2 : ℚ) ^ (31 : ℤ) := by
  unfold ImageSource.zoomToScale
  have hs : shiftLeftOne 31 = -2 ^ 31 := by decide
  rw [if_neg (by norm_num), hs]
  have hz : (1 : ℚ) * ((-2 ^ 31 : ℤ) : ℚ) = -(2 : ℚ) ^ (31 : ℤ) := by norm_num
  rw [hz]
  unfold toDouble toFloat
  rw [roundToPrec_neg_zpow 53 (by norm_num), roundToPrec_neg_zpow 24 (by norm_num)]

open ImageSource

/-! ## Facts on decimal renderings -/

theorem digitChar_value {k : ℕ} (h : k < 10) : (Nat.digitChar k).toNat - 48 = k := by
  interval_cases k <;> rfl

theorem digitChar_ne_slash {k : ℕ} (h : k < 10) : Nat.digitChar k ≠ '/' := by
  interval_cases k <;> decide

theorem digitChar_ne_minus {k : ℕ} (h : k < 10) : Nat.digitChar k ≠ '-' := by
  interval_cases k <;> decide

theorem decodeNat_append_singleton (l : List Char) (c : Char) :
    decodeNat (l ++ [c]) = decodeNat l * 10 + (c.toNat - 48) := by
  simp [decodeNat, List.foldl_append]

theorem toDigitsCore_spec (fuel : ℕ) : ∀ (n : ℕ) (ds : List Char), n < fuel →
    ∃ A : List Char, Nat.toDigitsCore 10 fuel n ds = A ++ ds ∧ decodeNat A = n
      ∧ ∀ c ∈ A, c ≠ '/' ∧ c ≠ '-' := by
  induction fuel with
  | zero => intro n ds h; omega
  | succ f ih =>
    intro n ds h
    have hd : n % 10 < 10 := Nat.mod_lt _ (by norm_num)
    by_cases h0 : n / 10 = 0
    · refine ⟨[Nat.digitChar (n % 10)], ?_, ?_, ?_⟩
      · simp [Nat.toDigitsCore, h0]
      · have hn : n % 10 = n := by omega
        have hv := digitChar_value hd
        simp only [decodeNat, List.foldl_cons, List.foldl_nil, zero_mul, zero_add, hv]
        exact hn
      · intro c hc
        rw [List.mem_singleton] at hc
        rw [hc]
        exact ⟨digitChar_ne_slash hd, digitChar_ne_minus hd⟩
    · obtain ⟨A, hA, hval, hch⟩ := ih (n / 10) (Nat.digitChar (n % 10) :: ds) (by omega)
      refine ⟨A ++ [Nat.digitChar (n % 10)], ?_, ?_, ?_⟩
      · simp [Nat.toDigitsCore, h0, hA]
      · rw [decodeNat_append_singleton, hval, digitChar_value hd]
        omega
      · intro c hc
        rw [List.mem_append, List.mem_singleton] at hc
        rcases hc with hc | hc
        · exact hch c hc
        · rw [hc]
          exact ⟨digitChar_ne_slash hd, digitChar_ne_minus hd⟩

theorem toDigits_spec (n : ℕ) :
    decodeNat (Nat.toDigits 10 n) = n ∧ ∀ c ∈ Nat.toDigits 10 n, c ≠ '/' ∧ c ≠ '-' := by
  obtain ⟨A, hA, hval, hch⟩ := toDigitsCore_spec (n + 1) n [] (by omega)
  have : Nat.toDigits 10 n = A := by
    unfold Nat.toDigits
    rw [hA, List.append_nil]
  rw [this]
  exact ⟨hval, hch⟩

theorem decodeInt_of_no_minus (l : List Char) (h : ∀ c ∈ l, c ≠ '-') :
    decodeInt l = (decodeNat l : ℤ) := by
  unfold decodeInt
  split
  · rename_i t
    exact absurd rfl (h '-' (List.mem_cons_self _ _))
  · rfl

theorem toString_int_data (i : ℤ) :
    decodeInt (toString i).data = i ∧ ∀ c ∈ (toString i).data, c ≠ '/' := by
  cases i with
  | ofNat m =>
    have h := toDigits_spec m
    have hd : (toString (Int.ofNat m)).data = Nat.toDigits 10 m := rfl
    rw [hd]
    refine ⟨?_, fun c hc => (h.2 c hc).1⟩
    rw [decodeInt_of_no_minus _ (fun c hc => (h.2 c hc).2), h.1]
    rfl
  | negSucc m =>
    have h := toDigits_spec (m + 1)
    have hd : (toString (Int.negSucc m)).data = '-' :: Nat.toDigits 10 (m + 1) := rfl
    rw [hd]
    refine ⟨?_, ?_⟩
    · show -(decodeNat (Nat.toDigits 10 (m + 1)) : ℤ) = Int.negSucc m
      rw [h.1]
      rfl
    · intro c hc
      rw [List.mem_cons] at hc
      rcases hc with hc | hc
      · rw [hc]; decide
      · exact (h.2 c hc).1

theorem split_at_slash : ∀ (l1 l2 r1 r2 : List Char), (∀ c ∈ l1, c ≠ '/') → (∀ c ∈ l2, c ≠ '/') →
    l1 ++ '/' :: r1 = l2 ++ '/' :: r2 → l1 = l2 ∧ r1 = r2 := by
  intro l1
  induction l1 with
  | nil =>
    intro l2 r1 r2 _ h2 h
    cases l2 with
    | nil => simpa using h
    | cons b t =>
      simp only [List.nil_append, List.cons_append, List.cons.injEq] at h
      exact absurd h.1.symm (h2 b (List.mem_cons_self _ _))
  | cons a t ih =>
    intro l2 r1 r2 h1 h2 h
    cases l2 with
    | nil =>
      simp only [List.nil_append, List.cons_append, List.cons.injEq] at h
      exact absurd h.1 (h1 a (List.mem_cons_self _ _))
    | cons b t2 =>
      simp only [List.cons_append, List.cons.injEq] at h
      obtain ⟨hl, hr⟩ := ih t2 r1 r2 (fun c hc => h1 c (List.mem_cons_of_mem _ hc))
        (fun c hc => h2 c (List.mem_cons_of_mem _ hc)) h.2
      exact ⟨by rw [h.1, hl], hr⟩

/-- The rendering `zoom/x/y` determines the three numbers. -/
theorem tileName_injective (z1 x1 y1 z2 x2 y2 : ℤ)
    (h : toString z1 ++ "/" ++ toString x1 ++ "/" ++ toString y1
      = toString z2 ++ "/" ++ toString x2 ++ "/" ++ toString y2) :
    x1 = x2 ∧ y1 = y2 ∧ z1 = z2 := by
  have hd := congrArg String.data h
  simp only [String.data_append, List.append_assoc] at hd
  simp only [List.singleton_append] at hd
  obtain ⟨hz, hrest⟩ := split_at_slash _ _ _ _ (toString_int_data z1).2 (toString_int_data z2).2 hd
  obtain ⟨hx, hy⟩ := split_at_slash _ _ _ _ (toString_int_data x1).2 (toString_int_data x2).2 hrest
  refine ⟨?_, ?_, ?_⟩
  · rw [← (toString_int_data x1).1, ← (toString_int_data x2).1, hx]
  · rw [← (toString_int_data y1).1, ← (toString_int_data y2).1, hy]
  · rw [← (toString_int_data z1).1, ← (toString_int_data z2).1, hz]

/-! ## Exact range of `float` and the tile validation -/

theorem log2_eq_of_bounds {q : ℚ} {k : ℤ} (h1 : (2 : ℚ) ^ k ≤ q) (h2 : q < (2 : ℚ) ^ (k + 1)) :
    Int.log 2 q = k := by
  have hpos : (0 : ℚ) < q := lt_of_lt_of_le (by positivity) h1
  have ha : k ≤ Int.log 2 q :=
    (Int.zpow_le_iff_le_log (by norm_num) hpos).mp (by exact_mod_cast h1)
  have hb : Int.log 2 q < k + 1 :=
    (Int.lt_zpow_iff_log_lt (by norm_num) hpos).mp (by exact_mod_cast h2)
  omega

/-- Rounding when the binary exponent of the argument is known. -/
theorem roundToPrec_of_bounds (p : ℕ) {q : ℚ} {k : ℤ} (h1 : (2 : ℚ) ^ k ≤ |q|)
    (h2 : |q| < (2 : ℚ) ^ (k + 1)) :
    roundToPrec p q
      = (roundHalfEven (q / (2 : ℚ) ^ (k - ((p : ℤ) - 1))) : ℚ) * (2 : ℚ) ^ (k - ((p : ℤ) - 1)) := by
  have hq : q ≠ 0 := by
    intro h
    rw [h, abs_zero] at h1
    exact absurd h1 (not_le.mpr (by positivity))
  unfold roundToPrec
  rw [if_neg hq, log2_eq_of_bounds h1 h2]

theorem toFloat_intCast_mul_zpow {n : ℤ} (hn : |n| ≤ 2 ^ 24) (j : ℤ) :
    toFloat ((n : ℚ) * (2 : ℚ) ^ j) = (n : ℚ) * (2 : ℚ) ^ j := by
  unfold toFloat
  rcases lt_or_eq_of_le hn with h | h
  · exact roundToPrec_dyadic 24 n j h
  · have h2 : (2 : ℚ) ^ (24 + j) = (2 : ℚ) ^ (24 : ℕ) * (2 : ℚ) ^ j := by
      rw [zpow_add₀ (by norm_num : (2 : ℚ) ≠ 0)]
      norm_num
    rcases abs_eq (by positivity : (0 : ℤ) ≤ 2 ^ 24) |>.mp h with h1 | h1
    · have h3 : (n : ℚ) * (2 : ℚ) ^ j = (2 : ℚ) ^ (24 + j) := by
        rw [h2, h1]
        push_cast
        ring
      rw [h3]
      exact roundToPrec_zpow 24 (by norm_num) _
    · have h3 : (n : ℚ) * (2 : ℚ) ^ j = -(2 : ℚ) ^ (24 + j) := by
        rw [h2, h1]
        push_cast
        ring
      rw [h3]
      exact roundToPrec_neg_zpow 24 (by norm_num) _

theorem toFloat_intCast {n : ℤ} (hn : |n| ≤ 2 ^ 24) : toFloat (n : ℚ) = (n : ℚ) := by
  have h := toFloat_intCast_mul_zpow hn 0
  simpa using h

theorem wrapInt_of_abs_le {n : ℤ} (hn : |n| ≤ 2 ^ 24) : wrapInt n = n := by
  apply wrapInt_of_isInt
  have h := abs_le.mp hn
  unfold IsInt
  constructor <;> omega

/-- Inside the exact range of `float` the validation compares the exact quantities. -/
theorem check_accepts_iff (TILE_SIZE : ℤ) (self : ImageSource) (x y zoom : ℤ)
    (hT : 0 < TILE_SIZE)
    (hw : |self.image.width| ≤ 2 ^ 24) (hh : |self.image.height| ≤ 2 ^ 24)
    (hx : |x * TILE_SIZE| ≤ 2 ^ 24) (hy : |y * TILE_SIZE| ≤ 2 ^ 24)
    (hz0 : -30 ≤ zoom) (hz1 : zoom ≤ 30) :
    (checkAndCorrectTileCoordinates TILE_SIZE self x y zoom).1 = true ↔
      (0 ≤ x * TILE_SIZE
        ∧ ((x * TILE_SIZE : ℤ) : ℚ) < (self.image.width : ℚ) * (2 : ℚ) ^ zoom
        ∧ 0 ≤ y * TILE_SIZE
        ∧ ((y * TILE_SIZE : ℤ) : ℚ) < (self.image.height : ℚ) * (2 : ℚ) ^ zoom) := by
  unfold checkAndCorrectTileCoordinates
  rw [zoomToScale_eq hz0 hz1, toFloat_intCast hw, toFloat_intCast hh,
    toFloat_intCast_mul_zpow hw, toFloat_intCast_mul_zpow hh,
    wrapInt_of_abs_le hx, wrapInt_of_abs_le hy, toFloat_intCast hx, toFloat_intCast hy]
  have hx0 : 0 ≤ x * TILE_SIZE ↔ ¬ x < 0 := by
    rw [not_lt]
    constructor
    · intro h
      exact nonneg_of_mul_nonneg_left h hT
    · intro h
      exact mul_nonneg h hT.le
  have hy0 : 0 ≤ y * TILE_SIZE ↔ ¬ y < 0 := by
    rw [not_lt]
    constructor
    · intro h
      exact nonneg_of_mul_nonneg_left h hT
    · intro h
      exact mul_nonneg h hT.le
  rw [hx0, hy0]
  split_ifs with h
  · simp only [Bool.false_eq_true, false_iff]
    rintro ⟨h1, h2, h3, h4⟩
    rcases h with h | h | h | h
    · exact h1 h
    · exact absurd h2 (not_lt.mpr h)
    · exact h3 h
    · exact absurd h4 (not_lt.mpr h)
  · simp only [true_iff]
    push_neg at h
    exact ⟨not_lt.mpr h.1, h.2.1, not_lt.mpr h.2.2.1, h.2.2.2⟩

theorem zoomToScale_zero : zoomToScale 0 = 1 := by
  rw [zoomToScale_eq (by norm_num) (by norm_num)]
  norm_num

theorem zoomToScale_neg_one : zoomToScale (-1) = 1 / 2 := by
  rw [zoomToScale_eq (by norm_num) (by norm_num)]
  norm_num

/-- C1 (as amended): for a positive tile size, image sides of at most `2^24` pixels,
products `x * TILE_SIZE` and `y * TILE_SIZE` of at most `2^24` and a zoom between `-30` and
`30`, the validation accepts exactly when `0 ≤ x * TILE_SIZE < width * 2^zoom` and
`0 ≤ y * TILE_SIZE < height * 2^zoom`, and rejects in every other case. -/
theorem checkAndCorrectTileCoordinates_accepts_iff (TILE_SIZE : ℤ) (self : ImageSource)
    (x y zoom : ℤ) (hT : 0 < TILE_SIZE)
    (hw : |self.image.width| ≤ 2 ^ 24) (hh : |self.image.height| ≤ 2 ^ 24)
    (hx : |x * TILE_SIZE| ≤ 2 ^ 24) (hy : |y * TILE_SIZE| ≤ 2 ^ 24)
    (hz0 : -30 ≤ zoom) (hz1 : zoom ≤ 30) :
    ((checkAndCorrectTileCoordinates TILE_SIZE self x y zoom).1 = true ↔
      (0 ≤ x * TILE_SIZE
        ∧ ((x * TILE_SIZE : ℤ) : ℚ) < (self.image.width : ℚ) * zoomToScale zoom
        ∧ 0 ≤ y * TILE_SIZE
        ∧ ((y * TILE_SIZE : ℤ) : ℚ) < (self.image.height : ℚ) * zoomToScale zoom))
    ∧ ((checkAndCorrectTileCoordinates TILE_SIZE self x y zoom).1 = false ↔
      (x < 0 ∨ (self.image.width : ℚ) * zoomToScale zoom ≤ ((x * TILE_SIZE : ℤ) : ℚ)
        ∨ y < 0 ∨ (self.image.height : ℚ) * zoomToScale zoom ≤ ((y * TILE_SIZE : ℤ) : ℚ)))
    ∧ zoomToScale zoom = (2 : ℚ) ^ zoom := by
  have h := check_accepts_iff TILE_SIZE self x y zoom hT hw hh hx hy hz0 hz1
  rw [zoomToScale_eq hz0 hz1]
  refine ⟨h, ?_, rfl⟩
  rw [← Bool.not_eq_true, h]
  have hx0 : 0 ≤ x * TILE_SIZE ↔ 0 ≤ x :=
    ⟨fun h => nonneg_of_mul_nonneg_left h hT, fun h => mul_nonneg h hT.le⟩
  have hy0 : 0 ≤ y * TILE_SIZE ↔ 0 ≤ y :=
    ⟨fun h => nonneg_of_mul_nonneg_left h hT, fun h => mul_nonneg h hT.le⟩
  rw [hx0, hy0]
  constructor
  · intro hn
    by_contra hc
    push_neg at hc
    exact hn ⟨hc.1, hc.2.1, hc.2.2.1, hc.2.2.2⟩
  · rintro (h1 | h1 | h1 | h1) ⟨h2, h3, h4, h5⟩
    · omega
    · exact absurd h3 (not_lt.mpr h1)
    · omega
    · exact absurd h5 (not_lt.mpr h1)

theorem check_example :
    (checkAndCorrectTileCoordinates 256 ⟨⟨2048, 2048, none⟩⟩ 2 3 (-1)).1 = true := by
  rw [check_accepts_iff 256 ⟨⟨2048, 2048, none⟩⟩ 2 3 (-1) (by norm_num) (by norm_num [abs_le])
    (by norm_num [abs_le]) (by norm_num [abs_le]) (by norm_num [abs_le]) (by norm_num)
    (by norm_num)]
  norm_num

/-- Witness of C1: tile `(2, 3)` of a 2048 x 2048 image at zoom `-1`, tile size 256. -/
theorem checkAndCorrectTileCoordinates_accepts_iff_witness :
    (checkAndCorrectTileCoordinates 256 ⟨⟨2048, 2048, none⟩⟩ 2 3 (-1)).1 = true
    ∧ zoomToScale (-1) = (2 : ℚ) ^ (-1 : ℤ) := by
  have h := checkAndCorrectTileCoordinates_accepts_iff 256 ⟨⟨2048, 2048, none⟩⟩ 2 3 (-1)
    (by norm_num) (by norm_num [abs_le]) (by norm_num [abs_le]) (by norm_num [abs_le])
    (by norm_num [abs_le]) (by norm_num) (by norm_num)
  refine ⟨h.1.mpr ?_, h.2.2⟩
  rw [zoomToScale_neg_one]
  norm_num

theorem toFloat_16777217 : toFloat ((16777217 : ℤ) : ℚ) = 16777216 := by
  unfold toFloat
  rw [roundToPrec_of_bounds 24 (k := 24) (by norm_num) (by norm_num)]
  norm_num [roundHalfEven]

/-- C1, counterexample: for an image 16777217 pixels wide (and one pixel high), tile size
256 and zoom 0, the tile `x = 65536, y = 0` satisfies `0 ≤ x * TILE_SIZE < width * scale`
and `0 ≤ y * TILE_SIZE < height * scale`, yet it is rejected: the width is rounded to the
`float` 16777216 before the comparison. -/
theorem checkAndCorrectTileCoordinates_rejects_inside :
    (checkAndCorrectTileCoordinates 256 ⟨⟨16777217, 1, none⟩⟩ 65536 0 0).1 = false
    ∧ (0 ≤ (65536 : ℤ) * 256
      ∧ (((65536 : ℤ) * 256 : ℤ) : ℚ) < ((16777217 : ℤ) : ℚ) * zoomToScale 0
      ∧ 0 ≤ (0 : ℤ) * 256
      ∧ (((0 : ℤ) * 256 : ℤ) : ℚ) < ((1 : ℤ) : ℚ) * zoomToScale 0) := by
  constructor
  · unfold checkAndCorrectTileCoordinates
    have h1 : wrapInt (65536 * 256) = 16777216 := by decide
    have h2 : toFloat (((16777216 : ℤ) : ℚ)) = 16777216 := by
      have h := toFloat_intCast (n := 16777216) (by norm_num [abs_le])
      simpa using h
    have h3 : toFloat ((16777216 : ℚ) * 1) = 16777216 := by
      rw [mul_one]
      simpa using h2
    simp only [zoomToScale_zero, toFloat_16777217, h1, h2, h3]
    norm_num
  · rw [zoomToScale_zero]
    norm_num

/-! ## Tile names -/

theorem check_snd (TILE_SIZE : ℤ) (self : ImageSource) (x y zoom : ℤ) :
    (checkAndCorrectTileCoordinates TILE_SIZE self x y zoom).2 = (x, y) := by
  unfold checkAndCorrectTileCoordinates
  split_ifs <;> rfl

theorem getUniqueTileName_of_accepted (TILE_SIZE : ℤ) (self : ImageSource) (x y zoom : ℤ)
    (h : (checkAndCorrectTileCoordinates TILE_SIZE self x y zoom).1 = true) :
    getUniqueTileName TILE_SIZE self x y zoom
      = Except.ok (toString zoom ++ "/" ++ toString x ++ "/" ++ toString y) := by
  have h2 := check_snd TILE_SIZE self x y zoom
  unfold getUniqueTileName
  rcases hc : checkAndCorrectTileCoordinates TILE_SIZE self x y zoom with ⟨b, x1, y1⟩
  rw [hc] at h h2
  simp only at h
  simp only [Prod.mk.injEq] at h2
  rw [h, h2.1, h2.2]

theorem getUniqueTileName_of_rejected (TILE_SIZE : ℤ) (self : ImageSource) (x y zoom : ℤ)
    (h : (checkAndCorrectTileCoordinates TILE_SIZE self x y zoom).1 = false) :
    getUniqueTileName TILE_SIZE self x y zoom = Except.error "Invalid coordinates" := by
  unfold getUniqueTileName
  rcases hc : checkAndCorrectTileCoordinates TILE_SIZE self x y zoom with ⟨b, x1, y1⟩
  rw [hc] at h
  simp only at h
  rw [h]

/-- C2: `getUniqueTileName` fails with the invalid-coordinates error exactly when the
validation returns false; when the validation accepts, it returns the decimal rendering
of the zoom, a slash, that of `x`, a slash and that of `y`, which for accepted
coordinates `x = 2`, `y = 3`, `zoom = -1` is the string `-1/2/3`. -/
theorem getUniqueTileName_spec (TILE_SIZE : ℤ) (self : ImageSource) (x y zoom : ℤ) :
    (getUniqueTileName TILE_SIZE self x y zoom = Except.error "Invalid coordinates"
      ↔ (checkAndCorrectTileCoordinates TILE_SIZE self x y zoom).1 = false)
    ∧ ((checkAndCorrectTileCoordinates TILE_SIZE self x y zoom).1 = true →
        getUniqueTileName TILE_SIZE self x y zoom
          = Except.ok (toString zoom ++ "/" ++ toString x ++ "/" ++ toString y))
    ∧ ((checkAndCorrectTileCoordinates TILE_SIZE self 2 3 (-1)).1 = true →
        getUniqueTileName TILE_SIZE self 2 3 (-1) = Except.ok "-1/2/3") := by
  refine ⟨⟨?_, getUniqueTileName_of_rejected TILE_SIZE self x y zoom⟩,
    getUniqueTileName_of_accepted TILE_SIZE self x y zoom, ?_⟩
  · intro h
    by_contra hc
    rw [Bool.not_eq_false] at hc
    rw [getUniqueTileName_of_accepted TILE_SIZE self x y zoom hc] at h
    exact absurd h (by simp)
  · intro h
    rw [getUniqueTileName_of_accepted TILE_SIZE self 2 3 (-1) h]
    rfl

/-- Witness of C2: tile `(2, 3)` at zoom `-1` of a 2048 x 2048 image, tile size 256. -/
theorem getUniqueTileName_spec_witness :
    (checkAndCorrectTileCoordinates 256 ⟨⟨2048, 2048, none⟩⟩ 2 3 (-1)).1 = true
    ∧ getUniqueTileName 256 ⟨⟨2048, 2048, none⟩⟩ 2 3 (-1) = Except.ok "-1/2/3" :=
  ⟨check_example,
    (getUniqueTileName_spec 256 ⟨⟨2048, 2048, none⟩⟩ 2 3 (-1)).2.2 check_example⟩

/-- C3: tile names are unique: two coordinate triples that both pass the validation and
get the same name from `getUniqueTileName` are the same triple. -/
theorem getUniqueTileName_injective (TILE_SIZE : ℤ) (self : ImageSource)
    (x1 y1 z1 x2 y2 z2 : ℤ)
    (h1 : (checkAndCorrectTileCoordinates TILE_SIZE self x1 y1 z1).1 = true)
    (h2 : (checkAndCorrectTileCoordinates TILE_SIZE self x2 y2 z2).1 = true)
    (h : getUniqueTileName TILE_SIZE self x1 y1 z1 = getUniqueTileName TILE_SIZE self x2 y2 z2) :
    x1 = x2 ∧ y1 = y2 ∧ z1 = z2 := by
  rw [getUniqueTileName_of_accepted TILE_SIZE self x1 y1 z1 h1,
    getUniqueTileName_of_accepted TILE_SIZE self x2 y2 z2 h2] at h
  exact tileName_injective z1 x1 y1 z2 x2 y2 (Except.ok.inj h)

/-- Witness of C3: the tile `(2, 3)` at zoom `-1` of a 2048 x 2048 image, tile size 256. -/
theorem getUniqueTileName_injective_witness :
    (checkAndCorrectTileCoordinates 256 ⟨⟨2048, 2048, none⟩⟩ 2 3 (-1)).1 = true
    ∧ ((2 : ℤ) = 2 ∧ (3 : ℤ) = 3 ∧ (-1 : ℤ) = -1) :=
  ⟨check_example,
    getUniqueTileName_injective 256 ⟨⟨2048, 2048, none⟩⟩ 2 3 (-1) 2 3 (-1)
      check_example check_example rfl⟩

/-! ## The scale of a zoom level -/

/-- C4 (as amended): for every zoom between `-30` and `30`, `zoomToScale` is the exact
power of two `2^zoom`: the integer `2^zoom` for a zoom of at least 0, and `1 / 2^(-zoom)`,
positive and smaller than 1, for a negative zoom; `zoomToScale 0 = 1`. -/
theorem zoomToScale_eq_two_pow (zoom : ℤ) (h0 : -30 ≤ zoom) (h1 : zoom ≤ 30) :
    zoomToScale zoom = (2 : ℚ) ^ zoom
    ∧ (0 ≤ zoom → zoomToScale zoom = (((2 : ℤ) ^ zoom.toNat : ℤ) : ℚ))
    ∧ (zoom < 0 → zoomToScale zoom = 1 / (((2 : ℤ) ^ (-zoom).toNat : ℤ) : ℚ)
        ∧ 0 < zoomToScale zoom ∧ zoomToScale zoom < 1)
    ∧ zoomToScale 0 = 1 := by
  refine ⟨zoomToScale_eq h0 h1, ?_, ?_, zoomToScale_zero⟩
  · intro h
    rw [zoomToScale_eq h0 h1]
    push_cast
    rw [← zpow_natCast, Int.toNat_of_nonneg h]
  · intro h
    rw [zoomToScale_eq h0 h1]
    refine ⟨?_, by positivity, ?_⟩
    · push_cast
      rw [← zpow_natCast, Int.toNat_of_nonneg (by omega), zpow_neg]
      simp
    · exact zpow_lt_one_of_neg₀ (by norm_num) h

/-- Witness of C4: zoom `-3`. -/
theorem zoomToScale_eq_two_pow_witness : zoomToScale (-3) = (2 : ℚ) ^ (-3 : ℤ) :=
  (zoomToScale_eq_two_pow (-3) (by norm_num) (by norm_num)).1

/-- C4, counterexample: at zoom 31 the shift `1 << 31` leaves the range of `int`, and
`zoomToScale 31` is `-2^31`, not `2^31`. -/
theorem zoomToScale_thirtyOne_ne :
    zoomToScale 31 = -(2 : ℚ) ^ (31 : ℤ) ∧ zoomToScale 31 ≠ (2 : ℚ) ^ (31 : ℤ) := by
  refine ⟨zoomToScale_thirtyOne, ?_⟩
  rw [zoomToScale_thirtyOne]
  norm_num

/-- C5 (as amended): `zoomToScale` is strictly increasing on the zoom levels between `-30`
and `30`, with `zoomToScale 0 = 1` separating the shrinking levels from the magnifying
ones. -/
theorem zoomToScale_strictMono (a b : ℤ) (ha : -30 ≤ a) (hab : a < b) (hb : b ≤ 30) :
    zoomToScale a < zoomToScale b
    ∧ (a < 0 → zoomToScale a < 1)
    ∧ (0 < b → 1 < zoomToScale b)
    ∧ zoomToScale 0 = 1 := by
  rw [zoomToScale_eq ha (by omega), zoomToScale_eq (by omega) hb]
  refine ⟨zpow_lt_zpow_right₀ (by norm_num) hab, ?_, ?_, zoomToScale_zero⟩
  · intro h
    exact zpow_lt_one_of_neg₀ (by norm_num) h
  · intro h
    exact one_lt_zpow₀ (by norm_num) h

/-- Witness of C5: zoom levels `-2` and `3`. -/
theorem zoomToScale_strictMono_witness : zoomToScale (-2) < zoomToScale 3 :=
  (zoomToScale_strictMono (-2) 3 (by norm_num) (by norm_num) (by norm_num)).1

/-- C5, counterexample: `30 < 31`, but `zoomToScale 31` is negative and lies below
`zoomToScale 30`. -/
theorem zoomToScale_not_mono : (30 : ℤ) < 31 ∧ ¬ (zoomToScale 30 < zoomToScale 31) := by
  refine ⟨by norm_num, ?_⟩
  rw [zoomToScale_thirtyOne, zoomToScale_eq (by norm_num) (by norm_num)]
  norm_num

/-! ## Rounding stays inside the binade -/

theorem roundHalfEven_sub_abs_le (q : ℚ) : |(roundHalfEven q : ℚ) - q| ≤ 1 / 2 := by
  have h1 := Int.floor_le q
  have h2 := Int.lt_floor_add_one q
  unfold roundHalfEven
  rw [abs_le]
  split_ifs with ha hb hc <;> push_cast <;> constructor <;> linarith

/-- Rounding a positive value of binary exponent `k` to `n + 1` bits: the result stays
between `2^k` and `2^(k+1)`, and it stays clear of either end when the value is more than
half a unit in the last place away from it. -/
theorem roundToPrec_binade (n : ℕ) {q : ℚ} {k : ℤ} (h1 : (2 : ℚ) ^ k ≤ q)
    (h2 : q < (2 : ℚ) ^ (k + 1)) :
    (2 : ℚ) ^ k ≤ roundToPrec (n + 1) q
    ∧ roundToPrec (n + 1) q ≤ (2 : ℚ) ^ (k + 1)
    ∧ (q + (2 : ℚ) ^ (k - n - 1) < (2 : ℚ) ^ (k + 1) → roundToPrec (n + 1) q < (2 : ℚ) ^ (k + 1))
    ∧ ((2 : ℚ) ^ k + (2 : ℚ) ^ (k - n - 1) < q → (2 : ℚ) ^ k < roundToPrec (n + 1) q) := by
  have hq0 : (0 : ℚ) < q := lt_of_lt_of_le (by positivity) h1
  have habs : |q| = q := abs_of_pos hq0
  have hexp : k - (((n + 1 : ℕ) : ℤ) - 1) = k - n := by push_cast; ring
  rw [roundToPrec_of_bounds (n + 1) (k := k) (by rw [habs]; exact h1) (by rw [habs]; exact h2),
    hexp]
  have hu : (0 : ℚ) < (2 : ℚ) ^ (k - n) := by positivity
  have hk : (2 : ℚ) ^ k = (2 : ℚ) ^ n * (2 : ℚ) ^ (k - n) := by
    rw [← zpow_natCast, ← zpow_add₀ (by norm_num : (2 : ℚ) ≠ 0)]
    congr 1
    ring
  have hk1 : (2 : ℚ) ^ (k + 1) = 2 * (2 : ℚ) ^ n * (2 : ℚ) ^ (k - n) := by
    rw [zpow_add₀ (by norm_num : (2 : ℚ) ≠ 0), hk]
    ring
  have hhalf : (2 : ℚ) ^ (k - n - 1) = (1 / 2) * (2 : ℚ) ^ (k - n) := by
    rw [zpow_sub₀ (by norm_num : (2 : ℚ) ≠ 0)]
    simp
    ring
  have hr := abs_le.mp (roundHalfEven_sub_abs_le (q / (2 : ℚ) ^ (k - n)))
  have hs1 : (2 : ℚ) ^ n ≤ q / (2 : ℚ) ^ (k - n) := by
    rw [le_div_iff₀ hu, ← hk]
    exact h1
  have hs2 : q / (2 : ℚ) ^ (k - n) < 2 * (2 : ℚ) ^ n := by
    rw [div_lt_iff₀ hu, ← hk1]
    exact h2
  have hN : (((2 : ℤ) ^ n : ℤ) : ℚ) = (2 : ℚ) ^ n := by push_cast; rfl
  have hlow : (2 : ℤ) ^ n ≤ roundHalfEven (q / (2 : ℚ) ^ (k - n)) := by
    have h : (((2 : ℤ) ^ n - 1 : ℤ) : ℚ) < (roundHalfEven (q / (2 : ℚ) ^ (k - n)) : ℚ) := by
      push_cast
      linarith [hr.1]
    have h3 := Int.cast_lt.mp h
    omega
  have hhigh : roundHalfEven (q / (2 : ℚ) ^ (k - n)) ≤ 2 * (2 : ℤ) ^ n := by
    have h : (roundHalfEven (q / (2 : ℚ) ^ (k - n)) : ℚ) < ((2 * (2 : ℤ) ^ n + 1 : ℤ) : ℚ) := by
      push_cast
      linarith [hr.2]
    have h3 := Int.cast_lt.mp h
    omega
  refine ⟨?_, ?_, ?_, ?_⟩
  · rw [hk]
    apply mul_le_mul_of_nonneg_right _ hu.le
    rw [← hN]
    exact_mod_cast hlow
  · rw [hk1]
    apply mul_le_mul_of_nonneg_right _ hu.le
    have : ((roundHalfEven (q / (2 : ℚ) ^ (k - n)) : ℤ) : ℚ) ≤ ((2 * (2 : ℤ) ^ n : ℤ) : ℚ) :=
      Int.cast_le.mpr hhigh
    push_cast at this
    exact this
  · intro h
    rw [hk1]
    apply mul_lt_mul_of_pos_right _ hu
    rw [hhalf, hk1] at h
    have h4 : q / (2 : ℚ) ^ (k - n) + 1 / 2 < 2 * (2 : ℚ) ^ n := by
      rw [← lt_sub_iff_add_lt, div_lt_iff₀ hu]
      linarith
    have h5 : (roundHalfEven (q / (2 : ℚ) ^ (k - n)) : ℚ) < ((2 * (2 : ℤ) ^ n : ℤ) : ℚ) := by
      push_cast
      linarith [hr.2]
    have h6 := Int.cast_lt.mp h5
    have h7 : ((roundHalfEven (q / (2 : ℚ) ^ (k - n)) : ℤ) : ℚ) ≤ ((2 * (2 : ℤ) ^ n - 1 : ℤ) : ℚ) :=
      Int.cast_le.mpr (by omega)
    push_cast at h7
    linarith
  · intro h
    rw [hk]
    apply mul_lt_mul_of_pos_right _ hu
    rw [hhalf, hk] at h
    have h4 : (2 : ℚ) ^ n + 1 / 2 < q / (2 : ℚ) ^ (k - n) := by
      rw [lt_div_iff₀ hu]
      linarith
    have h5 : (((2 : ℤ) ^ n : ℤ) : ℚ) < (roundHalfEven (q / (2 : ℚ) ^ (k - n)) : ℚ) := by
      push_cast
      linarith [hr.1]
    have h6 := Int.cast_lt.mp h5
    have h7 : (((2 : ℤ) ^ n + 1 : ℤ) : ℚ) ≤ ((roundHalfEven (q / (2 : ℚ) ^ (k - n)) : ℤ) : ℚ) :=
      Int.cast_le.mpr (by omega)
    push_cast at h7
    linarith

/-! ## The minimum zoom level -/

theorem clog2_eq_of_bounds {q : ℚ} {j : ℤ} (h1 : (2 : ℚ) ^ (j - 1) < q) (h2 : q ≤ (2 : ℚ) ^ j) :
    Int.clog 2 q = j := by
  have hpos : (0 : ℚ) < q := lt_trans (by positivity) h1
  have ha : Int.clog 2 q ≤ j :=
    (Int.le_zpow_iff_clog_le (by norm_num) hpos).mp (by exact_mod_cast h2)
  have hb : j - 1 < Int.clog 2 q :=
    (Int.zpow_lt_iff_lt_clog (by norm_num) hpos).mp (by exact_mod_cast h1)
  omega

theorem toDouble_binade {q : ℚ} {k : ℤ} (h1 : (2 : ℚ) ^ k ≤ q) (h2 : q < (2 : ℚ) ^ (k + 1)) :
    (2 : ℚ) ^ k ≤ toDouble q
    ∧ toDouble q ≤ (2 : ℚ) ^ (k + 1)
    ∧ (q + (2 : ℚ) ^ (k - 53) < (2 : ℚ) ^ (k + 1) → toDouble q < (2 : ℚ) ^ (k + 1))
    ∧ ((2 : ℚ) ^ k + (2 : ℚ) ^ (k - 53) < q → (2 : ℚ) ^ k < toDouble q) := by
  have h := roundToPrec_binade 52 h1 h2
  have he : k - ((52 : ℕ) : ℤ) - 1 = k - 53 := by push_cast; ring
  rw [he] at h
  exact h

/-- The quotient `maxDim / TILE_SIZE` of two `int` values in the binade `[2^k, 2^(k+1))`,
`k ≥ 0`, is rounded to a `double` of the same binade, whose logarithm has integer part
`k`. -/
theorem getMinZoomLevel_eq_neg (TILE_SIZE : ℤ) (self : ImageSource) (k : ℤ) (hk : 0 ≤ k)
    (hT : 0 < TILE_SIZE)
    (hw : IsInt self.image.width) (hh : IsInt self.image.height)
    (h1 : (TILE_SIZE : ℚ) * (2 : ℚ) ^ k ≤ ((max self.image.width self.image.height : ℤ) : ℚ))
    (h2 : ((max self.image.width self.image.height : ℤ) : ℚ) < (TILE_SIZE : ℚ) * (2 : ℚ) ^ (k + 1)) :
    getMinZoomLevel TILE_SIZE self = -k := by
  obtain ⟨n, rfl⟩ := Int.eq_ofNat_of_zero_le hk
  set m : ℤ := max self.image.width self.image.height with hm
  have hTq : (0 : ℚ) < (TILE_SIZE : ℚ) := by exact_mod_cast hT
  have hmlt : m < 2 ^ 31 := by
    rw [hm]
    exact max_lt hw.2 hh.2
  -- integer forms of the two bounds
  have h1i : TILE_SIZE * 2 ^ n ≤ m := by
    have : ((TILE_SIZE * 2 ^ n : ℤ) : ℚ) ≤ (m : ℚ) := by
      push_cast
      rw [zpow_natCast] at h1
      exact h1
    exact_mod_cast this
  have h2i : m < TILE_SIZE * 2 ^ (n + 1) := by
    have : (m : ℚ) < ((TILE_SIZE * 2 ^ (n + 1) : ℤ) : ℚ) := by
      push_cast
      have h := h2
      rw [show ((n : ℤ) + 1) = ((n + 1 : ℕ) : ℤ) by push_cast; rfl, zpow_natCast] at h
      exact h
    exact_mod_cast this
  have hq1 : (2 : ℚ) ^ (n : ℤ) ≤ (m : ℚ) / (TILE_SIZE : ℚ) := by
    rw [le_div_iff₀ hTq]
    linarith
  have hq2 : (m : ℚ) / (TILE_SIZE : ℚ) < (2 : ℚ) ^ ((n : ℤ) + 1) := by
    rw [div_lt_iff₀ hTq]
    linarith
  -- the quotient stays away from the next power of two by more than half an ulp
  have hgap : (m : ℚ) / (TILE_SIZE : ℚ) + (2 : ℚ) ^ ((n : ℤ) - 53) < (2 : ℚ) ^ ((n : ℤ) + 1) := by
    have hle : (m : ℚ) ≤ (TILE_SIZE : ℚ) * (2 : ℚ) ^ ((n : ℤ) + 1) - 1 := by
      have : (m : ℚ) ≤ ((TILE_SIZE * 2 ^ (n + 1) - 1 : ℤ) : ℚ) := Int.cast_le.mpr (by omega)
      push_cast at this
      rw [show ((n : ℤ) + 1) = ((n + 1 : ℕ) : ℤ) by push_cast; rfl, zpow_natCast]
      exact this
    have hsmall : (TILE_SIZE : ℚ) * (2 : ℚ) ^ ((n : ℤ) - 53) < 1 := by
      have hb : (TILE_SIZE : ℚ) * (2 : ℚ) ^ (n : ℤ) < (2 : ℚ) ^ (31 : ℤ) := by
        have : ((TILE_SIZE * 2 ^ n : ℤ) : ℚ) < ((2 ^ 31 : ℤ) : ℚ) := Int.cast_lt.mpr (by omega)
        push_cast at this
        rw [zpow_natCast]
        norm_num
        exact this
      have hsplit : (2 : ℚ) ^ ((n : ℤ) - 53) = (2 : ℚ) ^ (n : ℤ) * (2 : ℚ) ^ (-53 : ℤ) := by
        rw [← zpow_add₀ (by norm_num : (2 : ℚ) ≠ 0)]
        congr 1
      rw [hsplit, ← mul_assoc]
      have h53 : (0 : ℚ) < (2 : ℚ) ^ (-53 : ℤ) := by positivity
      calc (TILE_SIZE : ℚ) * (2 : ℚ) ^ (n : ℤ) * (2 : ℚ) ^ (-53 : ℤ)
          < (2 : ℚ) ^ (31 : ℤ) * (2 : ℚ) ^ (-53 : ℤ) := mul_lt_mul_of_pos_right hb h53
        _ < 1 := by norm_num
    rw [← lt_sub_iff_add_lt, div_lt_iff₀ hTq]
    have : ((2 : ℚ) ^ ((n : ℤ) + 1) - (2 : ℚ) ^ ((n : ℤ) - 53)) * (TILE_SIZE : ℚ)
        = (TILE_SIZE : ℚ) * (2 : ℚ) ^ ((n : ℤ) + 1) - (TILE_SIZE : ℚ) * (2 : ℚ) ^ ((n : ℤ) - 53) := by
      ring
    rw [this]
    linarith
  obtain ⟨hv1, _, hv2, _⟩ := toDouble_binade hq1 hq2
  have hv2 := hv2 hgap
  have hone : (1 : ℚ) ≤ (2 : ℚ) ^ (n : ℤ) := one_le_zpow₀ (by norm_num) hk
  have hvpos : ¬ toDouble ((m : ℚ) / (TILE_SIZE : ℚ)) ≤ 0 := by
    rw [not_le]
    linarith
  unfold getMinZoomLevel
  rw [← hm, if_neg hvpos]
  unfold log2Trunc
  rw [if_pos (le_trans hone hv1), log2_eq_of_bounds hv1 hv2]

theorem toDouble_zpow (k : ℤ) : toDouble ((2 : ℚ) ^ k) = (2 : ℚ) ^ k :=
  roundToPrec_zpow 53 (by norm_num) k

/-- For an image smaller than a tile, `maxDim / TILE_SIZE` lies in `(2^(j-1), 2^j]` with
`j = ⌈log2 (maxDim / TILE_SIZE)⌉ ≤ 0`, so does its rounding to a `double`, and the
logarithm of that has integer part `j` toward zero. -/
theorem getMinZoomLevel_small (TILE_SIZE : ℤ) (self : ImageSource)
    (hT : IsInt TILE_SIZE)
    (hm0 : 0 < max self.image.width self.image.height)
    (hmT : max self.image.width self.image.height < TILE_SIZE) :
    getMinZoomLevel TILE_SIZE self
      = -(Int.clog 2 (((max self.image.width self.image.height : ℤ) : ℚ) / (TILE_SIZE : ℚ)))
    ∧ -30 ≤ Int.clog 2 (((max self.image.width self.image.height : ℤ) : ℚ) / (TILE_SIZE : ℚ))
    ∧ Int.clog 2 (((max self.image.width self.image.height : ℤ) : ℚ) / (TILE_SIZE : ℚ)) ≤ 0 := by
  set m : ℤ := max self.image.width self.image.height with hm
  have hTpos : 0 < TILE_SIZE := lt_trans hm0 hmT
  have hTq : (0 : ℚ) < (TILE_SIZE : ℚ) := by exact_mod_cast hTpos
  have hmq : (0 : ℚ) < (m : ℚ) := by exact_mod_cast hm0
  have hq0 : (0 : ℚ) < (m : ℚ) / (TILE_SIZE : ℚ) := div_pos hmq hTq
  have hq1 : (m : ℚ) / (TILE_SIZE : ℚ) < 1 := by
    rw [div_lt_one hTq]
    exact_mod_cast hmT
  set j : ℤ := Int.clog 2 ((m : ℚ) / (TILE_SIZE : ℚ)) with hj
  have hup : (m : ℚ) / (TILE_SIZE : ℚ) ≤ (2 : ℚ) ^ j := by
    have h := Int.self_le_zpow_clog (b := 2) (by norm_num) ((m : ℚ) / (TILE_SIZE : ℚ))
    rw [Nat.cast_ofNat] at h
    exact h
  have hlo : (2 : ℚ) ^ (j - 1) < (m : ℚ) / (TILE_SIZE : ℚ) := by
    have h := Int.zpow_pred_clog_lt_self (b := 2) (r := (m : ℚ) / (TILE_SIZE : ℚ))
      (by norm_num) hq0
    rw [Nat.cast_ofNat] at h
    exact h
  have hj0 : j ≤ 0 := by
    have h : (m : ℚ) / (TILE_SIZE : ℚ) ≤ ((2 : ℕ) : ℚ) ^ (0 : ℤ) := by
      norm_num
      exact hq1.le
    exact (Int.le_zpow_iff_clog_le (by norm_num) hq0).mp h
  -- the quotient exceeds `1 / TILE_SIZE > 2^-31`
  have hTlt : (TILE_SIZE : ℚ) < (2 : ℚ) ^ (31 : ℕ) := by
    have : ((TILE_SIZE : ℤ) : ℚ) < ((2 ^ 31 : ℤ) : ℚ) := Int.cast_lt.mpr hT.2
    push_cast at this
    exact this
  have hqlow : (2 : ℚ) ^ (-31 : ℤ) < (m : ℚ) / (TILE_SIZE : ℚ) := by
    rw [lt_div_iff₀ hTq]
    have h1 : (1 : ℚ) ≤ (m : ℚ) := by exact_mod_cast hm0
    have h2 : (2 : ℚ) ^ (-31 : ℤ) * (TILE_SIZE : ℚ) < (2 : ℚ) ^ (-31 : ℤ) * (2 : ℚ) ^ (31 : ℕ) :=
      mul_lt_mul_of_pos_left hTlt (by positivity)
    have h3 : (2 : ℚ) ^ (-31 : ℤ) * (2 : ℚ) ^ (31 : ℕ) = 1 := by norm_num
    linarith
  have hj30 : -30 ≤ j := by
    have h : (2 : ℚ) ^ (-31 : ℤ) < (2 : ℚ) ^ j := lt_of_lt_of_le hqlow hup
    have := (zpow_lt_zpow_iff_right₀ (by norm_num : (1 : ℚ) < 2)).mp h
    omega
  refine ⟨?_, hj30, hj0⟩
  -- integer part of the logarithm of the rounded quotient
  have hlog : log2Trunc (toDouble ((m : ℚ) / (TILE_SIZE : ℚ))) = j
      ∧ 0 < toDouble ((m : ℚ) / (TILE_SIZE : ℚ)) := by
    rcases eq_or_lt_of_le hup with heq | hlt
    · rw [heq, toDouble_zpow]
      refine ⟨?_, by positivity⟩
      have hlt1 : (2 : ℚ) ^ j < 1 := by rw [← heq]; exact hq1
      unfold log2Trunc
      rw [if_neg (not_le.mpr hlt1)]
      have h := Int.clog_zpow (R := ℚ) (b := 2) (by norm_num) j
      exact_mod_cast h
    · have hb1 : (2 : ℚ) ^ (j - 1) ≤ (m : ℚ) / (TILE_SIZE : ℚ) := hlo.le
      have hb2 : (m : ℚ) / (TILE_SIZE : ℚ) < (2 : ℚ) ^ (j - 1 + 1) := by
        rw [sub_add_cancel]
        exact hlt
      obtain ⟨_, hv2, _, hv4⟩ := toDouble_binade hb1 hb2
      rw [sub_add_cancel] at hv2
      -- more than half an ulp above `2^(j-1)`
      have hgap : (2 : ℚ) ^ (j - 1) + (2 : ℚ) ^ (j - 1 - 53) < (m : ℚ) / (TILE_SIZE : ℚ) := by
        obtain ⟨d, hd⟩ : ∃ d : ℕ, (d : ℤ) = 1 - j := ⟨(1 - j).toNat, by
          rw [Int.toNat_of_nonneg]; omega⟩
        have hjd : j - 1 = -(d : ℤ) := by omega
        have hpd : (0 : ℚ) < (2 : ℚ) ^ d := by positivity
        have hz : (2 : ℚ) ^ (j - 1) = 1 / (2 : ℚ) ^ d := by
          rw [hjd, zpow_neg, zpow_natCast, one_div]
        have hz2 : (2 : ℚ) ^ (j - 1 - 53) = 1 / (2 : ℚ) ^ d * (2 : ℚ) ^ (-53 : ℤ) := by
          rw [← hz, ← zpow_add₀ (by norm_num : (2 : ℚ) ≠ 0)]
          congr 1
        have hi : TILE_SIZE < m * 2 ^ d := by
          have h : (TILE_SIZE : ℚ) < (m : ℚ) * (2 : ℚ) ^ d := by
            have h := hlo
            rw [hz, div_lt_div_iff₀ hpd hTq] at h
            linarith
          exact_mod_cast h
        have hi2 : (TILE_SIZE : ℚ) + 1 ≤ (m : ℚ) * (2 : ℚ) ^ d := by
          have : ((TILE_SIZE + 1 : ℤ) : ℚ) ≤ ((m * 2 ^ d : ℤ) : ℚ) := Int.cast_le.mpr (by omega)
          push_cast at this
          exact this
        have h53 : (TILE_SIZE : ℚ) * (2 : ℚ) ^ (-53 : ℤ) < 1 := by
          calc (TILE_SIZE : ℚ) * (2 : ℚ) ^ (-53 : ℤ)
              < (2 : ℚ) ^ (31 : ℕ) * (2 : ℚ) ^ (-53 : ℤ) :=
                mul_lt_mul_of_pos_right hTlt (by positivity)
            _ < 1 := by norm_num
        rw [hz, hz2, lt_div_iff₀ hTq]
        have hexp : (1 / (2 : ℚ) ^ d + 1 / (2 : ℚ) ^ d * (2 : ℚ) ^ (-53 : ℤ)) * (TILE_SIZE : ℚ)
            = ((TILE_SIZE : ℚ) + (TILE_SIZE : ℚ) * (2 : ℚ) ^ (-53 : ℤ)) / (2 : ℚ) ^ d := by
          field_simp
          ring
        rw [hexp, div_lt_iff₀ hpd]
        linarith
      have hv4 := hv4 hgap
      refine ⟨?_, lt_trans (by positivity) hv4⟩
      unfold log2Trunc
      split_ifs with h1
      · -- the rounded quotient is exactly one
        have hj00 : j = 0 := by
          have h : (1 : ℚ) ≤ (2 : ℚ) ^ j := le_trans h1 hv2
          have h0 : (0 : ℤ) ≤ j := by
            by_contra hneg
            have := zpow_lt_one_of_neg₀ (by norm_num : (1 : ℚ) < 2) (not_le.mp hneg)
            linarith
          omega
        rw [hj00]
        rw [hj00] at hv2
        have hone : toDouble ((m : ℚ) / (TILE_SIZE : ℚ)) = 1 := by
          have : toDouble ((m : ℚ) / (TILE_SIZE : ℚ)) ≤ 1 := by simpa using hv2
          exact le_antisymm this h1
        rw [hone]
        simp
      · exact clog2_eq_of_bounds hv4 hv2
  unfold getMinZoomLevel
  rw [← hm, if_neg (not_le.mpr hlog.2), hlog.1]

/-- For an image of at least one tile, the minimum zoom is minus the floor of the
logarithm, a level between `-30` and `0`. -/
theorem getMinZoomLevel_big (TILE_SIZE : ℤ) (self : ImageSource) (hT : 0 < TILE_SIZE)
    (hw : IsInt self.image.width) (hh : IsInt self.image.height)
    (hmT : TILE_SIZE ≤ max self.image.width self.image.height) :
    getMinZoomLevel TILE_SIZE self
      = -(Int.log 2 (((max self.image.width self.image.height : ℤ) : ℚ) / (TILE_SIZE : ℚ)))
    ∧ 0 ≤ Int.log 2 (((max self.image.width self.image.height : ℤ) : ℚ) / (TILE_SIZE : ℚ))
    ∧ Int.log 2 (((max self.image.width self.image.height : ℤ) : ℚ) / (TILE_SIZE : ℚ)) ≤ 30
    ∧ (2 : ℚ) ^ Int.log 2 (((max self.image.width self.image.height : ℤ) : ℚ) / (TILE_SIZE : ℚ))
        ≤ ((max self.image.width self.image.height : ℤ) : ℚ) / (TILE_SIZE : ℚ)
    ∧ ((max self.image.width self.image.height : ℤ) : ℚ) / (TILE_SIZE : ℚ)
        < (2 : ℚ) ^ (Int.log 2
            (((max self.image.width self.image.height : ℤ) : ℚ) / (TILE_SIZE : ℚ)) + 1) := by
  set m : ℤ := max self.image.width self.image.height with hm
  have hTq : (0 : ℚ) < (TILE_SIZE : ℚ) := by exact_mod_cast hT
  have hq1 : (1 : ℚ) ≤ (m : ℚ) / (TILE_SIZE : ℚ) := by
    rw [one_le_div hTq]
    exact_mod_cast hmT
  have hq0 : (0 : ℚ) < (m : ℚ) / (TILE_SIZE : ℚ) := lt_of_lt_of_le one_pos hq1
  set k : ℤ := Int.log 2 ((m : ℚ) / (TILE_SIZE : ℚ)) with hk
  have hlo : (2 : ℚ) ^ k ≤ (m : ℚ) / (TILE_SIZE : ℚ) := by
    have h := Int.zpow_log_le_self (b := 2) (r := (m : ℚ) / (TILE_SIZE : ℚ)) (by norm_num) hq0
    rw [Nat.cast_ofNat] at h
    exact h
  have hup : (m : ℚ) / (TILE_SIZE : ℚ) < (2 : ℚ) ^ (k + 1) := by
    have h := Int.lt_zpow_succ_log_self (b := 2) (by norm_num) ((m : ℚ) / (TILE_SIZE : ℚ))
    rw [Nat.cast_ofNat] at h
    exact h
  have hk0 : 0 ≤ k := by
    apply (Int.zpow_le_iff_le_log (b := 2) (by norm_num) hq0).mp
    simpa using hq1
  have hmlt : (m : ℚ) < (2 : ℚ) ^ (31 : ℤ) := by
    have h : m < 2 ^ 31 := by
      rw [hm]
      exact max_lt hw.2 hh.2
    have : ((m : ℤ) : ℚ) < ((2 ^ 31 : ℤ) : ℚ) := Int.cast_lt.mpr h
    push_cast at this
    norm_num
    exact this
  have hk30 : k ≤ 30 := by
    have h1 : (m : ℚ) / (TILE_SIZE : ℚ) ≤ (m : ℚ) := by
      apply div_le_self (le_of_lt (lt_of_lt_of_le hTq (by exact_mod_cast hmT)))
      exact_mod_cast hT
    have h2 : (2 : ℚ) ^ k < (2 : ℚ) ^ (31 : ℤ) := lt_of_le_of_lt (le_trans hlo h1) hmlt
    have := (zpow_lt_zpow_iff_right₀ (by norm_num : (1 : ℚ) < 2)).mp h2
    omega
  refine ⟨?_, hk0, hk30, hlo, hup⟩
  apply getMinZoomLevel_eq_neg TILE_SIZE self k hk0 hT hw hh
  · rw [← hm]
    rw [le_div_iff₀ hTq] at hlo
    linarith
  · rw [← hm]
    rw [div_lt_iff₀ hTq] at hup
    linarith

/-- C6 (as amended): for every image whose larger side `m` is positive, `getMinZoomLevel`
is minus the truncation toward zero of `log2 (m / TILE_SIZE)`: minus the floor when the
image is at least one tile long, and then `TILE_SIZE ≤ m * scale < 2 * TILE_SIZE` at that
zoom, so the image fits in two tile edges; minus the ceiling when it is shorter than a
tile, and then it fits in a single tile edge, `m * scale ≤ TILE_SIZE`. -/
theorem getMinZoomLevel_trunc_log2 (TILE_SIZE : ℤ) (self : ImageSource)
    (hT0 : 0 < TILE_SIZE) (hT : IsInt TILE_SIZE)
    (hw : IsInt self.image.width) (hh : IsInt self.image.height)
    (hm0 : 0 < max self.image.width self.image.height) :
    (TILE_SIZE ≤ max self.image.width self.image.height →
      getMinZoomLevel TILE_SIZE self
        = -(Int.log 2 (((max self.image.width self.image.height : ℤ) : ℚ) / (TILE_SIZE : ℚ)))
      ∧ (TILE_SIZE : ℚ) ≤ ((max self.image.width self.image.height : ℤ) : ℚ)
          * zoomToScale (getMinZoomLevel TILE_SIZE self)
      ∧ ((max self.image.width self.image.height : ℤ) : ℚ)
          * zoomToScale (getMinZoomLevel TILE_SIZE self) < 2 * (TILE_SIZE : ℚ))
    ∧ (max self.image.width self.image.height < TILE_SIZE →
      getMinZoomLevel TILE_SIZE self
        = -(Int.clog 2 (((max self.image.width self.image.height : ℤ) : ℚ) / (TILE_SIZE : ℚ)))
      ∧ ((max self.image.width self.image.height : ℤ) : ℚ)
          * zoomToScale (getMinZoomLevel TILE_SIZE self) ≤ (TILE_SIZE : ℚ)
      ∧ (TILE_SIZE : ℚ) < 2 * (((max self.image.width self.image.height : ℤ) : ℚ)
          * zoomToScale (getMinZoomLevel TILE_SIZE self))) := by
  have hTq : (0 : ℚ) < (TILE_SIZE : ℚ) := by exact_mod_cast hT0
  constructor
  · intro hmT
    obtain ⟨he, hk0, hk30, hlo, hup⟩ := getMinZoomLevel_big TILE_SIZE self hT0 hw hh hmT
    refine ⟨he, ?_, ?_⟩
    · rw [he, zoomToScale_eq (by omega) (by omega), zpow_neg]
      rw [le_div_iff₀ hTq] at hlo
      rw [← div_eq_mul_inv, le_div_iff₀ (by positivity)]
      linarith
    · rw [he, zoomToScale_eq (by omega) (by omega), zpow_neg]
      rw [div_lt_iff₀ hTq, zpow_add₀ (by norm_num : (2 : ℚ) ≠ 0)] at hup
      rw [← div_eq_mul_inv, div_lt_iff₀ (by positivity)]
      linarith
  · intro hmT
    obtain ⟨he, hj30, hj0⟩ := getMinZoomLevel_small TILE_SIZE self hT hm0 hmT
    have hq0 : (0 : ℚ) < ((max self.image.width self.image.height : ℤ) : ℚ) / (TILE_SIZE : ℚ) :=
      div_pos (by exact_mod_cast hm0) hTq
    have hup := Int.self_le_zpow_clog (b := 2) (by norm_num)
      (((max self.image.width self.image.height : ℤ) : ℚ) / (TILE_SIZE : ℚ))
    have hlo := Int.zpow_pred_clog_lt_self (b := 2)
      (r := ((max self.image.width self.image.height : ℤ) : ℚ) / (TILE_SIZE : ℚ))
      (by norm_num) hq0
    rw [Nat.cast_ofNat] at hup hlo
    refine ⟨he, ?_, ?_⟩
    · rw [he, zoomToScale_eq (by omega) (by omega), zpow_neg]
      rw [div_le_iff₀ hTq] at hup
      rw [← div_eq_mul_inv, div_le_iff₀ (by positivity)]
      linarith
    · rw [he, zoomToScale_eq (by omega) (by omega), zpow_neg]
      rw [lt_div_iff₀ hTq, zpow_sub₀ (by norm_num : (2 : ℚ) ≠ 0)] at hlo
      rw [← div_eq_mul_inv, mul_div_assoc', lt_div_iff₀ (by positivity)]
      have hp : (0 : ℚ) < (2 : ℚ) ^ Int.clog 2
          (((max self.image.width self.image.height : ℤ) : ℚ) / (TILE_SIZE : ℚ)) := by positivity
      have h2 : (2 : ℚ) ^ Int.clog 2
          (((max self.image.width self.image.height : ℤ) : ℚ) / (TILE_SIZE : ℚ)) / 2 ^ (1 : ℤ)
          * (TILE_SIZE : ℚ) = (TILE_SIZE : ℚ) * (2 : ℚ) ^ Int.clog 2
          (((max self.image.width self.image.height : ℤ) : ℚ) / (TILE_SIZE : ℚ)) / 2 := by
        norm_num
        ring
      rw [h2] at hlo
      linarith

/-- Witness of C6: a 2048 x 1024 image with tile size 256. -/
theorem getMinZoomLevel_trunc_log2_witness :
    getMinZoomLevel 256 ⟨⟨2048, 1024, none⟩⟩
        = -(Int.log 2 (((max 2048 1024 : ℤ) : ℚ) / ((256 : ℤ) : ℚ)))
      ∧ ((256 : ℤ) : ℚ) ≤ ((max 2048 1024 : ℤ) : ℚ)
          * zoomToScale (getMinZoomLevel 256 ⟨⟨2048, 1024, none⟩⟩)
      ∧ ((max 2048 1024 : ℤ) : ℚ)
          * zoomToScale (getMinZoomLevel 256 ⟨⟨2048, 1024, none⟩⟩) < 2 * ((256 : ℤ) : ℚ) :=
  (getMinZoomLevel_trunc_log2 256 ⟨⟨2048, 1024, none⟩⟩ (by norm_num) (by decide) (by decide)
    (by decide) (by decide)).1 (by decide)

/-- C6, counterexample: for a 300 x 200 image and tile size 256, `getMinZoomLevel` is `0`,
while `-⌈log2 (300 / 256)⌉` is `-1`; at zoom `0` the image, 300 pixels long, does not fit
in a tile edge of 256. -/
theorem getMinZoomLevel_not_ceil :
    getMinZoomLevel 256 ⟨⟨300, 200, none⟩⟩ = 0
    ∧ -(Int.clog 2 (((max 300 200 : ℤ) : ℚ) / ((256 : ℤ) : ℚ))) = -1
    ∧ ¬ (((max 300 200 : ℤ) : ℚ) * zoomToScale (getMinZoomLevel 256 ⟨⟨300, 200, none⟩⟩)
          ≤ ((256 : ℤ) : ℚ)) := by
  have h0 : getMinZoomLevel 256 ⟨⟨300, 200, none⟩⟩ = 0 := by
    have h := getMinZoomLevel_eq_neg 256 ⟨⟨300, 200, none⟩⟩ 0 (by norm_num) (by norm_num)
      (by decide) (by decide) (by norm_num) (by norm_num)
    simpa using h
  refine ⟨h0, ?_, ?_⟩
  · rw [clog2_eq_of_bounds (j := 1) (by norm_num) (by norm_num)]
  · rw [h0, zoomToScale_zero]
    norm_num

/-- C7: the minimum zoom is minus the logarithm of `max(width, height) / TILE_SIZE`
truncated toward zero: when `TILE_SIZE * 2^k ≤ max(width, height) < TILE_SIZE * 2^(k+1)`
the result is `-k`; for a 2048 x 1024 image and tile size 256 it is `-3`. -/
theorem getMinZoomLevel_truncates (TILE_SIZE : ℤ) (self : ImageSource) (k : ℕ)
    (hw : IsInt self.image.width) (hh : IsInt self.image.height)
    (h1 : TILE_SIZE * 2 ^ k ≤ max self.image.width self.image.height)
    (h2 : max self.image.width self.image.height < TILE_SIZE * 2 ^ (k + 1)) :
    getMinZoomLevel TILE_SIZE self = -(k : ℤ)
    ∧ getMinZoomLevel 256 ⟨⟨2048, 1024, none⟩⟩ = -3 := by
  constructor
  · have hT : 0 < TILE_SIZE := by
      have h3 : TILE_SIZE * 2 ^ k < TILE_SIZE * 2 ^ (k + 1) := lt_of_le_of_lt h1 h2
      rw [pow_succ] at h3
      have hp : (0 : ℤ) < 2 ^ k := by positivity
      nlinarith
    apply getMinZoomLevel_eq_neg TILE_SIZE self k (by omega) hT hw hh
    · have : ((TILE_SIZE * 2 ^ k : ℤ) : ℚ)
          ≤ ((max self.image.width self.image.height : ℤ) : ℚ) := Int.cast_le.mpr h1
      push_cast at this
      rw [zpow_natCast]
      exact_mod_cast this
    · have : ((max self.image.width self.image.height : ℤ) : ℚ)
          < ((TILE_SIZE * 2 ^ (k + 1) : ℤ) : ℚ) := Int.cast_lt.mpr h2
      rw [show ((k : ℤ) + 1) = ((k + 1 : ℕ) : ℤ) by push_cast; rfl, zpow_natCast]
      exact_mod_cast this
  · have h := getMinZoomLevel_eq_neg 256 ⟨⟨2048, 1024, none⟩⟩ 3 (by norm_num) (by norm_num)
      (by decide) (by decide) (by norm_num) (by norm_num)
    exact h

/-- Witness of C7: a 1000 x 700 image with tile size 256 has minimum zoom `-1`. -/
theorem getMinZoomLevel_truncates_witness :
    getMinZoomLevel 256 ⟨⟨1000, 700, none⟩⟩ = -((1 : ℕ) : ℤ) :=
  (getMinZoomLevel_truncates 256 ⟨⟨1000, 700, none⟩⟩ 1 (by decide) (by decide) (by decide)
    (by decide)).1

/-! ## Tile synthesis -/

/-- C8: for every image and every `(x, y, zoom)`, the image returned by `loadTileImage`
is `TILE_SIZE` wide and `TILE_SIZE` high, which are the dimensions `getTileDimensions`
reports for every zoom (the rescale of the collaborator producing the requested size). -/
theorem loadTileImage_dimensions (TILE_SIZE : ℤ) (self : ImageSource) (x y zoom : ℤ) :
    (loadTileImage TILE_SIZE self x y zoom).width = TILE_SIZE
    ∧ (loadTileImage TILE_SIZE self x y zoom).height = TILE_SIZE
    ∧ getTileDimensions TILE_SIZE self zoom
        = ⟨(loadTileImage TILE_SIZE self x y zoom).width,
           (loadTileImage TILE_SIZE self x y zoom).height⟩
    ∧ getTileDimensions TILE_SIZE self zoom = ⟨TILE_SIZE, TILE_SIZE⟩ := by
  refine ⟨rfl, rfl, rfl, rfl⟩

theorem truncate_intCast (n : ℤ) : truncate (n : ℚ) = n := by
  unfold truncate
  split_ifs <;> simp

theorem toInt_intCast {n : ℤ} (h : IsInt n) : toInt (n : ℚ) = n := by
  unfold toInt
  rw [truncate_intCast, if_pos h]

/-- Division of an integer of at most 24 bits by the scale of a zoom level `≤ 0`, as
`loadTileImage` does it: the `float` quotient is the exact integer `n * 2^(-zoom)`. -/
theorem toInt_div_zoomToScale {n zoom : ℤ} (hn : |n| ≤ 2 ^ 24) (hz0 : -30 ≤ zoom)
    (hz1 : zoom ≤ 0) (hr : IsInt (n * 2 ^ (-zoom).toNat)) :
    toInt (toFloat (toFloat (n : ℚ) / zoomToScale zoom)) = n * 2 ^ (-zoom).toNat
    ∧ ((n * 2 ^ (-zoom).toNat : ℤ) : ℚ) = (n : ℚ) / zoomToScale zoom := by
  have hq : (n : ℚ) / (2 : ℚ) ^ zoom = ((n * 2 ^ (-zoom).toNat : ℤ) : ℚ) := by
    push_cast
    rw [← zpow_natCast, Int.toNat_of_nonneg (by omega), zpow_neg, div_eq_mul_inv]
  have hq2 : (n : ℚ) / (2 : ℚ) ^ zoom = (n : ℚ) * (2 : ℚ) ^ (-zoom) := by
    rw [zpow_neg, div_eq_mul_inv]
  rw [zoomToScale_eq hz0 (by omega), toFloat_intCast hn]
  refine ⟨?_, hq.symm⟩
  rw [hq2, toFloat_intCast_mul_zpow hn, ← hq2, hq, toInt_intCast hr]

/-- C9 (as amended): for a zoom between `-30` and `0`, a tile size and products
`x * TILE_SIZE`, `y * TILE_SIZE` of at most `2^24`, and quotients by the scale inside the
range of `int`, `loadTileImage` crops the window that starts at
`(x * TILE_SIZE / scale, y * TILE_SIZE / scale)` and spans `TILE_SIZE / scale` source
pixels per edge, and rescales it to `TILE_SIZE x TILE_SIZE`.  For a 2048 x 1024 image and
tile size 256, the tile `(0, 0)` at zoom 0 is the top-left 256 x 256 window, already of
the final size; at zoom `-3` the window is 2048 pixels per edge from the origin, its part
inside the image is the whole 2048 x 1024 image, and the result is 256 x 256. -/
theorem loadTileImage_window (TILE_SIZE : ℤ) (self : ImageSource) (x y zoom : ℤ)
    (hz0 : -30 ≤ zoom) (hz1 : zoom ≤ 0)
    (hT : |TILE_SIZE| ≤ 2 ^ 24) (hx : |x * TILE_SIZE| ≤ 2 ^ 24) (hy : |y * TILE_SIZE| ≤ 2 ^ 24)
    (hTr : IsInt (TILE_SIZE * 2 ^ (-zoom).toNat))
    (hxr : IsInt (x * TILE_SIZE * 2 ^ (-zoom).toNat))
    (hyr : IsInt (y * TILE_SIZE * 2 ^ (-zoom).toNat)) :
    loadTileImage TILE_SIZE self x y zoom
        = ⟨TILE_SIZE, TILE_SIZE,
            some ⟨x * TILE_SIZE * 2 ^ (-zoom).toNat, y * TILE_SIZE * 2 ^ (-zoom).toNat,
              TILE_SIZE * 2 ^ (-zoom).toNat, TILE_SIZE * 2 ^ (-zoom).toNat⟩⟩
    ∧ ((x * TILE_SIZE * 2 ^ (-zoom).toNat : ℤ) : ℚ)
        = ((x * TILE_SIZE : ℤ) : ℚ) / zoomToScale zoom
    ∧ ((y * TILE_SIZE * 2 ^ (-zoom).toNat : ℤ) : ℚ)
        = ((y * TILE_SIZE : ℤ) : ℚ) / zoomToScale zoom
    ∧ ((TILE_SIZE * 2 ^ (-zoom).toNat : ℤ) : ℚ) = (TILE_SIZE : ℚ) / zoomToScale zoom
    ∧ loadTileImage 256 ⟨⟨2048, 1024, none⟩⟩ 0 0 0 = ⟨256, 256, some ⟨0, 0, 256, 256⟩⟩
    ∧ loadTileImage 256 ⟨⟨2048, 1024, none⟩⟩ 0 0 (-3) = ⟨256, 256, some ⟨0, 0, 2048, 2048⟩⟩
    ∧ Image.clip ⟨2048, 1024, none⟩ ⟨0, 0, 2048, 2048⟩ = ⟨0, 0, 2048, 1024⟩ := by
  have key : ∀ (T : ℤ) (s : ImageSource) (a b z : ℤ), -30 ≤ z → z ≤ 0 → |T| ≤ 2 ^ 24 →
      |a * T| ≤ 2 ^ 24 → |b * T| ≤ 2 ^ 24 → IsInt (T * 2 ^ (-z).toNat) →
      IsInt (a * T * 2 ^ (-z).toNat) → IsInt (b * T * 2 ^ (-z).toNat) →
      loadTileImage T s a b z
        = ⟨T, T, some ⟨a * T * 2 ^ (-z).toNat, b * T * 2 ^ (-z).toNat,
            T * 2 ^ (-z).toNat, T * 2 ^ (-z).toNat⟩⟩ := by
    intro T s a b z h0 h1 hT ha hb hTr har hbr
    unfold loadTileImage
    rw [wrapInt_of_abs_le ha, wrapInt_of_abs_le hb,
      (toInt_div_zoomToScale hT h0 h1 hTr).1, (toInt_div_zoomToScale ha h0 h1 har).1,
      (toInt_div_zoomToScale hb h0 h1 hbr).1]
    rfl
  refine ⟨key TILE_SIZE self x y zoom hz0 hz1 hT hx hy hTr hxr hyr,
    (toInt_div_zoomToScale hx hz0 hz1 hxr).2, (toInt_div_zoomToScale hy hz0 hz1 hyr).2,
    (toInt_div_zoomToScale hT hz0 hz1 hTr).2, ?_, ?_, ?_⟩
  · have h := key 256 ⟨⟨2048, 1024, none⟩⟩ 0 0 0 (by norm_num) (by norm_num) (by decide)
      (by decide) (by decide) (by decide) (by decide) (by decide)
    simpa using h
  · have h := key 256 ⟨⟨2048, 1024, none⟩⟩ 0 0 (-3) (by norm_num) (by norm_num) (by decide)
      (by decide) (by decide) (by decide) (by decide) (by decide)
    simpa using h
  · decide

/-- Witness of C9: tile `(1, 2)` at zoom `-2` of a 2048 x 1024 image, tile size 256: the
window starts at `(1024, 2048)` and is 1024 pixels per edge. -/
theorem loadTileImage_window_witness :
    loadTileImage 256 ⟨⟨2048, 1024, none⟩⟩ 1 2 (-2)
      = ⟨256, 256, some ⟨1 * 256 * 2 ^ (-(-2 : ℤ)).toNat, 2 * 256 * 2 ^ (-(-2 : ℤ)).toNat,
          256 * 2 ^ (-(-2 : ℤ)).toNat, 256 * 2 ^ (-(-2 : ℤ)).toNat⟩⟩ :=
  (loadTileImage_window 256 ⟨⟨2048, 1024, none⟩⟩ 1 2 (-2) (by norm_num) (by norm_num)
    (by decide) (by decide) (by decide) (by decide) (by decide) (by decide)).1

theorem zoomToScale_nine : zoomToScale 9 = 512 := by
  rw [zoomToScale_eq (by norm_num) (by norm_num)]
  norm_num

/-- C9, counterexample: at zoom 9 and tile size 256 the tile `(0, 0)` would span
`256 / 512 = 1/2` source pixel per edge; the window `loadTileImage` requests is empty. -/
theorem loadTileImage_zoom_nine_empty :
    (loadTileImage 256 ⟨⟨2048, 1024, none⟩⟩ 0 0 9).window = some ⟨0, 0, 0, 0⟩
    ∧ ((256 : ℤ) : ℚ) / zoomToScale 9 = 1 / 2
    ∧ ((0 : ℤ) : ℚ) ≠ ((256 : ℤ) : ℚ) / zoomToScale 9 := by
  have h256 : toFloat ((256 : ℤ) : ℚ) = 256 := by
    have h := toFloat_intCast (n := 256) (by decide)
    simpa using h
  have hhalf : toFloat ((256 : ℚ) / 512) = 1 / 2 := by
    have h := toFloat_intCast_mul_zpow (n := 1) (by decide) (-1)
    norm_num at h
    norm_num
    exact h
  have h0 : toFloat ((0 : ℤ) : ℚ) = 0 := by
    have h := toFloat_intCast (n := 0) (by decide)
    simpa using h
  have ht : toInt (1 / 2) = 0 := by
    unfold toInt truncate
    norm_num
    decide
  have ht0 : toInt 0 = 0 := by
    have h := toInt_intCast (n := 0) (by decide)
    simpa using h
  refine ⟨?_, ?_, ?_⟩
  · unfold loadTileImage
    have hw : wrapInt (0 * 256) = 0 := by decide
    simp only [zoomToScale_nine, hw, h256, hhalf, ht]
    norm_num at h0
    simp only [Int.cast_zero, zero_div, h0, ht0]
    rfl
  · rw [zoomToScale_nine]
    norm_num
  · rw [zoomToScale_nine]
    norm_num

/-! ## The zoom range and the pass-through methods -/

/-- C13: `checkAndCorrectTileCoordinates` never changes its coordinate arguments: for
every image and every `(x, y, zoom)`, whether the call accepts or rejects, the values of
`x` and `y` after the call are their values before it. -/
theorem checkAndCorrectTileCoordinates_keeps_coordinates (TILE_SIZE : ℤ) (self : ImageSource)
    (x y zoom : ℤ) :
    (checkAndCorrectTileCoordinates TILE_SIZE self x y zoom).2 = (x, y)
    ∧ ((checkAndCorrectTileCoordinates TILE_SIZE self x y zoom = (true, x, y))
      ∨ (checkAndCorrectTileCoordinates TILE_SIZE self x y zoom = (false, x, y))) := by
  unfold checkAndCorrectTileCoordinates
  split_ifs
  · exact ⟨rfl, Or.inr rfl⟩
  · exact ⟨rfl, Or.inl rfl⟩

/-- C14: the world-coordinate methods are pass-throughs: `worldToXY a b z = (a, b)` and
`xyToWorld a b z = (a, b)` for all inputs, so each undoes the other, and
`supportsWorldCoords` is false. -/
theorem worldCoords_passThrough (self : ImageSource) (a b : ℚ) (z : ℤ) :
    worldToXY self a b z = ⟨a, b⟩
    ∧ xyToWorld self a b z = ⟨a, b⟩
    ∧ xyToWorld self (worldToXY self a b z).x (worldToXY self a b z).y z = ⟨a, b⟩
    ∧ worldToXY self (xyToWorld self a b z).x (xyToWorld self a b z).y z = ⟨a, b⟩
    ∧ supportsWorldCoords self = false :=
  ⟨rfl, rfl, rfl, rfl, rfl⟩

/-- An image shorter than two tiles has a minimum zoom of at least `0`. -/
theorem getMinZoomLevel_of_lt_two_tiles (TILE_SIZE : ℤ) (self : ImageSource)
    (hT0 : 0 < TILE_SIZE) (hT : IsInt TILE_SIZE)
    (hw : IsInt self.image.width) (hh : IsInt self.image.height)
    (hm0 : 0 < max self.image.width self.image.height)
    (hlt : max self.image.width self.image.height < 2 * TILE_SIZE) :
    0 ≤ getMinZoomLevel TILE_SIZE self := by
  rcases lt_or_le (max self.image.width self.image.height) TILE_SIZE with hs | hb
  · obtain ⟨he, _, hj0⟩ := getMinZoomLevel_small TILE_SIZE self hT hm0 hs
    rw [he]
    omega
  · have h := getMinZoomLevel_eq_neg TILE_SIZE self 0 (le_refl 0) hT0 hw hh
      (by
        have h1 : ((TILE_SIZE : ℤ) : ℚ) ≤ ((max self.image.width self.image.height : ℤ) : ℚ) :=
          Int.cast_le.mpr hb
        rw [zpow_zero, mul_one]
        exact h1)
      (by
        have h1 : ((max self.image.width self.image.height : ℤ) : ℚ) < ((2 * TILE_SIZE : ℤ) : ℚ) :=
          Int.cast_lt.mpr hlt
        rw [Int.cast_mul, Int.cast_ofNat] at h1
        rw [zero_add, zpow_one, mul_comm]
        exact h1)
    rw [h]
    norm_num

/-- An image of at least two tiles has a minimum zoom of at most `-1`. -/
theorem getMinZoomLevel_of_two_tiles (TILE_SIZE : ℤ) (self : ImageSource)
    (hT0 : 0 < TILE_SIZE)
    (hw : IsInt self.image.width) (hh : IsInt self.image.height)
    (hge : 2 * TILE_SIZE ≤ max self.image.width self.image.height) :
    getMinZoomLevel TILE_SIZE self ≤ -1 := by
  have hTq : (0 : ℚ) < (TILE_SIZE : ℚ) := by exact_mod_cast hT0
  obtain ⟨he, _, _, _, hup⟩ := getMinZoomLevel_big TILE_SIZE self hT0 hw hh (by omega)
  have h2 : (2 : ℚ) ≤ ((max self.image.width self.image.height : ℤ) : ℚ) / (TILE_SIZE : ℚ) := by
    rw [le_div_iff₀ hTq]
    have h1 : ((2 * TILE_SIZE : ℤ) : ℚ) ≤ ((max self.image.width self.image.height : ℤ) : ℚ) :=
      Int.cast_le.mpr hge
    rw [Int.cast_mul, Int.cast_ofNat] at h1
    exact h1
  have h3 : (2 : ℚ) ^ (1 : ℤ) < (2 : ℚ) ^ (Int.log 2
      (((max self.image.width self.image.height : ℤ) : ℚ) / (TILE_SIZE : ℚ)) + 1) := by
    rw [zpow_one]
    exact lt_of_le_of_lt h2 hup
  have h4 := (zpow_lt_zpow_iff_right₀ (by norm_num : (1 : ℚ) < 2)).mp h3
  rw [he]
  omega

/-- C11: `getInitialZoomLevel` is `-1` for every image; for an image with a positive
larger side (of `int` dimensions, the tile size being a positive `int`), it lies inside
the zoom range when `max(width, height) ≥ 2 * TILE_SIZE`, and it lies strictly below
`getMinZoomLevel` when `max(width, height) < 2 * TILE_SIZE`. -/
theorem getInitialZoomLevel_spec (TILE_SIZE : ℤ) (self : ImageSource) :
    getInitialZoomLevel self = -1
    ∧ (0 < TILE_SIZE → IsInt TILE_SIZE → IsInt self.image.width → IsInt self.image.height →
        0 < max self.image.width self.image.height →
        (2 * TILE_SIZE ≤ max self.image.width self.image.height →
          getMinZoomLevel TILE_SIZE self ≤ getInitialZoomLevel self
          ∧ getInitialZoomLevel self ≤ getMaxZoomLevel self)
        ∧ (max self.image.width self.image.height < 2 * TILE_SIZE →
          getInitialZoomLevel self < getMinZoomLevel TILE_SIZE self)) := by
  refine ⟨rfl, ?_⟩
  intro hT0 hT hw hh hm0
  constructor
  · intro hge
    refine ⟨getMinZoomLevel_of_two_tiles TILE_SIZE self hT0 hw hh hge, ?_⟩
    unfold getInitialZoomLevel getMaxZoomLevel
    norm_num
  · intro hlt
    have h := getMinZoomLevel_of_lt_two_tiles TILE_SIZE self hT0 hT hw hh hm0 hlt
    unfold getInitialZoomLevel
    omega

/-- Witness of C11: a 2048 x 1024 image lies inside the zoom range with its initial zoom,
a 300 x 200 image does not (tile size 256). -/
theorem getInitialZoomLevel_spec_witness :
    (getMinZoomLevel 256 ⟨⟨2048, 1024, none⟩⟩ ≤ getInitialZoomLevel ⟨⟨2048, 1024, none⟩⟩
      ∧ getInitialZoomLevel ⟨⟨2048, 1024, none⟩⟩ ≤ getMaxZoomLevel ⟨⟨2048, 1024, none⟩⟩)
    ∧ getInitialZoomLevel ⟨⟨300, 200, none⟩⟩ < getMinZoomLevel 256 ⟨⟨300, 200, none⟩⟩ :=
  ⟨((getInitialZoomLevel_spec 256 ⟨⟨2048, 1024, none⟩⟩).2 (by decide) (by decide) (by decide)
      (by decide) (by decide)).1 (by decide),
   ((getInitialZoomLevel_spec 256 ⟨⟨300, 200, none⟩⟩).2 (by decide) (by decide) (by decide)
      (by decide) (by decide)).2 (by decide)⟩

/-- C15, the code at the failing input: for a 64 x 64 image and tile size 256 the
quotient is `1/4`, its logarithm `-2`, and `getMinZoomLevel` is `2`, above
`getMaxZoomLevel = 0`: the zoom range is empty. -/
theorem getMinZoomLevel_above_max :
    getMinZoomLevel 256 ⟨⟨64, 64, none⟩⟩ = 2
    ∧ getMaxZoomLevel ⟨⟨64, 64, none⟩⟩ = 0
    ∧ ¬ (getMinZoomLevel 256 ⟨⟨64, 64, none⟩⟩ ≤ getMaxZoomLevel ⟨⟨64, 64, none⟩⟩) := by
  have h : getMinZoomLevel 256 ⟨⟨64, 64, none⟩⟩ = 2 := by
    obtain ⟨he, _, _⟩ := getMinZoomLevel_small 256 ⟨⟨64, 64, none⟩⟩ (by decide) (by decide)
      (by decide)
    rw [he, clog2_eq_of_bounds (j := -2) (by norm_num) (by norm_num)]
    norm_num
  refine ⟨h, rfl, ?_⟩
  rw [h]
  unfold getMaxZoomLevel
  norm_num

/-! ## Rounding: scaling by a power of two, relative error, idempotence -/

theorem log2_mul_zpow {r : ℚ} (hr : 0 < r) (j : ℤ) :
    Int.log 2 (r * (2 : ℚ) ^ j) = Int.log 2 r + j := by
  have h2 : (0 : ℚ) < (2 : ℚ) ^ j := by positivity
  have hlo : (2 : ℚ) ^ Int.log 2 r ≤ r := by
    have h := Int.zpow_log_le_self (b := 2) (r := r) (by norm_num) hr
    rw [Nat.cast_ofNat] at h
    exact h
  have hup : r < (2 : ℚ) ^ (Int.log 2 r + 1) := by
    have h := Int.lt_zpow_succ_log_self (b := 2) (by norm_num) r
    rw [Nat.cast_ofNat] at h
    exact h
  apply log2_eq_of_bounds
  · rw [zpow_add₀ (by norm_num : (2 : ℚ) ≠ 0)]
    exact mul_le_mul_of_nonneg_right hlo h2.le
  · have he : Int.log 2 r + j + 1 = (Int.log 2 r + 1) + j := by ring
    rw [he, zpow_add₀ (by norm_num : (2 : ℚ) ≠ 0)]
    exact mul_lt_mul_of_pos_right hup h2

/-- Rounding commutes with the multiplication by a power of two. -/
theorem roundToPrec_mul_zpow (p : ℕ) (q : ℚ) (j : ℤ) :
    roundToPrec p (q * (2 : ℚ) ^ j) = roundToPrec p q * (2 : ℚ) ^ j := by
  by_cases hq : q = 0
  · simp [roundToPrec, hq]
  have h2 : (0 : ℚ) < (2 : ℚ) ^ j := by positivity
  have hq2 : q * (2 : ℚ) ^ j ≠ 0 := mul_ne_zero hq h2.ne'
  have habs : |q * (2 : ℚ) ^ j| = |q| * (2 : ℚ) ^ j := by
    rw [abs_mul, abs_of_pos h2]
  unfold roundToPrec
  rw [if_neg hq, if_neg hq2, habs, log2_mul_zpow (abs_pos.mpr hq)]
  have he : Int.log 2 |q| + j - ((p : ℤ) - 1) = (Int.log 2 |q| - ((p : ℤ) - 1)) + j := by ring
  rw [he, zpow_add₀ (by norm_num : (2 : ℚ) ≠ 0), mul_div_mul_right _ _ h2.ne', mul_assoc]

theorem toDouble_mul_zpow (q : ℚ) (j : ℤ) :
    toDouble (q * (2 : ℚ) ^ j) = toDouble q * (2 : ℚ) ^ j :=
  roundToPrec_mul_zpow 53 q j

/-- Rounding a positive value to `n + 1` bits changes it by at most the fraction
`2^-(n+1)` of itself, and leaves it positive. -/
theorem roundToPrec_rel_error (n : ℕ) {q : ℚ} (hq : 0 < q) :
    |roundToPrec (n + 1) q - q| ≤ q * (2 : ℚ) ^ (-((n : ℤ) + 1))
    ∧ 0 < roundToPrec (n + 1) q := by
  have hlo : (2 : ℚ) ^ Int.log 2 q ≤ q := by
    have h := Int.zpow_log_le_self (b := 2) (r := q) (by norm_num) hq
    rw [Nat.cast_ofNat] at h
    exact h
  have hup : q < (2 : ℚ) ^ (Int.log 2 q + 1) := by
    have h := Int.lt_zpow_succ_log_self (b := 2) (by norm_num) q
    rw [Nat.cast_ofNat] at h
    exact h
  have hpos : 0 < roundToPrec (n + 1) q :=
    lt_of_lt_of_le (by positivity) (roundToPrec_binade n hlo hup).1
  refine ⟨?_, hpos⟩
  have habs : |q| = q := abs_of_pos hq
  have hexp : Int.log 2 q - (((n + 1 : ℕ) : ℤ) - 1) = Int.log 2 q - n := by push_cast; ring
  rw [roundToPrec_of_bounds (n + 1) (k := Int.log 2 q) (by rw [habs]; exact hlo)
    (by rw [habs]; exact hup), hexp]
  have hu : (0 : ℚ) < (2 : ℚ) ^ (Int.log 2 q - n) := by positivity
  have hr := roundHalfEven_sub_abs_le (q / (2 : ℚ) ^ (Int.log 2 q - n))
  have hfac : (roundHalfEven (q / (2 : ℚ) ^ (Int.log 2 q - n)) : ℚ) * (2 : ℚ) ^ (Int.log 2 q - n) - q
      = ((roundHalfEven (q / (2 : ℚ) ^ (Int.log 2 q - n)) : ℚ) - q / (2 : ℚ) ^ (Int.log 2 q - n))
        * (2 : ℚ) ^ (Int.log 2 q - n) := by
    field_simp
  rw [hfac, abs_mul, abs_of_pos hu]
  have hsplit : (2 : ℚ) ^ Int.log 2 q * (2 : ℚ) ^ (-((n : ℤ) + 1))
      = (1 / 2) * (2 : ℚ) ^ (Int.log 2 q - n) := by
    rw [← zpow_add₀ (by norm_num : (2 : ℚ) ≠ 0)]
    have : Int.log 2 q + -((n : ℤ) + 1) = (Int.log 2 q - n) + (-1) := by ring
    rw [this, zpow_add₀ (by norm_num : (2 : ℚ) ≠ 0)]
    norm_num
    ring
  calc |(roundHalfEven (q / (2 : ℚ) ^ (Int.log 2 q - n)) : ℚ) - q / (2 : ℚ) ^ (Int.log 2 q - n)|
        * (2 : ℚ) ^ (Int.log 2 q - n)
      ≤ (1 / 2) * (2 : ℚ) ^ (Int.log 2 q - n) := mul_le_mul_of_nonneg_right hr hu.le
    _ = (2 : ℚ) ^ Int.log 2 q * (2 : ℚ) ^ (-((n : ℤ) + 1)) := hsplit.symm
    _ ≤ q * (2 : ℚ) ^ (-((n : ℤ) + 1)) := mul_le_mul_of_nonneg_right hlo (by positivity)

/-- A `double` rounding of a positive value: within the fraction `2^-53`. -/
theorem toDouble_bounds {q : ℚ} (hq : 0 < q) :
    q * (1 - (2 : ℚ) ^ (-53 : ℤ)) ≤ toDouble q ∧ toDouble q ≤ q * (1 + (2 : ℚ) ^ (-53 : ℤ))
    ∧ 0 < toDouble q := by
  obtain ⟨h, hpos⟩ := roundToPrec_rel_error 52 hq
  have he : -(((52 : ℕ) : ℤ) + 1) = -53 := by norm_num
  rw [he] at h
  have h2 := abs_le.mp h
  refine ⟨?_, ?_, hpos⟩
  · unfold toDouble
    linarith [h2.1]
  · unfold toDouble
    linarith [h2.2]

/-- A `float` rounding of a positive value: within the fraction `2^-24`. -/
theorem toFloat_bounds {q : ℚ} (hq : 0 < q) :
    q * (1 - (2 : ℚ) ^ (-24 : ℤ)) ≤ toFloat q ∧ toFloat q ≤ q * (1 + (2 : ℚ) ^ (-24 : ℤ))
    ∧ 0 < toFloat q := by
  obtain ⟨h, hpos⟩ := roundToPrec_rel_error 23 hq
  have he : -(((23 : ℕ) : ℤ) + 1) = -24 := by norm_num
  rw [he] at h
  have h2 := abs_le.mp h
  refine ⟨?_, ?_, hpos⟩
  · unfold toFloat
    linarith [h2.1]
  · unfold toFloat
    linarith [h2.2]

/-- Rounding a rounded positive value again changes nothing. -/
theorem roundToPrec_idem_of_pos (n : ℕ) {q : ℚ} (hq : 0 < q) :
    roundToPrec (n + 1) (roundToPrec (n + 1) q) = roundToPrec (n + 1) q := by
  have hlo : (2 : ℚ) ^ Int.log 2 q ≤ q := by
    have h := Int.zpow_log_le_self (b := 2) (r := q) (by norm_num) hq
    rw [Nat.cast_ofNat] at h
    exact h
  have hup : q < (2 : ℚ) ^ (Int.log 2 q + 1) := by
    have h := Int.lt_zpow_succ_log_self (b := 2) (by norm_num) q
    rw [Nat.cast_ofNat] at h
    exact h
  obtain ⟨hb1, hb2, _, _⟩ := roundToPrec_binade n hlo hup
  rcases eq_or_lt_of_le hb2 with heq | hlt
  · rw [heq]
    exact roundToPrec_zpow (n + 1) (by omega) _
  · have habs : |q| = q := abs_of_pos hq
    have hexp : Int.log 2 q - (((n + 1 : ℕ) : ℤ) - 1) = Int.log 2 q - n := by push_cast; ring
    have hform := roundToPrec_of_bounds (n + 1) (q := q) (k := Int.log 2 q)
      (by rw [habs]; exact hlo) (by rw [habs]; exact hup)
    rw [hexp] at hform
    have hu : (0 : ℚ) < (2 : ℚ) ^ (Int.log 2 q - n) := by positivity
    have hk1 : (2 : ℚ) ^ (Int.log 2 q + 1) = (2 : ℚ) ^ (n + 1) * (2 : ℚ) ^ (Int.log 2 q - n) := by
      rw [← zpow_natCast, ← zpow_add₀ (by norm_num : (2 : ℚ) ≠ 0)]
      congr 1
      push_cast
      ring
    rw [hform, hk1] at hlt
    have hr1 : (roundHalfEven (q / (2 : ℚ) ^ (Int.log 2 q - n)) : ℚ) < (2 : ℚ) ^ (n + 1) :=
      lt_of_mul_lt_mul_right hlt hu.le
    have hr0 : (0 : ℚ) < (roundHalfEven (q / (2 : ℚ) ^ (Int.log 2 q - n)) : ℚ) := by
      have h : (0 : ℚ) < roundToPrec (n + 1) q := lt_of_lt_of_le (by positivity) hb1
      rw [hform] at h
      exact (mul_pos_iff_of_pos_right hu).mp h
    have hri : |roundHalfEven (q / (2 : ℚ) ^ (Int.log 2 q - n))| < 2 ^ (n + 1) := by
      have h0 : 0 < roundHalfEven (q / (2 : ℚ) ^ (Int.log 2 q - n)) := by exact_mod_cast hr0
      rw [abs_of_pos h0]
      exact_mod_cast hr1
    rw [hform]
    exact roundToPrec_dyadic (n + 1) _ _ hri

theorem toDouble_idem_of_pos {q : ℚ} (hq : 0 < q) : toDouble (toDouble q) = toDouble q :=
  roundToPrec_idem_of_pos 52 hq

/-! ## Exact `double` values -/

theorem toDouble_zero : toDouble 0 = 0 := by
  simp [toDouble, roundToPrec]

theorem toDouble_intCast_mul_zpow {n : ℤ} (hn : IsInt n) (j : ℤ) :
    toDouble ((n : ℚ) * (2 : ℚ) ^ j) = (n : ℚ) * (2 : ℚ) ^ j := by
  apply roundToPrec_dyadic 53 n j
  have h := hn
  unfold IsInt at h
  rw [abs_lt]
  constructor <;> omega

/-! ## The suggested initial centre and the tile validation -/

theorem toDouble_le_of_pos {q : ℚ} (hq : 0 < q) :
    0 < toDouble q ∧ toDouble q ≤ 65 / 64 * q := by
  obtain ⟨_, h2, h3⟩ := toDouble_bounds hq
  refine ⟨h3, ?_⟩
  have h53 : (2 : ℚ) ^ (-53 : ℤ) ≤ 1 / 64 := by norm_num
  calc toDouble q ≤ q * (1 + (2 : ℚ) ^ (-53 : ℤ)) := h2
    _ ≤ q * (1 + 1 / 64) := mul_le_mul_of_nonneg_left (by linarith) hq.le
    _ = 65 / 64 * q := by ring

theorem toFloat_bounds_of_pos {q : ℚ} (hq : 0 < q) :
    63 / 64 * q ≤ toFloat q ∧ toFloat q ≤ 65 / 64 * q := by
  obtain ⟨h1, h2, _⟩ := toFloat_bounds hq
  have h24 : (2 : ℚ) ^ (-24 : ℤ) ≤ 1 / 64 := by norm_num
  constructor
  · calc 63 / 64 * q = q * (1 - 1 / 64) := by ring
      _ ≤ q * (1 - (2 : ℚ) ^ (-24 : ℤ)) := mul_le_mul_of_nonneg_left (by linarith) hq.le
      _ ≤ toFloat q := h1
  · calc toFloat q ≤ q * (1 + (2 : ℚ) ^ (-24 : ℤ)) := h2
      _ ≤ q * (1 + 1 / 64) := mul_le_mul_of_nonneg_left (by linarith) hq.le
      _ = 65 / 64 * q := by ring

/-- One coordinate of the suggested centre, for a positive numerator `a` (half the width,
or a sixth of the height): it is a positive finite `double` `c`, and `c * TILE_SIZE` is
at most `(65/64)^3 * a / 2`. -/
theorem center_component {a : ℚ} (ha : 0 < a) {TILE_SIZE : ℤ} (hT : 0 < TILE_SIZE) :
    ∃ c : ℚ, (divDouble (toDouble a) (TILE_SIZE : ℚ)).map
        (fun q => toDouble (q * zoomToScale (-1))) = some c
      ∧ 0 < c ∧ c * (TILE_SIZE : ℚ) ≤ 65 / 64 * (65 / 64) * (65 / 64) * a / 2 := by
  have hTq : (0 : ℚ) < (TILE_SIZE : ℚ) := by exact_mod_cast hT
  obtain ⟨hA0, hA⟩ := toDouble_le_of_pos ha
  have hq : 0 < toDouble a / (TILE_SIZE : ℚ) := div_pos hA0 hTq
  obtain ⟨hB0, hB⟩ := toDouble_le_of_pos hq
  have hq2 : 0 < toDouble (toDouble a / (TILE_SIZE : ℚ)) * (1 / 2) := by positivity
  obtain ⟨hC0, hC⟩ := toDouble_le_of_pos hq2
  refine ⟨toDouble (toDouble (toDouble a / (TILE_SIZE : ℚ)) * (1 / 2)), ?_, hC0, ?_⟩
  · unfold divDouble
    rw [if_neg hTq.ne', zoomToScale_neg_one]
    rfl
  · have hBT : toDouble (toDouble a / (TILE_SIZE : ℚ)) * (TILE_SIZE : ℚ) ≤ 65 / 64 * toDouble a := by
      have h := mul_le_mul_of_nonneg_right hB hTq.le
      have e : 65 / 64 * (toDouble a / (TILE_SIZE : ℚ)) * (TILE_SIZE : ℚ) = 65 / 64 * toDouble a := by
        field_simp
        ring
      rw [e] at h
      exact h
    have hCT : toDouble (toDouble (toDouble a / (TILE_SIZE : ℚ)) * (1 / 2)) * (TILE_SIZE : ℚ)
        ≤ 65 / 64 * (toDouble (toDouble a / (TILE_SIZE : ℚ)) * (TILE_SIZE : ℚ)) / 2 := by
      have h := mul_le_mul_of_nonneg_right hC hTq.le
      have e : 65 / 64 * (toDouble (toDouble a / (TILE_SIZE : ℚ)) * (1 / 2)) * (TILE_SIZE : ℚ)
          = 65 / 64 * (toDouble (toDouble a / (TILE_SIZE : ℚ)) * (TILE_SIZE : ℚ)) / 2 := by ring
      rw [e] at h
      exact h
    linarith

/-- A tile offset `n` of at most three tenths of a side is below the `float` bound of the
validation at the initial zoom. -/
theorem below_scaled_side {s n : ℤ} (hs : IsInt s) (hs0 : 0 < s) (hn0 : 0 ≤ n)
    (hn : (n : ℚ) ≤ 3 / 10 * (s : ℚ)) :
    ¬ toFloat (toFloat (s : ℚ) * zoomToScale (-1)) ≤ toFloat ((wrapInt n : ℤ) : ℚ) := by
  have hsq : (0 : ℚ) < (s : ℚ) := by exact_mod_cast hs0
  have hslt : (s : ℚ) < 2 ^ 31 := by
    have : ((s : ℤ) : ℚ) < ((2 ^ 31 : ℤ) : ℚ) := Int.cast_lt.mpr hs.2
    push_cast at this
    exact this
  have hni : IsInt n := by
    have h1 : (n : ℚ) < 2 ^ 31 := by linarith
    have h2 : n < 2 ^ 31 := by exact_mod_cast h1
    unfold IsInt
    constructor <;> omega
  rw [wrapInt_of_isInt hni, zoomToScale_neg_one, not_le]
  obtain ⟨h1, _⟩ := toFloat_bounds_of_pos hsq
  have hhalf : 0 < toFloat (s : ℚ) * (1 / 2) := by
    have : 0 < toFloat (s : ℚ) := lt_of_lt_of_le (by positivity) h1
    positivity
  obtain ⟨h2, _⟩ := toFloat_bounds_of_pos hhalf
  have hlow : 63 / 64 * (63 / 64) * (s : ℚ) / 2 ≤ toFloat (toFloat (s : ℚ) * (1 / 2)) := by
    linarith
  rcases eq_or_lt_of_le hn0 with h0 | hpos
  · rw [← h0]
    have hz : toFloat ((0 : ℤ) : ℚ) = 0 := by
      have h := toFloat_intCast (n := 0) (by decide)
      simpa using h
    rw [hz]
    linarith
  · have hnq : (0 : ℚ) < (n : ℚ) := by exact_mod_cast hpos
    obtain ⟨_, h3⟩ := toFloat_bounds_of_pos hnq
    linarith

/-- C19: for every image with positive `int` width and height and a positive `int` tile
size, the tile that contains the suggested initial centre `(cx, cy)` passes the validation
at the initial zoom, and `getUniqueTileName` returns its name. -/
theorem suggestInitialCenter_tile_valid (TILE_SIZE : ℤ) (self : ImageSource)
    (hT0 : 0 < TILE_SIZE)
    (hw : IsInt self.image.width) (hw0 : 0 < self.image.width)
    (hh : IsInt self.image.height) (hh0 : 0 < self.image.height) :
    ∃ cx cy : ℚ, suggestInitialCenter TILE_SIZE self = ⟨some cx, some cy⟩
      ∧ (checkAndCorrectTileCoordinates TILE_SIZE self ⌊cx⌋ ⌊cy⌋
          (getInitialZoomLevel self)).1 = true
      ∧ getUniqueTileName TILE_SIZE self ⌊cx⌋ ⌊cy⌋ (getInitialZoomLevel self)
          = Except.ok (toString (getInitialZoomLevel self) ++ "/" ++ toString ⌊cx⌋ ++ "/"
              ++ toString ⌊cy⌋) := by
  have hTq : (0 : ℚ) < (TILE_SIZE : ℚ) := by exact_mod_cast hT0
  have hwq : (0 : ℚ) < (self.image.width : ℚ) := by exact_mod_cast hw0
  have hhq : (0 : ℚ) < (self.image.height : ℚ) := by exact_mod_cast hh0
  obtain ⟨cx, hcx, hcx0, hcxT⟩ :=
    center_component (a := (self.image.width : ℚ) / 2) (by positivity) hT0
  obtain ⟨cy, hcy, hcy0, hcyT⟩ :=
    center_component (a := (self.image.height : ℚ) / 6) (by positivity) hT0
  have key : ∀ {c s : ℚ}, 0 < c → 0 < s → c * (TILE_SIZE : ℚ) ≤ 3 / 10 * s →
      0 ≤ ⌊c⌋ * TILE_SIZE ∧ ((⌊c⌋ * TILE_SIZE : ℤ) : ℚ) ≤ 3 / 10 * s ∧ ¬ ⌊c⌋ < 0 := by
    intro c s hc hs hcs
    have hf0 : 0 ≤ ⌊c⌋ := Int.floor_nonneg.mpr hc.le
    have hfc : ((⌊c⌋ : ℤ) : ℚ) ≤ c := Int.floor_le c
    refine ⟨mul_nonneg hf0 hT0.le, ?_, not_lt.mpr hf0⟩
    push_cast
    have := mul_le_mul_of_nonneg_right hfc hTq.le
    linarith
  obtain ⟨hx0, hxb, hxn⟩ := key hcx0 hwq (by linarith)
  obtain ⟨hy0, hyb, hyn⟩ := key hcy0 hhq (by linarith)
  have hacc : (checkAndCorrectTileCoordinates TILE_SIZE self ⌊cx⌋ ⌊cy⌋
      (getInitialZoomLevel self)).1 = true := by
    have hbx := below_scaled_side hw hw0 hx0 hxb
    have hby := below_scaled_side hh hh0 hy0 hyb
    unfold checkAndCorrectTileCoordinates getInitialZoomLevel
    rw [if_neg]
    push_neg
    exact ⟨not_lt.mp hxn, not_le.mp hbx, not_lt.mp hyn, not_le.mp hby⟩
  refine ⟨cx, cy, ?_, hacc, getUniqueTileName_of_accepted TILE_SIZE self _ _ _ hacc⟩
  unfold suggestInitialCenter getInitialZoomLevel
  rw [hcx, hcy]

/-- Witness of C19: a 2048 x 1024 image with tile size 256. -/
theorem suggestInitialCenter_tile_valid_witness :
    ∃ cx cy : ℚ, suggestInitialCenter 256 ⟨⟨2048, 1024, none⟩⟩ = ⟨some cx, some cy⟩
      ∧ (checkAndCorrectTileCoordinates 256 ⟨⟨2048, 1024, none⟩⟩ ⌊cx⌋ ⌊cy⌋
          (getInitialZoomLevel ⟨⟨2048, 1024, none⟩⟩)).1 = true := by
  obtain ⟨cx, cy, h1, h2, _⟩ := suggestInitialCenter_tile_valid 256 ⟨⟨2048, 1024, none⟩⟩
    (by decide) (by decide) (by decide) (by decide) (by decide)
  exact ⟨cx, cy, h1, h2⟩

/-! ## The accepted tiles cover the image -/

/-- The window of a tile at a zoom level `≤ 0`, inside the exact range. -/
theorem loadTileImage_of_nonpos_zoom (TILE_SIZE : ℤ) (self : ImageSource) (x y zoom : ℤ)
    (hz0 : -30 ≤ zoom) (hz1 : zoom ≤ 0)
    (hT : |TILE_SIZE| ≤ 2 ^ 24) (hx : |x * TILE_SIZE| ≤ 2 ^ 24) (hy : |y * TILE_SIZE| ≤ 2 ^ 24)
    (hTr : IsInt (TILE_SIZE * 2 ^ (-zoom).toNat))
    (hxr : IsInt (x * TILE_SIZE * 2 ^ (-zoom).toNat))
    (hyr : IsInt (y * TILE_SIZE * 2 ^ (-zoom).toNat)) :
    loadTileImage TILE_SIZE self x y zoom
      = ⟨TILE_SIZE, TILE_SIZE,
          some ⟨x * TILE_SIZE * 2 ^ (-zoom).toNat, y * TILE_SIZE * 2 ^ (-zoom).toNat,
            TILE_SIZE * 2 ^ (-zoom).toNat, TILE_SIZE * 2 ^ (-zoom).toNat⟩⟩ := by
  unfold loadTileImage
  rw [wrapInt_of_abs_le hx, wrapInt_of_abs_le hy,
    (toInt_div_zoomToScale hT hz0 hz1 hTr).1, (toInt_div_zoomToScale hx hz0 hz1 hxr).1,
    (toInt_div_zoomToScale hy hz0 hz1 hyr).1]
  rfl

/-- Acceptance at a zoom level `≤ 0` in integer terms: the window offset
`x * TILE_SIZE * 2^(-zoom)` is below the side. -/
theorem lt_side_iff {n s zoom : ℤ} (hz1 : zoom ≤ 0) :
    ((n : ℤ) : ℚ) < (s : ℚ) * (2 : ℚ) ^ zoom ↔ n * 2 ^ (-zoom).toNat < s := by
  have hp : (0 : ℚ) < (2 : ℚ) ^ (-zoom).toNat := by positivity
  have hnat : (2 : ℚ) ^ (-zoom).toNat = (2 : ℚ) ^ (-zoom) := by
    rw [← zpow_natCast, Int.toNat_of_nonneg (by omega)]
  have hpow : (2 : ℚ) ^ zoom = 1 / (2 : ℚ) ^ (-zoom).toNat := by
    rw [hnat, zpow_neg, one_div, inv_inv]
  rw [hpow, mul_one_div, lt_div_iff₀ hp]
  constructor
  · intro h
    have : ((n * 2 ^ (-zoom).toNat : ℤ) : ℚ) < ((s : ℤ) : ℚ) := by
      push_cast
      exact h
    exact_mod_cast this
  · intro h
    have : ((n * 2 ^ (-zoom).toNat : ℤ) : ℚ) < ((s : ℤ) : ℚ) := Int.cast_lt.mpr h
    push_cast at this
    exact this

/-- An accepted tile of the exact range, at a zoom level `≤ 0`: its window. -/
theorem accepted_window (TILE_SIZE : ℤ) (self : ImageSource) (x y zoom : ℤ)
    (hT0 : 0 < TILE_SIZE) (hT : TILE_SIZE ≤ 2 ^ 24)
    (hz0 : -30 ≤ zoom) (hz1 : zoom ≤ 0)
    (hS : IsInt (TILE_SIZE * 2 ^ (-zoom).toNat))
    (hw0 : 0 < self.image.width) (hw : self.image.width ≤ 2 ^ 24)
    (hh0 : 0 < self.image.height) (hh : self.image.height ≤ 2 ^ 24)
    (hx : |x * TILE_SIZE| ≤ 2 ^ 24) (hy : |y * TILE_SIZE| ≤ 2 ^ 24) :
    (checkAndCorrectTileCoordinates TILE_SIZE self x y zoom).1 = true ↔
      (0 ≤ x ∧ x * TILE_SIZE * 2 ^ (-zoom).toNat < self.image.width
        ∧ 0 ≤ y ∧ y * TILE_SIZE * 2 ^ (-zoom).toNat < self.image.height
        ∧ loadTileImage TILE_SIZE self x y zoom
          = ⟨TILE_SIZE, TILE_SIZE,
              some ⟨x * TILE_SIZE * 2 ^ (-zoom).toNat, y * TILE_SIZE * 2 ^ (-zoom).toNat,
                TILE_SIZE * 2 ^ (-zoom).toNat, TILE_SIZE * 2 ^ (-zoom).toNat⟩⟩) := by
  have hwa : |self.image.width| ≤ 2 ^ 24 := by rw [abs_of_pos hw0]; exact hw
  have hha : |self.image.height| ≤ 2 ^ 24 := by rw [abs_of_pos hh0]; exact hh
  have hTa : |TILE_SIZE| ≤ 2 ^ 24 := by rw [abs_of_pos hT0]; exact hT
  have hp : (0 : ℤ) < 2 ^ (-zoom).toNat := by positivity
  rw [check_accepts_iff TILE_SIZE self x y zoom hT0 hwa hha hx hy hz0 (by omega),
    lt_side_iff hz1, lt_side_iff hz1]
  have hx0 : 0 ≤ x * TILE_SIZE ↔ 0 ≤ x :=
    ⟨fun h => nonneg_of_mul_nonneg_left h hT0, fun h => mul_nonneg h hT0.le⟩
  have hy0 : 0 ≤ y * TILE_SIZE ↔ 0 ≤ y :=
    ⟨fun h => nonneg_of_mul_nonneg_left h hT0, fun h => mul_nonneg h hT0.le⟩
  rw [hx0, hy0]
  constructor
  · rintro ⟨h1, h2, h3, h4⟩
    refine ⟨h1, h2, h3, h4, ?_⟩
    have hxr : IsInt (x * TILE_SIZE * 2 ^ (-zoom).toNat) := by
      have : 0 ≤ x * TILE_SIZE * 2 ^ (-zoom).toNat :=
        mul_nonneg (mul_nonneg h1 hT0.le) hp.le
      unfold IsInt
      constructor <;> omega
    have hyr : IsInt (y * TILE_SIZE * 2 ^ (-zoom).toNat) := by
      have : 0 ≤ y * TILE_SIZE * 2 ^ (-zoom).toNat :=
        mul_nonneg (mul_nonneg h3 hT0.le) hp.le
      unfold IsInt
      constructor <;> omega
    exact loadTileImage_of_nonpos_zoom TILE_SIZE self x y zoom hz0 hz1 hTa hx hy hS hxr hyr
  · rintro ⟨h1, h2, h3, h4, _⟩
    exact ⟨h1, h2, h3, h4⟩

/-- C16 (as amended): at a zoom level between `-30` and `0`, for a positive tile size of
at most `2^24` whose source edge `TILE_SIZE * 2^(-zoom)` is an `int`, and an image of
positive width and height of at most `2^24`: every source pixel `(px, py)` of the image
lies in the crop window of exactly one tile that the validation accepts (among the tiles
with `|x * TILE_SIZE|` and `|y * TILE_SIZE|` of at most `2^24`, where the products are
exact); and the crop offset of every such accepted tile lies inside the image. -/
theorem accepted_tiles_partition (TILE_SIZE : ℤ) (self : ImageSource) (zoom px py : ℤ)
    (hT0 : 0 < TILE_SIZE) (hT : TILE_SIZE ≤ 2 ^ 24)
    (hz0 : -30 ≤ zoom) (hz1 : zoom ≤ 0)
    (hS : IsInt (TILE_SIZE * 2 ^ (-zoom).toNat))
    (hw0 : 0 < self.image.width) (hw : self.image.width ≤ 2 ^ 24)
    (hh0 : 0 < self.image.height) (hh : self.image.height ≤ 2 ^ 24)
    (hpx0 : 0 ≤ px) (hpx : px < self.image.width)
    (hpy0 : 0 ≤ py) (hpy : py < self.image.height) :
    (∃! p : ℤ × ℤ, |p.1 * TILE_SIZE| ≤ 2 ^ 24 ∧ |p.2 * TILE_SIZE| ≤ 2 ^ 24
      ∧ (checkAndCorrectTileCoordinates TILE_SIZE self p.1 p.2 zoom).1 = true
      ∧ ∃ r : Region, (loadTileImage TILE_SIZE self p.1 p.2 zoom).window = some r
          ∧ r.contains px py)
    ∧ (∀ x y : ℤ, |x * TILE_SIZE| ≤ 2 ^ 24 → |y * TILE_SIZE| ≤ 2 ^ 24 →
        (checkAndCorrectTileCoordinates TILE_SIZE self x y zoom).1 = true →
        ∃ r : Region, (loadTileImage TILE_SIZE self x y zoom).window = some r
          ∧ r.x = ((x * TILE_SIZE : ℤ) : ℚ) / zoomToScale zoom
          ∧ r.y = ((y * TILE_SIZE : ℤ) : ℚ) / zoomToScale zoom
          ∧ r.width = (TILE_SIZE : ℚ) / zoomToScale zoom
          ∧ r.height = (TILE_SIZE : ℚ) / zoomToScale zoom
          ∧ 0 ≤ r.x ∧ r.x < self.image.width ∧ 0 ≤ r.y ∧ r.y < self.image.height) := by
  have hp : (0 : ℤ) < 2 ^ (-zoom).toNat := by positivity
  have hp1 : (1 : ℤ) ≤ 2 ^ (-zoom).toNat := hp
  set S : ℤ := TILE_SIZE * 2 ^ (-zoom).toNat with hSdef
  have hSpos : 0 < S := mul_pos hT0 hp
  have hTS : TILE_SIZE ≤ S := by
    have := mul_le_mul_of_nonneg_left hp1 hT0.le
    rw [mul_one] at this
    exact this
  have hassoc : ∀ v : ℤ, v * TILE_SIZE * 2 ^ (-zoom).toNat = v * S := by
    intro v
    rw [hSdef]
    ring
  have hTa : |TILE_SIZE| ≤ 2 ^ 24 := by rw [abs_of_pos hT0]; exact hT
  -- the tile of a coordinate below a side
  have tile : ∀ {q s : ℤ}, 0 ≤ q → q < s → s ≤ 2 ^ 24 →
      0 ≤ q / S ∧ q / S * S ≤ q ∧ q < q / S * S + S ∧ |q / S * TILE_SIZE| ≤ 2 ^ 24 := by
    intro q s hq0 hqs hs
    have h1 : 0 ≤ q / S := Int.ediv_nonneg hq0 hSpos.le
    have h2 : q / S * S ≤ q := Int.ediv_mul_le q hSpos.ne'
    have h3 : q < q / S * S + S := by
      have := Int.lt_ediv_add_one_mul_self q hSpos
      linarith
    refine ⟨h1, h2, h3, ?_⟩
    have h4 : q / S * TILE_SIZE ≤ q / S * S := mul_le_mul_of_nonneg_left hTS h1
    rw [abs_of_nonneg (mul_nonneg h1 hT0.le)]
    omega
  constructor
  · obtain ⟨hx1, hx2, hx3, hx4⟩ := tile hpx0 hpx hw
    obtain ⟨hy1, hy2, hy3, hy4⟩ := tile hpy0 hpy hh
    have hpre : (checkAndCorrectTileCoordinates TILE_SIZE self (px / S) (py / S) zoom).1
        = true := by
      rw [check_accepts_iff TILE_SIZE self _ _ zoom hT0 (by rw [abs_of_pos hw0]; exact hw)
        (by rw [abs_of_pos hh0]; exact hh) hx4 hy4 hz0 (by omega), lt_side_iff hz1,
        lt_side_iff hz1, hassoc, hassoc]
      exact ⟨mul_nonneg hx1 hT0.le, by omega, mul_nonneg hy1 hT0.le, by omega⟩
    refine ⟨(px / S, py / S), ⟨hx4, hy4, hpre, ?_⟩, ?_⟩
    · obtain ⟨_, _, _, _, hl⟩ := (accepted_window TILE_SIZE self (px / S) (py / S) zoom hT0 hT
        hz0 hz1 hS hw0 hw hh0 hh hx4 hy4).mp hpre
      refine ⟨_, by rw [hl], ?_⟩
      unfold Region.contains
      simp only [hassoc]
      exact ⟨hx2, hx3, hy2, hy3⟩
    · rintro ⟨x, y⟩ ⟨hx, hy, hacc, r, hr, hc⟩
      obtain ⟨_, _, _, _, hl⟩ := (accepted_window TILE_SIZE self x y zoom hT0 hT hz0 hz1 hS
        hw0 hw hh0 hh hx hy).mp hacc
      simp only at hl hr
      rw [hl] at hr
      simp only [Option.some.injEq] at hr
      subst hr
      unfold Region.contains at hc
      simp only [hassoc] at hc
      obtain ⟨c1, c2, c3, c4⟩ := hc
      have ex : x = px / S := by
        have h1 : x ≤ px / S := Int.le_ediv_of_mul_le hSpos c1
        have h2 : px / S < x + 1 := Int.ediv_lt_of_lt_mul hSpos (by linarith)
        omega
      have ey : y = py / S := by
        have h1 : y ≤ py / S := Int.le_ediv_of_mul_le hSpos c3
        have h2 : py / S < y + 1 := Int.ediv_lt_of_lt_mul hSpos (by linarith)
        omega
      rw [ex, ey]
  · intro x y hx hy hacc
    obtain ⟨h1, h2, h3, h4, hl⟩ := (accepted_window TILE_SIZE self x y zoom hT0 hT hz0 hz1 hS
      hw0 hw hh0 hh hx hy).mp hacc
    have hxr : IsInt (x * TILE_SIZE * 2 ^ (-zoom).toNat) := by
      have : 0 ≤ x * TILE_SIZE * 2 ^ (-zoom).toNat :=
        mul_nonneg (mul_nonneg h1 hT0.le) hp.le
      unfold IsInt
      constructor <;> omega
    have hyr : IsInt (y * TILE_SIZE * 2 ^ (-zoom).toNat) := by
      have : 0 ≤ y * TILE_SIZE * 2 ^ (-zoom).toNat :=
        mul_nonneg (mul_nonneg h3 hT0.le) hp.le
      unfold IsInt
      constructor <;> omega
    refine ⟨_, by rw [hl], ?_, ?_, ?_, ?_, ?_, h2, ?_, h4⟩
    · exact (toInt_div_zoomToScale hx hz0 hz1 hxr).2
    · exact (toInt_div_zoomToScale hy hz0 hz1 hyr).2
    · exact (toInt_div_zoomToScale hTa hz0 hz1 hS).2
    · exact (toInt_div_zoomToScale hTa hz0 hz1 hS).2
    · exact mul_nonneg (mul_nonneg h1 hT0.le) hp.le
    · exact mul_nonneg (mul_nonneg h3 hT0.le) hp.le

/-- Witness of C16: the pixel `(1500, 700)` of a 2048 x 1024 image at zoom `-2`, tile
size 256. -/
theorem accepted_tiles_partition_witness :
    ∃! p : ℤ × ℤ, |p.1 * 256| ≤ 2 ^ 24 ∧ |p.2 * 256| ≤ 2 ^ 24
      ∧ (checkAndCorrectTileCoordinates 256 ⟨⟨2048, 1024, none⟩⟩ p.1 p.2 (-2)).1 = true
      ∧ ∃ r : Region, (loadTileImage 256 ⟨⟨2048, 1024, none⟩⟩ p.1 p.2 (-2)).window = some r
          ∧ r.contains 1500 700 :=
  (accepted_tiles_partition 256 ⟨⟨2048, 1024, none⟩⟩ (-2) 1500 700 (by decide) (by decide)
    (by decide) (by decide) (by decide) (by decide) (by decide) (by decide) (by decide)
    (by decide) (by decide) (by decide) (by decide)).1

theorem wrapInt_mul_256 (x : ℤ) :
    ∃ m : ℤ, wrapInt (x * 256) = 256 * m ∧ -2 ^ 23 ≤ m ∧ m < 2 ^ 23 := by
  refine ⟨wrapInt (x * 256) / 256, ?_, ?_, ?_⟩ <;> unfold wrapInt <;> omega

theorem toFloat_mul_256 {m : ℤ} (h0 : -2 ^ 23 ≤ m) (h1 : m < 2 ^ 23) :
    toFloat (((256 * m : ℤ) : ℚ)) = ((256 * m : ℤ) : ℚ) := by
  have h := roundToPrec_dyadic 24 m 8 (by rw [abs_lt]; constructor <;> omega)
  have e : ((256 * m : ℤ) : ℚ) = (m : ℚ) * (2 : ℚ) ^ (8 : ℤ) := by
    push_cast
    norm_num
    ring
  unfold toFloat
  rw [e]
  exact h

/-- C16, counterexample: for an image 16777217 pixels wide and one pixel high, tile size
256 and zoom 0, no accepted tile has the source pixel `(16777216, 0)` in its crop window:
the only tile whose window holds it, `x = 65536`, is rejected. -/
theorem accepted_tiles_miss_pixel :
    (0 : ℤ) ≤ 16777216 ∧ (16777216 : ℤ) < 16777217
    ∧ ¬ ∃ x y : ℤ, (checkAndCorrectTileCoordinates 256 ⟨⟨16777217, 1, none⟩⟩ x y 0).1 = true
      ∧ ∃ r : Region, (loadTileImage 256 ⟨⟨16777217, 1, none⟩⟩ x y 0).window = some r
          ∧ r.contains 16777216 0 := by
  refine ⟨by norm_num, by norm_num, ?_⟩
  rintro ⟨x, y, hacc, r, hr, hc⟩
  obtain ⟨m, hm, hm0, hm1⟩ := wrapInt_mul_256 x
  have hmi : IsInt (256 * m) := by
    unfold IsInt
    constructor <;> omega
  -- the offset of the window is the wrapped product
  have hoff : toInt (toFloat (toFloat ((wrapInt (x * 256) : ℤ) : ℚ) / zoomToScale 0))
      = 256 * m := by
    rw [hm, zoomToScale_zero, toFloat_mul_256 hm0 hm1, div_one, toFloat_mul_256 hm0 hm1,
      toInt_intCast hmi]
  have hext : toInt (toFloat (toFloat ((256 : ℤ) : ℚ) / zoomToScale 0)) = 256 := by
    have h := toFloat_mul_256 (m := 1) (by norm_num) (by norm_num)
    rw [zoomToScale_zero]
    norm_num at h ⊢
    rw [h, h]
    have h2 := toInt_intCast (n := 256) (by decide)
    simpa using h2
  unfold loadTileImage Image.scale Image.copyTo Image.blank at hr
  simp only [Option.some.injEq] at hr
  rw [hoff, hext] at hr
  subst hr
  unfold Region.contains at hc
  simp only at hc
  have hm65536 : m = 65536 := by omega
  -- that tile is rejected
  have hrej : (checkAndCorrectTileCoordinates 256 ⟨⟨16777217, 1, none⟩⟩ x y 0).1 = false := by
    have h2 : toFloat (((16777216 : ℤ) : ℚ)) = 16777216 := by
      have h := toFloat_intCast (n := 16777216) (by norm_num [abs_le])
      simpa using h
    have h3 : toFloat ((16777216 : ℚ) * 1) = 16777216 := by
      rw [mul_one]
      simpa using h2
    have hwx : wrapInt (x * 256) = 16777216 := by
      rw [hm, hm65536]
      norm_num
    unfold checkAndCorrectTileCoordinates
    simp only [zoomToScale_zero, toFloat_16777217, hwx, h2, h3]
    rw [if_pos]
    right
    left
    norm_num
  rw [hrej] at hacc
  exact absurd hacc (by simp)

/-! ## Rounding of values of either sign, and the exponent range of `double` -/

theorem roundToPrec_zero (p : ℕ) : roundToPrec p 0 = 0 := by
  simp [roundToPrec]

theorem log2_abs_bounds {q : ℚ} (hq : q ≠ 0) :
    (2 : ℚ) ^ Int.log 2 |q| ≤ |q| ∧ |q| < (2 : ℚ) ^ (Int.log 2 |q| + 1) := by
  have hpos : (0 : ℚ) < |q| := abs_pos.mpr hq
  constructor
  · have h := Int.zpow_log_le_self (b := 2) (r := |q|) (by norm_num) hpos
    rw [Nat.cast_ofNat] at h
    exact h
  · have h := Int.lt_zpow_succ_log_self (b := 2) (by norm_num) |q|
    rw [Nat.cast_ofNat] at h
    exact h

/-- The form of a rounded value: an integer `r` of at most `n + 2` bits times the unit in
the last place, within half a unit of the argument. -/
theorem roundToPrec_form (n : ℕ) {q : ℚ} (hq : q ≠ 0) :
    ∃ r : ℤ, roundToPrec (n + 1) q = (r : ℚ) * (2 : ℚ) ^ (Int.log 2 |q| - n)
      ∧ |(r : ℚ) * (2 : ℚ) ^ (Int.log 2 |q| - n) - q| ≤ (2 : ℚ) ^ Int.log 2 |q| * (2 : ℚ) ^ (-((n : ℤ) + 1))
      ∧ |r| ≤ 2 ^ (n + 1) := by
  obtain ⟨hlo, hup⟩ := log2_abs_bounds hq
  have hexp : Int.log 2 |q| - (((n + 1 : ℕ) : ℤ) - 1) = Int.log 2 |q| - n := by push_cast; ring
  have hform := roundToPrec_of_bounds (n + 1) hlo hup
  rw [hexp] at hform
  have hu : (0 : ℚ) < (2 : ℚ) ^ (Int.log 2 |q| - n) := by positivity
  have hr := roundHalfEven_sub_abs_le (q / (2 : ℚ) ^ (Int.log 2 |q| - n))
  have hfac : (roundHalfEven (q / (2 : ℚ) ^ (Int.log 2 |q| - n)) : ℚ) * (2 : ℚ) ^ (Int.log 2 |q| - n) - q
      = ((roundHalfEven (q / (2 : ℚ) ^ (Int.log 2 |q| - n)) : ℚ) - q / (2 : ℚ) ^ (Int.log 2 |q| - n))
        * (2 : ℚ) ^ (Int.log 2 |q| - n) := by
    field_simp
  have hsplit : (2 : ℚ) ^ Int.log 2 |q| * (2 : ℚ) ^ (-((n : ℤ) + 1))
      = (1 / 2) * (2 : ℚ) ^ (Int.log 2 |q| - n) := by
    rw [← zpow_add₀ (by norm_num : (2 : ℚ) ≠ 0)]
    have : Int.log 2 |q| + -((n : ℤ) + 1) = (Int.log 2 |q| - n) + (-1) := by ring
    rw [this, zpow_add₀ (by norm_num : (2 : ℚ) ≠ 0)]
    norm_num
    ring
  have herr : |(roundHalfEven (q / (2 : ℚ) ^ (Int.log 2 |q| - n)) : ℚ) * (2 : ℚ) ^ (Int.log 2 |q| - n) - q|
      ≤ (2 : ℚ) ^ Int.log 2 |q| * (2 : ℚ) ^ (-((n : ℤ) + 1)) := by
    rw [hfac, abs_mul, abs_of_pos hu, hsplit]
    exact mul_le_mul_of_nonneg_right hr hu.le
  refine ⟨roundHalfEven (q / (2 : ℚ) ^ (Int.log 2 |q| - n)), hform, herr, ?_⟩
  -- the integer has at most n + 2 bits
  have hk1 : (2 : ℚ) ^ (Int.log 2 |q| + 1) = (2 : ℚ) ^ (n + 1) * (2 : ℚ) ^ (Int.log 2 |q| - n) := by
    rw [← zpow_natCast, ← zpow_add₀ (by norm_num : (2 : ℚ) ≠ 0)]
    congr 1
    push_cast
    ring
  have h1 : |(roundHalfEven (q / (2 : ℚ) ^ (Int.log 2 |q| - n)) : ℚ)| * (2 : ℚ) ^ (Int.log 2 |q| - n)
      < ((2 : ℚ) ^ (n + 1) + 1) * (2 : ℚ) ^ (Int.log 2 |q| - n) := by
    have ha : |(roundHalfEven (q / (2 : ℚ) ^ (Int.log 2 |q| - n)) : ℚ) * (2 : ℚ) ^ (Int.log 2 |q| - n)|
        ≤ |(roundHalfEven (q / (2 : ℚ) ^ (Int.log 2 |q| - n)) : ℚ) * (2 : ℚ) ^ (Int.log 2 |q| - n) - q|
          + |q| := by
      have := abs_add ((roundHalfEven (q / (2 : ℚ) ^ (Int.log 2 |q| - n)) : ℚ)
        * (2 : ℚ) ^ (Int.log 2 |q| - n) - q) q
      simpa using this
    rw [abs_mul, abs_of_pos hu] at ha
    rw [hsplit] at herr
    rw [hk1] at hup
    nlinarith
  have h2 : |(roundHalfEven (q / (2 : ℚ) ^ (Int.log 2 |q| - n)) : ℚ)| < (2 : ℚ) ^ (n + 1) + 1 :=
    lt_of_mul_lt_mul_right h1 hu.le
  have h3 : ((|roundHalfEven (q / (2 : ℚ) ^ (Int.log 2 |q| - n))| : ℤ) : ℚ)
      < (((2 : ℤ) ^ (n + 1) + 1 : ℤ) : ℚ) := by
    push_cast
    exact h2
  have h4 := Int.cast_lt.mp h3
  omega

/-- Rounding changes a value by at most the fraction `2^-(n+1)` of its magnitude. -/
theorem roundToPrec_abs_error (n : ℕ) (q : ℚ) :
    |roundToPrec (n + 1) q - q| ≤ |q| * (2 : ℚ) ^ (-((n : ℤ) + 1)) := by
  by_cases hq : q = 0
  · rw [hq, roundToPrec_zero]
    simp
  · obtain ⟨r, hr, herr, _⟩ := roundToPrec_form n hq
    rw [hr]
    exact le_trans herr (mul_le_mul_of_nonneg_right (log2_abs_bounds hq).1 (by positivity))

/-- Rounding a rounded value again changes nothing. -/
theorem roundToPrec_idem (n : ℕ) (q : ℚ) :
    roundToPrec (n + 1) (roundToPrec (n + 1) q) = roundToPrec (n + 1) q := by
  by_cases hq : q = 0
  · rw [hq, roundToPrec_zero, roundToPrec_zero]
  · obtain ⟨r, hr, _, hbits⟩ := roundToPrec_form n hq
    rw [hr]
    rcases lt_or_eq_of_le hbits with hlt | heq
    · exact roundToPrec_dyadic (n + 1) r _ hlt
    · have hpow : (2 : ℚ) ^ (n + 1) * (2 : ℚ) ^ (Int.log 2 |q| - n) = (2 : ℚ) ^ (Int.log 2 |q| + 1) := by
        rw [← zpow_natCast, ← zpow_add₀ (by norm_num : (2 : ℚ) ≠ 0)]
        congr 1
        push_cast
        ring
      rcases abs_eq (by positivity : (0 : ℤ) ≤ 2 ^ (n + 1)) |>.mp heq with h1 | h1
      · have e : (r : ℚ) * (2 : ℚ) ^ (Int.log 2 |q| - n) = (2 : ℚ) ^ (Int.log 2 |q| + 1) := by
          rw [h1]
          push_cast
          exact hpow
        rw [e]
        exact roundToPrec_zpow (n + 1) (by omega) _
      · have e : (r : ℚ) * (2 : ℚ) ^ (Int.log 2 |q| - n) = -(2 : ℚ) ^ (Int.log 2 |q| + 1) := by
          rw [h1]
          push_cast
          rw [neg_mul, hpow]
        rw [e]
        exact roundToPrec_neg_zpow (n + 1) (by omega) _

theorem toDouble_abs_error (q : ℚ) : |toDouble q - q| ≤ |q| * (2 : ℚ) ^ (-53 : ℤ) := by
  have h := roundToPrec_abs_error 52 q
  have he : -(((52 : ℕ) : ℤ) + 1) = -53 := by norm_num
  rw [he] at h
  exact h

theorem toFloat_abs_error (q : ℚ) : |toFloat q - q| ≤ |q| * (2 : ℚ) ^ (-24 : ℤ) := by
  have h := roundToPrec_abs_error 23 q
  have he : -(((23 : ℕ) : ℤ) + 1) = -24 := by norm_num
  rw [he] at h
  exact h

theorem toDouble_idem (q : ℚ) : toDouble (toDouble q) = toDouble q :=
  roundToPrec_idem 52 q

theorem toFloat_idem (q : ℚ) : toFloat (toFloat q) = toFloat q :=
  roundToPrec_idem 23 q

theorem toFloat_mul_zpow (q : ℚ) (j : ℤ) :
    toFloat (q * (2 : ℚ) ^ j) = toFloat q * (2 : ℚ) ^ j :=
  roundToPrec_mul_zpow 24 q j

theorem abs_lt_two_mul_of_error {t q e B : ℚ} (he : e ≤ 1 / 2) (herr : |t - q| ≤ |q| * e)
    (hB : |q| ≤ B) (hq : 0 < |q|) : |t| < 2 * B := by
  have hm : |q| * e ≤ |q| * (1 / 2) := mul_le_mul_of_nonneg_left he hq.le
  have ht : |t| ≤ |t - q| + |q| := by
    have := abs_add (t - q) q
    simpa using this
  linarith

/-- Inside the normal range of binary64 the rounding with exponent range is `toDouble`. -/
theorem roundDouble_of_normal {q : ℚ} (h1 : (2 : ℚ) ^ (-1022 : ℤ) ≤ |q|)
    (h2 : |q| ≤ (2 : ℚ) ^ (1023 : ℕ)) :
    roundDouble q = some (toDouble q) := by
  have hpos : (0 : ℚ) < |q| := lt_of_lt_of_le (by positivity) h1
  have hq : q ≠ 0 := abs_pos.mp hpos
  have hlog : -1022 ≤ Int.log 2 |q| :=
    (Int.zpow_le_iff_le_log (b := 2) (by norm_num) hpos).mp (by
      rw [Nat.cast_ofNat]
      exact h1)
  have hval : roundDoubleValue q = toDouble q := by
    unfold roundDoubleValue doubleUlp toDouble roundToPrec
    rw [if_neg hq, max_eq_left hlog]
    norm_num
  have hb : |toDouble q| < (2 : ℚ) ^ (1024 : ℕ) := by
    have h3 : (2 : ℚ) ^ (1024 : ℕ) = 2 * (2 : ℚ) ^ (1023 : ℕ) := by
      rw [pow_succ]
      ring
    rw [h3]
    exact abs_lt_two_mul_of_error (by norm_num) (toDouble_abs_error q) h2 hpos
  unfold roundDouble
  rw [hval, if_neg (not_le.mpr hb)]

theorem roundDouble_zero : roundDouble 0 = some 0 := by
  unfold roundDouble roundDoubleValue
  simp [roundHalfEven]

/-! ## The scale of every zoom level and the scaled sides -/

theorem shiftLeftOne_cases (m : ℤ) :
    (∃ i : ℕ, i ≤ 30 ∧ shiftLeftOne m = 2 ^ i) ∨ shiftLeftOne m = -2 ^ 31 := by
  unfold shiftLeftOne
  have hk : (m % 32).toNat ≤ 31 := by omega
  generalize (m % 32).toNat = k at hk
  rcases Nat.lt_or_ge k 31 with h | h
  · left
    refine ⟨k, by omega, ?_⟩
    apply wrapInt_of_isInt
    have hk2 : k ≤ 30 := by omega
    have hle : (2 : ℤ) ^ k ≤ 2 ^ 30 := pow_le_pow_right₀ (by norm_num) hk2
    have hpos : (0 : ℤ) < 2 ^ k := by positivity
    unfold IsInt
    constructor <;> omega
  · right
    have hk3 : k = 31 := by omega
    subst hk3
    decide

/-- For every zoom the scale is a power of two between `2^-31` and `2^31`, up to sign. -/
theorem zoomToScale_form (zoom : ℤ) :
    ∃ j : ℤ, -31 ≤ j ∧ j ≤ 31 ∧ |zoomToScale zoom| = (2 : ℚ) ^ j := by
  have hpos : ∀ j : ℤ, toFloat (toDouble ((2 : ℚ) ^ j)) = (2 : ℚ) ^ j := by
    intro j
    unfold toDouble toFloat
    rw [roundToPrec_zpow 53 (by norm_num), roundToPrec_zpow 24 (by norm_num)]
  have hneg : ∀ j : ℤ, toFloat (toDouble (-(2 : ℚ) ^ j)) = -(2 : ℚ) ^ j := by
    intro j
    unfold toDouble toFloat
    rw [roundToPrec_neg_zpow 53 (by norm_num), roundToPrec_neg_zpow 24 (by norm_num)]
  unfold zoomToScale
  split_ifs with hz
  · rcases shiftLeftOne_cases (wrapInt (-zoom)) with ⟨i, hi, hs⟩ | hs
    · refine ⟨-(i : ℤ), by omega, by omega, ?_⟩
      have e : (1 : ℚ) / ((shiftLeftOne (wrapInt (-zoom)) : ℤ) : ℚ) = (2 : ℚ) ^ (-(i : ℤ)) := by
        rw [hs, zpow_neg, zpow_natCast]
        push_cast
        rw [one_div]
      rw [e, hpos, abs_of_pos (by positivity)]
    · refine ⟨-31, by norm_num, by norm_num, ?_⟩
      have e : (1 : ℚ) / ((shiftLeftOne (wrapInt (-zoom)) : ℤ) : ℚ) = -(2 : ℚ) ^ (-31 : ℤ) := by
        rw [hs]
        norm_num
      rw [e, hneg, abs_neg, abs_of_pos (by positivity)]
  · rcases shiftLeftOne_cases zoom with ⟨i, hi, hs⟩ | hs
    · refine ⟨(i : ℤ), by omega, by omega, ?_⟩
      have e : (1 : ℚ) * ((shiftLeftOne zoom : ℤ) : ℚ) = (2 : ℚ) ^ (i : ℤ) := by
        rw [hs, zpow_natCast]
        push_cast
        rw [one_mul]
      rw [e, hpos, abs_of_pos (by positivity)]
    · refine ⟨31, by norm_num, by norm_num, ?_⟩
      have e : (1 : ℚ) * ((shiftLeftOne zoom : ℤ) : ℚ) = -(2 : ℚ) ^ (31 : ℤ) := by
        rw [hs]
        norm_num
      rw [e, hneg, abs_neg, abs_of_pos (by positivity)]

theorem abs_bounds_of_error {t q e : ℚ} (he : e ≤ 1 / 2) (herr : |t - q| ≤ |q| * e) :
    |q| / 2 ≤ |t| ∧ |t| ≤ 2 * |q| := by
  have hq : 0 ≤ |q| := abs_nonneg q
  have hm : |q| * e ≤ |q| * (1 / 2) := mul_le_mul_of_nonneg_left he hq
  have ht : |t| ≤ |t - q| + |q| := by
    have := abs_add (t - q) q
    simpa using this
  have hq2 : |q| ≤ |t - q| + |t| := by
    have := abs_add (q - t) t
    rw [abs_sub_comm] at this
    simpa using this
  constructor <;> linarith

/-- The scaled side `fullWidth * scale` of the code, for a non-zero `int` side and any
zoom: it is not zero and its magnitude lies between `2^-33` and `2^64`. -/
theorem scaledSide_bounds {n : ℤ} (hn : IsInt n) (hn0 : n ≠ 0) (zoom : ℤ) :
    toFloat (toFloat (n : ℚ) * zoomToScale zoom) ≠ 0
    ∧ (2 : ℚ) ^ (-33 : ℤ) ≤ |toFloat (toFloat (n : ℚ) * zoomToScale zoom)|
    ∧ |toFloat (toFloat (n : ℚ) * zoomToScale zoom)| ≤ (2 : ℚ) ^ (64 : ℕ) := by
  obtain ⟨j, hj0, hj1, hs⟩ := zoomToScale_form zoom
  have h24 : (0 : ℚ) ≤ (2 : ℚ) ^ (-24 : ℤ) := by positivity
  have h24' : (2 : ℚ) ^ (-24 : ℤ) ≤ 1 / 2 := by norm_num
  -- the side
  have hn1 : (1 : ℚ) ≤ |(n : ℚ)| := by
    have : (1 : ℤ) ≤ |n| := Int.one_le_abs hn0
    have h : ((1 : ℤ) : ℚ) ≤ ((|n| : ℤ) : ℚ) := Int.cast_le.mpr this
    push_cast at h
    exact h
  have hn2 : |(n : ℚ)| ≤ (2 : ℚ) ^ (31 : ℕ) := by
    have : |n| ≤ 2 ^ 31 := by
      have h := hn
      unfold IsInt at h
      rw [abs_le]
      constructor <;> omega
    have h : ((|n| : ℤ) : ℚ) ≤ (((2 : ℤ) ^ 31 : ℤ) : ℚ) := Int.cast_le.mpr this
    push_cast at h
    exact h
  obtain ⟨hF1, hF2⟩ := abs_bounds_of_error h24' (toFloat_abs_error (n : ℚ))
  -- the scale
  have hs1 : (2 : ℚ) ^ (-31 : ℤ) ≤ |zoomToScale zoom| := by
    rw [hs]
    exact zpow_le_zpow_right₀ (by norm_num) hj0
  have hs2 : |zoomToScale zoom| ≤ (2 : ℚ) ^ (31 : ℤ) := by
    rw [hs]
    exact zpow_le_zpow_right₀ (by norm_num) hj1
  -- the product
  have hp1 : (2 : ℚ) ^ (-32 : ℤ) ≤ |toFloat (n : ℚ) * zoomToScale zoom| := by
    rw [abs_mul]
    have hF : (1 : ℚ) / 2 ≤ |toFloat (n : ℚ)| := by linarith
    calc (2 : ℚ) ^ (-32 : ℤ) = 1 / 2 * (2 : ℚ) ^ (-31 : ℤ) := by norm_num
      _ ≤ |toFloat (n : ℚ)| * |zoomToScale zoom| :=
        mul_le_mul hF hs1 (by positivity) (abs_nonneg _)
  have hp2 : |toFloat (n : ℚ) * zoomToScale zoom| ≤ (2 : ℚ) ^ (63 : ℕ) := by
    rw [abs_mul]
    have hF : |toFloat (n : ℚ)| ≤ (2 : ℚ) ^ (32 : ℕ) := by
      have : (2 : ℚ) ^ (32 : ℕ) = 2 * (2 : ℚ) ^ (31 : ℕ) := by norm_num
      linarith
    calc |toFloat (n : ℚ)| * |zoomToScale zoom|
        ≤ (2 : ℚ) ^ (32 : ℕ) * (2 : ℚ) ^ (31 : ℤ) :=
          mul_le_mul hF hs2 (abs_nonneg _) (by positivity)
      _ = (2 : ℚ) ^ (63 : ℕ) := by norm_num
  obtain ⟨hS1, hS2⟩ := abs_bounds_of_error h24'
    (toFloat_abs_error (toFloat (n : ℚ) * zoomToScale zoom))
  have hlow : (2 : ℚ) ^ (-33 : ℤ) ≤ |toFloat (toFloat (n : ℚ) * zoomToScale zoom)| := by
    calc (2 : ℚ) ^ (-33 : ℤ) = (2 : ℚ) ^ (-32 : ℤ) / 2 := by norm_num
      _ ≤ |toFloat (n : ℚ) * zoomToScale zoom| / 2 :=
        div_le_div_of_nonneg_right hp1 (by norm_num)
      _ ≤ _ := hS1
  refine ⟨?_, hlow, ?_⟩
  · intro h0
    rw [h0, abs_zero] at hlow
    exact absurd hlow (not_le.mpr (by positivity))
  · calc |toFloat (toFloat (n : ℚ) * zoomToScale zoom)|
        ≤ 2 * |toFloat (n : ℚ) * zoomToScale zoom| := hS2
      _ ≤ 2 * (2 : ℚ) ^ (63 : ℕ) := mul_le_mul_of_nonneg_left hp2 (by norm_num)
      _ = (2 : ℚ) ^ (64 : ℕ) := by norm_num

/-- Inside the shift range the scaled side is the rounded side times the power of two. -/
theorem scaledSide_eq_mul (n : ℤ) {zoom : ℤ} (hz0 : -30 ≤ zoom) (hz1 : zoom ≤ 30) :
    toFloat (toFloat (n : ℚ) * zoomToScale zoom) = toFloat (n : ℚ) * (2 : ℚ) ^ zoom := by
  rw [zoomToScale_eq hz0 hz1, toFloat_mul_zpow, toFloat_idem]

/-- Error of a rounded division followed by a rounded multiplication. -/
theorem two_step_error {x W V r1 r2 e : ℚ} (hW : W ≠ 0) (he0 : 0 ≤ e)
    (h1 : |r1 - x / W| ≤ |x / W| * e) (h2 : |r2 - r1 * V| ≤ |r1 * V| * e) :
    |r2 - x * (V / W)| ≤ |x * (V / W)| * ((1 + e) ^ 2 - 1) := by
  have hv : x * (V / W) = x / W * V := by
    field_simp
  have e1 : |r1 * V - x / W * V| ≤ |x / W * V| * e := by
    have : r1 * V - x / W * V = (r1 - x / W) * V := by ring
    rw [this, abs_mul, abs_mul]
    calc |r1 - x / W| * |V| ≤ |x / W| * e * |V| :=
          mul_le_mul_of_nonneg_right h1 (abs_nonneg _)
      _ = |x / W| * |V| * e := by ring
  have e2 : |r1 * V| ≤ |x / W * V| * (1 + e) := by
    have := abs_add (r1 * V - x / W * V) (x / W * V)
    have h3 : r1 * V - x / W * V + x / W * V = r1 * V := by ring
    rw [h3] at this
    linarith
  have e3 : |r1 * V| * e ≤ |x / W * V| * (1 + e) * e := mul_le_mul_of_nonneg_right e2 he0
  rw [hv]
  have e4 : |r2 - x / W * V| ≤ |r2 - r1 * V| + |r1 * V - x / W * V| := by
    have := abs_add (r2 - r1 * V) (r1 * V - x / W * V)
    have h3 : r2 - r1 * V + (r1 * V - x / W * V) = r2 - x / W * V := by ring
    rw [h3] at this
    exact this
  have e5 : |x / W * V| * ((1 + e) ^ 2 - 1) = |x / W * V| * (1 + e) * e + |x / W * V| * e := by
    ring
  rw [e5]
  linarith

/-! ## Monotonicity of the rounding, and closure of the tile validation -/

theorem roundHalfEven_floor_le (q : ℚ) :
    ⌊q⌋ ≤ roundHalfEven q ∧ roundHalfEven q ≤ ⌊q⌋ + 1 := by
  unfold roundHalfEven
  split_ifs <;> constructor <;> omega

theorem roundHalfEven_mono {a b : ℚ} (h : a ≤ b) : roundHalfEven a ≤ roundHalfEven b := by
  have hf : ⌊a⌋ ≤ ⌊b⌋ := Int.floor_mono h
  rcases lt_or_eq_of_le hf with hlt | heq
  · have h1 := (roundHalfEven_floor_le a).2
    have h2 := (roundHalfEven_floor_le b).1
    omega
  · unfold roundHalfEven
    rw [heq]
    have hab : a - (⌊b⌋ : ℚ) ≤ b - (⌊b⌋ : ℚ) := by linarith
    split_ifs <;> first | omega | (exfalso; linarith)

/-- Rounding to `n + 1` significant bits is monotone on the non-negative rationals. -/
theorem roundToPrec_mono_of_nonneg (n : ℕ) {a b : ℚ} (ha : 0 ≤ a) (hab : a ≤ b) :
    roundToPrec (n + 1) a ≤ roundToPrec (n + 1) b := by
  rcases eq_or_lt_of_le (le_trans ha hab) with hb0 | hb0
  · have ha0 : a = 0 := le_antisymm (by rw [hb0]; exact hab) ha
    rw [ha0, ← hb0]
  have hbne : b ≠ 0 := ne_of_gt hb0
  obtain ⟨hb1, hb2⟩ := log2_abs_bounds hbne
  rw [abs_of_pos hb0] at hb1 hb2
  have hrb := roundToPrec_binade n hb1 hb2
  rcases eq_or_lt_of_le ha with ha0 | ha0
  · rw [← ha0, roundToPrec_zero]
    exact le_trans (by positivity) hrb.1
  have hane : a ≠ 0 := ne_of_gt ha0
  obtain ⟨ha1, ha2⟩ := log2_abs_bounds hane
  rw [abs_of_pos ha0] at ha1 ha2
  have hra := roundToPrec_binade n ha1 ha2
  have hlog : Int.log 2 a ≤ Int.log 2 b := Int.log_mono_right ha0 hab
  rcases lt_or_eq_of_le hlog with hlt | heq
  · have h1 : Int.log 2 a + 1 ≤ Int.log 2 b := by omega
    have h2 : (2 : ℚ) ^ (Int.log 2 a + 1) ≤ (2 : ℚ) ^ Int.log 2 b :=
      zpow_le_zpow_right₀ (by norm_num) h1
    exact le_trans hra.2.1 (le_trans h2 hrb.1)
  · unfold roundToPrec
    rw [if_neg hane, if_neg hbne, abs_of_pos ha0, abs_of_pos hb0, heq]
    have hu : (0 : ℚ) < (2 : ℚ) ^ (Int.log 2 b - (((n + 1 : ℕ) : ℤ) - 1)) := by positivity
    apply mul_le_mul_of_nonneg_right _ hu.le
    exact Int.cast_le.mpr (roundHalfEven_mono (div_le_div_of_nonneg_right hab hu.le))

theorem toFloat_mono_of_nonneg {a b : ℚ} (ha : 0 ≤ a) (hab : a ≤ b) : toFloat a ≤ toFloat b :=
  roundToPrec_mono_of_nonneg 23 ha hab

/-- The validation, unfolded: the flag is `true` exactly when neither coordinate is
negative and both `float` comparisons with the scaled sides succeed. -/
theorem check_true_iff (TILE_SIZE : ℤ) (self : ImageSource) (x y zoom : ℤ) :
    (checkAndCorrectTileCoordinates TILE_SIZE self x y zoom).1 = true ↔
      (0 ≤ x
        ∧ toFloat (wrapInt (x * TILE_SIZE))
            < toFloat (toFloat self.image.width * zoomToScale zoom)
        ∧ 0 ≤ y
        ∧ toFloat (wrapInt (y * TILE_SIZE))
            < toFloat (toFloat self.image.height * zoomToScale zoom)) := by
  unfold checkAndCorrectTileCoordinates
  split_ifs with h
  · simp only [Bool.false_eq_true, false_iff]
    rintro ⟨h1, h2, h3, h4⟩
    rcases h with h | h | h | h
    · exact absurd h1 (not_le.mpr h)
    · exact absurd h2 (not_lt.mpr h)
    · exact absurd h3 (not_le.mpr h)
    · exact absurd h4 (not_lt.mpr h)
  · simp only [true_iff]
    push_neg at h
    exact h

/-- Closure along one axis: a coordinate below the scaled side stays below it when it
moves toward the origin, and its half is below the scaled side of the next zoom out. -/
theorem side_closed {TILE_SIZE n x zoom : ℤ} (hT : 0 < TILE_SIZE)
    (hx : IsInt (x * TILE_SIZE)) (hx0 : 0 ≤ x) (hz0 : -29 ≤ zoom) (hz1 : zoom ≤ 30)
    (h : toFloat (wrapInt (x * TILE_SIZE)) < toFloat (toFloat (n : ℚ) * zoomToScale zoom)) :
    toFloat (wrapInt (x / 2 * TILE_SIZE)) < toFloat (toFloat (n : ℚ) * zoomToScale (zoom - 1))
    ∧ ∀ x1 : ℤ, 0 ≤ x1 → x1 ≤ x →
        toFloat (wrapInt (x1 * TILE_SIZE)) < toFloat (toFloat (n : ℚ) * zoomToScale zoom) := by
  have hxT : x * TILE_SIZE < 2 ^ 31 := by
    have h1 := hx
    unfold IsInt at h1
    omega
  have below : ∀ a : ℤ, 0 ≤ a → a ≤ x →
      wrapInt (a * TILE_SIZE) = a * TILE_SIZE ∧ 0 ≤ a * TILE_SIZE
        ∧ a * TILE_SIZE ≤ x * TILE_SIZE := by
    intro a ha hax
    have h1 : 0 ≤ a * TILE_SIZE := mul_nonneg ha hT.le
    have h2 : a * TILE_SIZE ≤ x * TILE_SIZE := mul_le_mul_of_nonneg_right hax hT.le
    refine ⟨wrapInt_of_isInt ?_, h1, h2⟩
    unfold IsInt
    constructor <;> omega
  rw [(below x hx0 le_rfl).1] at h
  constructor
  · have hx2 : 0 ≤ x / 2 := Int.ediv_nonneg hx0 (by norm_num)
    obtain ⟨e1, e2, _⟩ := below (x / 2) hx2 (by omega)
    rw [e1, zoomToScale_eq (by omega : -30 ≤ zoom - 1) (by omega : zoom - 1 ≤ 30)]
    rw [zoomToScale_eq (by omega : -30 ≤ zoom) hz1] at h
    have hpow : toFloat (n : ℚ) * (2 : ℚ) ^ (zoom - 1)
        = toFloat (n : ℚ) * (2 : ℚ) ^ zoom * (2 : ℚ) ^ (-1 : ℤ) := by
      rw [zpow_sub₀ (by norm_num : (2 : ℚ) ≠ 0), zpow_one]
      norm_num
      ring
    rw [hpow, toFloat_mul_zpow]
    have hd : 2 * (x / 2 * TILE_SIZE) ≤ x * TILE_SIZE := by
      have : 2 * (x / 2) ≤ x := by omega
      nlinarith
    have hdq : ((x / 2 * TILE_SIZE : ℤ) : ℚ) ≤ ((x * TILE_SIZE : ℤ) : ℚ) * (2 : ℚ) ^ (-1 : ℤ) := by
      have h3 : ((2 * (x / 2 * TILE_SIZE) : ℤ) : ℚ) ≤ ((x * TILE_SIZE : ℤ) : ℚ) :=
        Int.cast_le.mpr hd
      rw [Int.cast_mul, Int.cast_ofNat] at h3
      have e : (2 : ℚ) ^ (-1 : ℤ) = 1 / 2 := by norm_num
      rw [e]
      linarith
    have hnn : (0 : ℚ) ≤ ((x / 2 * TILE_SIZE : ℤ) : ℚ) := Int.cast_nonneg.mpr e2
    have hm := toFloat_mono_of_nonneg hnn hdq
    rw [toFloat_mul_zpow] at hm
    have hhalf : toFloat ((x * TILE_SIZE : ℤ) : ℚ) * (2 : ℚ) ^ (-1 : ℤ)
        < toFloat (toFloat (n : ℚ) * (2 : ℚ) ^ zoom) * (2 : ℚ) ^ (-1 : ℤ) :=
      mul_lt_mul_of_pos_right h (by positivity)
    exact lt_of_le_of_lt hm hhalf
  · intro x1 h0 h1
    obtain ⟨e1, e2, e3⟩ := below x1 h0 h1
    rw [e1]
    have hq : ((x1 * TILE_SIZE : ℤ) : ℚ) ≤ ((x * TILE_SIZE : ℤ) : ℚ) := Int.cast_le.mpr e3
    exact lt_of_le_of_lt (toFloat_mono_of_nonneg (Int.cast_nonneg.mpr e2) hq) h

/-- C17 (as amended): for a positive tile size, products `x * TILE_SIZE` and
`y * TILE_SIZE` that are `int` values, and a zoom between `-29` and `30`, an accepted
tile `(x, y, zoom)` has an accepted parent `(x / 2, y / 2, zoom - 1)`, and every
`(x', y', zoom)` with `0 ≤ x' ≤ x` and `0 ≤ y' ≤ y` is accepted as well; the image sides
are arbitrary. -/
theorem checkAndCorrectTileCoordinates_closed (TILE_SIZE : ℤ) (self : ImageSource)
    (x y zoom : ℤ) (hT : 0 < TILE_SIZE)
    (hx : IsInt (x * TILE_SIZE)) (hy : IsInt (y * TILE_SIZE))
    (hz0 : -29 ≤ zoom) (hz1 : zoom ≤ 30)
    (hacc : (checkAndCorrectTileCoordinates TILE_SIZE self x y zoom).1 = true) :
    (checkAndCorrectTileCoordinates TILE_SIZE self (x / 2) (y / 2) (zoom - 1)).1 = true
    ∧ ∀ x1 y1 : ℤ, 0 ≤ x1 → x1 ≤ x → 0 ≤ y1 → y1 ≤ y →
        (checkAndCorrectTileCoordinates TILE_SIZE self x1 y1 zoom).1 = true := by
  obtain ⟨hx0, hxw, hy0, hyh⟩ := (check_true_iff TILE_SIZE self x y zoom).mp hacc
  obtain ⟨hpx, hmx⟩ := side_closed hT hx hx0 hz0 hz1 hxw
  obtain ⟨hpy, hmy⟩ := side_closed hT hy hy0 hz0 hz1 hyh
  constructor
  · exact (check_true_iff TILE_SIZE self (x / 2) (y / 2) (zoom - 1)).mpr
      ⟨Int.ediv_nonneg hx0 (by norm_num), hpx, Int.ediv_nonneg hy0 (by norm_num), hpy⟩
  · intro x1 y1 hx10 hx1 hy10 hy1
    exact (check_true_iff TILE_SIZE self x1 y1 zoom).mpr
      ⟨hx10, hmx x1 hx10 hx1, hy10, hmy y1 hy10 hy1⟩

/-- Witness of C17: tile `(2, 3)` at zoom `-1` of a 2048 x 2048 image, tile size 256. -/
theorem checkAndCorrectTileCoordinates_closed_witness :
    (checkAndCorrectTileCoordinates 256 ⟨⟨2048, 2048, none⟩⟩ (2 / 2) (3 / 2) (-1 - 1)).1 = true :=
  (checkAndCorrectTileCoordinates_closed 256 ⟨⟨2048, 2048, none⟩⟩ 2 3 (-1) (by decide)
    (by decide) (by decide) (by decide) (by decide) check_example).1

theorem zoomToScale_neg_thirtyOne : zoomToScale (-31) = -(2 : ℚ) ^ (-31 : ℤ) := by
  unfold zoomToScale
  have hw : wrapInt (-(-31)) = 31 := by decide
  have hs : shiftLeftOne 31 = -2 ^ 31 := by decide
  rw [if_pos (by norm_num), hw, hs]
  have hz : (1 : ℚ) / ((-2 ^ 31 : ℤ) : ℚ) = -(2 : ℚ) ^ (-31 : ℤ) := by norm_num
  rw [hz]
  unfold toDouble toFloat
  rw [roundToPrec_neg_zpow 53 (by norm_num), roundToPrec_neg_zpow 24 (by norm_num)]

/-- C17, counterexample: for a 2048 x 1024 image and tile size 256 the tile `(0, 0)` is
accepted at zoom `-30`, but its parent `(0, 0)` at zoom `-31` is rejected: the scale of
zoom `-31` comes from `1 << 31` and is negative. -/
theorem checkAndCorrectTileCoordinates_parent_rejected :
    (checkAndCorrectTileCoordinates 256 ⟨⟨2048, 1024, none⟩⟩ 0 0 (-30)).1 = true
    ∧ (checkAndCorrectTileCoordinates 256 ⟨⟨2048, 1024, none⟩⟩ (0 / 2) (0 / 2) (-30 - 1)).1
        = false := by
  constructor
  · rw [check_accepts_iff 256 ⟨⟨2048, 1024, none⟩⟩ 0 0 (-30) (by decide) (by decide)
      (by decide) (by decide) (by decide) (by decide) (by decide)]
    norm_num
  · have h1 : toFloat (((2048 : ℤ) : ℚ)) = 2048 := by
      have h := toFloat_intCast (n := 2048) (by decide)
      simpa using h
    have h2 : toFloat ((2048 : ℚ) * -(2 : ℚ) ^ (-31 : ℤ)) = -(2 : ℚ) ^ (-20 : ℤ) := by
      have e : (2048 : ℚ) * -(2 : ℚ) ^ (-31 : ℤ) = -(2 : ℚ) ^ (-20 : ℤ) := by norm_num
      rw [e]
      exact roundToPrec_neg_zpow 24 (by norm_num) _
    have h3 : toFloat (((wrapInt (0 / 2 * 256) : ℤ) : ℚ)) = 0 := by
      have hw : wrapInt (0 / 2 * 256) = 0 := by decide
      rw [hw]
      have h := toFloat_intCast (n := 0) (by decide)
      simpa using h
    have hz : (-30 - 1 : ℤ) = -31 := by norm_num
    unfold checkAndCorrectTileCoordinates
    rw [hz, zoomToScale_neg_thirtyOne]
    simp only [h1]
    rw [h2, h3, if_pos]
    right
    left
    norm_num

/-! ## The suggested initial centre as a floating-point value -/

/-- The `double` division by `2^t` and the `double` product with the scale `1/2` of a
`double` quotient `a / c` round only once: the result is the `double` nearest to
`a / c / 2^(t+1)`. -/
theorem center_chain (a c : ℚ) (t : ℕ) :
    toDouble (toDouble (toDouble (a / c) / (2 : ℚ) ^ (t : ℤ)) * (1 / 2))
      = toDouble (a / c * (2 : ℚ) ^ (-(t : ℤ) - 1)) := by
  have e1 : toDouble (a / c) / (2 : ℚ) ^ (t : ℤ) = toDouble (a / c) * (2 : ℚ) ^ (-(t : ℤ)) := by
    rw [div_eq_mul_inv, ← zpow_neg]
  rw [e1, toDouble_mul_zpow, toDouble_idem]
  have e2 : toDouble (a / c) * (2 : ℚ) ^ (-(t : ℤ)) * (1 / 2)
      = toDouble (a / c) * (2 : ℚ) ^ (-(t : ℤ) - 1) := by
    rw [zpow_sub₀ (by norm_num : (2 : ℚ) ≠ 0) (-(t : ℤ)) 1, zpow_one]
    ring
  rw [e2, toDouble_mul_zpow, toDouble_idem, toDouble_mul_zpow]

theorem zpow_neg_succ_eq (t : ℕ) (c : ℚ) (a : ℚ) (hc : c ≠ 0) :
    a / c * (2 : ℚ) ^ (-(t : ℤ) - 1) = a / (2 * c * (2 : ℚ) ^ t) := by
  have he : -(t : ℤ) - 1 = -((t : ℤ) + 1) := by ring
  have hp : (2 : ℚ) ^ t ≠ 0 := by positivity
  rw [he, zpow_neg, zpow_add₀ (by norm_num : (2 : ℚ) ≠ 0), zpow_natCast, zpow_one]
  field_simp
  left
  ring

/-- For a tile size `2^t` both coordinates of the suggested centre are correctly rounded:
they are the `double` values nearest to `width / (4 * TILE_SIZE)` and
`height / (12 * TILE_SIZE)`. -/
theorem suggestInitialCenter_rounded (t : ℕ) (self : ImageSource) :
    suggestInitialCenter (2 ^ t) self
      = ⟨some (toDouble ((self.image.width : ℚ) / (4 * (2 : ℚ) ^ t))),
         some (toDouble ((self.image.height : ℚ) / (12 * (2 : ℚ) ^ t)))⟩ := by
  have hT : (((2 : ℤ) ^ t : ℤ) : ℚ) = (2 : ℚ) ^ (t : ℤ) := by
    push_cast
    rw [zpow_natCast]
  have hT0 : (2 : ℚ) ^ (t : ℤ) ≠ 0 := by positivity
  unfold suggestInitialCenter getInitialZoomLevel divDouble
  rw [zoomToScale_neg_one, hT, if_neg hT0, if_neg hT0]
  simp only [Option.map_some']
  rw [center_chain, center_chain, zpow_neg_succ_eq t 2 _ (by norm_num),
    zpow_neg_succ_eq t 6 _ (by norm_num)]
  norm_num

/-- Rounding to a `double` keeps the sign of a non-negative value. -/
theorem toDouble_nonneg {q : ℚ} (hq : 0 ≤ q) : 0 ≤ toDouble q := by
  have h := roundToPrec_mono_of_nonneg 52 le_rfl hq
  rw [roundToPrec_zero] at h
  exact h

/-- C12: for a tile size that is a power of two, `TILE_SIZE = 2^t` with `t ≤ 30` (as 256
is), and every image with `int` width and height, `suggestInitialCenter` returns the
`double` values of `width / (4 * TILE_SIZE)` and `height / (12 * TILE_SIZE)`, which are
`(width / 2) / TILE_SIZE * scale` and `(height / 6) / TILE_SIZE * scale` for the scale of
the initial zoom.  The `x` coordinate is exact, and multiplied by `TILE_SIZE` it is half
the scaled width.  The `y` coordinate multiplied by `TILE_SIZE` is the `double` of one
sixth of the scaled height, within relative error `2^-53` of it, and for a non-negative
height it lies between `0` and one third of the scaled height. -/
theorem suggestInitialCenter_spec (t : ℕ) (self : ImageSource) (_ht : t ≤ 30)
    (hw : IsInt self.image.width) (_hh : IsInt self.image.height) :
    suggestInitialCenter (2 ^ t) self
      = ⟨some (toDouble ((self.image.width : ℚ) / (4 * (2 : ℚ) ^ t))),
         some (toDouble ((self.image.height : ℚ) / (12 * (2 : ℚ) ^ t)))⟩
    ∧ (self.image.width : ℚ) / 2 / (2 : ℚ) ^ t * zoomToScale (getInitialZoomLevel self)
        = (self.image.width : ℚ) / (4 * (2 : ℚ) ^ t)
    ∧ (self.image.height : ℚ) / 6 / (2 : ℚ) ^ t * zoomToScale (getInitialZoomLevel self)
        = (self.image.height : ℚ) / (12 * (2 : ℚ) ^ t)
    ∧ toDouble ((self.image.width : ℚ) / (4 * (2 : ℚ) ^ t))
        = (self.image.width : ℚ) / (4 * (2 : ℚ) ^ t)
    ∧ toDouble ((self.image.width : ℚ) / (4 * (2 : ℚ) ^ t)) * (2 : ℚ) ^ t
        = (self.image.width : ℚ) * zoomToScale (getInitialZoomLevel self) / 2
    ∧ toDouble ((self.image.height : ℚ) / (12 * (2 : ℚ) ^ t)) * (2 : ℚ) ^ t
        = toDouble ((self.image.height : ℚ) * zoomToScale (getInitialZoomLevel self) / 6)
    ∧ |toDouble ((self.image.height : ℚ) / (12 * (2 : ℚ) ^ t)) * (2 : ℚ) ^ t
          - (self.image.height : ℚ) * zoomToScale (getInitialZoomLevel self) / 6|
        ≤ |(self.image.height : ℚ) * zoomToScale (getInitialZoomLevel self) / 6|
            * (2 : ℚ) ^ (-53 : ℤ)
    ∧ (0 ≤ self.image.height →
        0 ≤ toDouble ((self.image.height : ℚ) / (12 * (2 : ℚ) ^ t)) * (2 : ℚ) ^ t
        ∧ toDouble ((self.image.height : ℚ) / (12 * (2 : ℚ) ^ t)) * (2 : ℚ) ^ t
            ≤ (self.image.height : ℚ) * zoomToScale (getInitialZoomLevel self) / 3) := by
  have hs : zoomToScale (getInitialZoomLevel self) = 1 / 2 := by
    unfold getInitialZoomLevel
    exact zoomToScale_neg_one
  have hp : (0 : ℚ) < (2 : ℚ) ^ t := by positivity
  have hpz : (2 : ℚ) ^ t = (2 : ℚ) ^ (t : ℤ) := (zpow_natCast 2 t).symm
  -- the exact `x`
  have hx : toDouble ((self.image.width : ℚ) / (4 * (2 : ℚ) ^ t))
      = (self.image.width : ℚ) / (4 * (2 : ℚ) ^ t) := by
    have e : (self.image.width : ℚ) / (4 * (2 : ℚ) ^ t)
        = (self.image.width : ℚ) * (2 : ℚ) ^ (-(t : ℤ) - 2) := by
      have he : -(t : ℤ) - 2 = -((t : ℤ) + 2) := by ring
      rw [he, zpow_neg, zpow_add₀ (by norm_num : (2 : ℚ) ≠ 0), zpow_natCast]
      field_simp
      left
      ring
    rw [e]
    exact toDouble_intCast_mul_zpow hw _
  -- `y * TILE_SIZE`
  have hy : toDouble ((self.image.height : ℚ) / (12 * (2 : ℚ) ^ t)) * (2 : ℚ) ^ t
      = toDouble ((self.image.height : ℚ) * (1 / 2) / 6) := by
    rw [hpz, ← toDouble_mul_zpow]
    congr 1
    rw [← hpz]
    field_simp
    ring
  rw [hs, hy]
  refine ⟨suggestInitialCenter_rounded t self, ?_, ?_, hx, ?_, rfl, toDouble_abs_error _, ?_⟩
  · field_simp
    left
    ring
  · field_simp
    left
    ring
  · rw [hx]
    field_simp
    ring
  · intro h0
    have hq : (0 : ℚ) ≤ (self.image.height : ℚ) * (1 / 2) / 6 := by
      have : (0 : ℚ) ≤ (self.image.height : ℚ) := Int.cast_nonneg.mpr h0
      positivity
    refine ⟨toDouble_nonneg hq, ?_⟩
    have herr := toDouble_abs_error ((self.image.height : ℚ) * (1 / 2) / 6)
    rw [abs_of_nonneg hq] at herr
    have h1 := (abs_le.mp herr).2
    have h53 : (2 : ℚ) ^ (-53 : ℤ) ≤ 1 := by norm_num
    have h2 : (self.image.height : ℚ) * (1 / 2) / 6 * (2 : ℚ) ^ (-53 : ℤ)
        ≤ (self.image.height : ℚ) * (1 / 2) / 6 * 1 := mul_le_mul_of_nonneg_left h53 hq
    linarith

/-- Witness of C12: a 2048 x 1024 image with tile size `2^8 = 256`; the centre is the
pair of the `double` values of `2048 / 1024` and `1024 / 3072`, and `y * 256` lies in the
top third of the scaled height. -/
theorem suggestInitialCenter_spec_witness :
    suggestInitialCenter (2 ^ 8) ⟨⟨2048, 1024, none⟩⟩
      = ⟨some (toDouble (((2048 : ℤ) : ℚ) / (4 * (2 : ℚ) ^ 8))),
         some (toDouble (((1024 : ℤ) : ℚ) / (12 * (2 : ℚ) ^ 8)))⟩
    ∧ toDouble (((1024 : ℤ) : ℚ) / (12 * (2 : ℚ) ^ 8)) * (2 : ℚ) ^ 8
        ≤ ((1024 : ℤ) : ℚ) * zoomToScale (getInitialZoomLevel ⟨⟨2048, 1024, none⟩⟩) / 3 :=
  ⟨(suggestInitialCenter_spec 8 ⟨⟨2048, 1024, none⟩⟩ (by decide) (by decide) (by decide)).1,
   ((suggestInitialCenter_spec 8 ⟨⟨2048, 1024, none⟩⟩ (by decide) (by decide)
      (by decide)).2.2.2.2.2.2.2 (by decide)).2⟩

/-- The `double` nearest to `1/3`. -/
theorem toDouble_one_third :
    toDouble (1 / 3) = 6004799503160661 / 18014398509481984 := by
  unfold toDouble
  rw [roundToPrec_of_bounds 53 (k := -2) (by norm_num [abs_of_pos]) (by norm_num [abs_of_pos])]
  norm_num [roundHalfEven]

/-- The suggested centre of a 2048 x 1024 image for tile size 256, evaluated: `x = 2`
and `y` is the `double` nearest to `1/3`. -/
theorem suggestInitialCenter_example :
    suggestInitialCenter 256 ⟨⟨2048, 1024, none⟩⟩
      = ⟨some 2, some (6004799503160661 / 18014398509481984)⟩ := by
  have h256 : (256 : ℤ) = 2 ^ 8 := by norm_num
  rw [h256, suggestInitialCenter_rounded 8 ⟨⟨2048, 1024, none⟩⟩]
  have ex : (((2048 : ℤ) : ℚ) / (4 * (2 : ℚ) ^ 8)) = ((2 : ℤ) : ℚ) * (2 : ℚ) ^ (0 : ℤ) := by
    norm_num
  have ey : (((1024 : ℤ) : ℚ) / (12 * (2 : ℚ) ^ 8)) = 1 / 3 := by norm_num
  simp only [ex, ey, toDouble_one_third]
  rw [toDouble_intCast_mul_zpow (by decide)]
  norm_num

/-! ## The point transform between zoom levels -/

/-- The `double` nearest to `1 / 49`. -/
theorem toDouble_one_div_49 :
    toDouble (1 / 49) = 5882252574524729 / 288230376151711744 := by
  unfold toDouble
  rw [roundToPrec_of_bounds 53 (k := -6) (by norm_num [abs_of_pos]) (by norm_num [abs_of_pos])]
  norm_num [roundHalfEven]

/-- Multiplying the `double` nearest to `1 / 49` by 49 gives the `double` just below 1. -/
theorem toDouble_one_div_49_mul_49 :
    toDouble (5882252574524729 / 288230376151711744 * 49)
      = 9007199254740991 / 9007199254740992 := by
  unfold toDouble
  rw [roundToPrec_of_bounds 53 (k := -1) (by norm_num [abs_of_pos]) (by norm_num [abs_of_pos])]
  norm_num [roundHalfEven]

/-- Multiplying the `double` nearest to `1 / 49` by 98 gives the `double` just below 2. -/
theorem toDouble_one_div_49_mul_98 :
    toDouble (5882252574524729 / 288230376151711744 * 98)
      = 9007199254740991 / 4503599627370496 := by
  unfold toDouble
  rw [roundToPrec_of_bounds 53 (k := 0) (by norm_num [abs_of_pos]) (by norm_num [abs_of_pos])]
  norm_num [roundHalfEven]

theorem scaledSide_eq {n zoom : ℤ} (hn : |n| ≤ 2 ^ 24) (hz0 : -30 ≤ zoom) (hz1 : zoom ≤ 30) :
    toFloat (toFloat (n : ℚ) * zoomToScale zoom) = (n : ℚ) * (2 : ℚ) ^ zoom := by
  rw [zoomToScale_eq hz0 hz1, toFloat_intCast hn, toFloat_intCast_mul_zpow hn]

theorem zpow_pred_two (k : ℤ) : (2 : ℚ) ^ (k - 1) = (2 : ℚ) ^ k / 2 := by
  rw [zpow_sub₀ (by norm_num : (2 : ℚ) ≠ 0), zpow_one]

theorem zpow_succ_two (k : ℤ) : (2 : ℚ) ^ (k + 1) = 2 * (2 : ℚ) ^ k := by
  rw [zpow_add₀ (by norm_num : (2 : ℚ) ≠ 0), zpow_one, mul_comm]

theorem roundDouble_of_range {q : ℚ} (h1 : (2 : ℚ) ^ (-1022 : ℤ) ≤ |q|)
    (h2 : |q| ≤ (2 : ℚ) ^ (1023 : ℤ)) : roundDouble q = some (toDouble q) := by
  apply roundDouble_of_normal h1
  have e : (2 : ℚ) ^ (1023 : ℕ) = (2 : ℚ) ^ (1023 : ℤ) := by
    rw [← zpow_natCast, Nat.cast_ofNat]
  rw [e]
  exact h2

/-- A value in `InDoubleRange` is a normal number, one binade away from either end. -/
theorem inDoubleRange_normal {v : ℚ} (h : InDoubleRange v) :
    (2 : ℚ) ^ (-1022 : ℤ) ≤ |v| ∧ |v| ≤ (2 : ℚ) ^ (1023 : ℤ)
    ∧ (2 : ℚ) ^ (-1021 : ℤ) ≤ |v| ∧ |v| ≤ (2 : ℚ) ^ (1022 : ℤ) := by
  obtain ⟨h1, h2⟩ := h
  have two : (1 : ℚ) ≤ 2 := by norm_num
  exact ⟨le_trans (zpow_le_zpow_right₀ two (by norm_num)) h1,
    le_trans h2 (zpow_le_zpow_right₀ two (by norm_num)),
    le_trans (zpow_le_zpow_right₀ two (by norm_num)) h1,
    le_trans h2 (zpow_le_zpow_right₀ two (by norm_num))⟩

/-- A value within half of a value in `InDoubleRange` is a normal number, not at the ends
of the range. -/
theorem inDoubleRange_near {u v e : ℚ} (he : e ≤ 1 / 2) (herr : |u - v| ≤ |v| * e)
    (h : InDoubleRange v) :
    (2 : ℚ) ^ (-1022 : ℤ) ≤ |u| ∧ |u| ≤ (2 : ℚ) ^ (1023 : ℤ)
    ∧ (2 : ℚ) ^ (-1021 : ℤ) ≤ |u| ∧ |u| ≤ (2 : ℚ) ^ (1022 : ℤ) := by
  obtain ⟨h1, h2⟩ := h
  obtain ⟨b1, b2⟩ := abs_bounds_of_error he herr
  have two : (1 : ℚ) ≤ 2 := by norm_num
  have l1 : (2 : ℚ) ^ (-1021 : ℤ) ≤ |u| := by
    have e1 : (2 : ℚ) ^ (-1021 : ℤ) = (2 : ℚ) ^ (-1020 : ℤ) / 2 := by
      rw [← zpow_pred_two]
      norm_num
    rw [e1]
    exact le_trans (div_le_div_of_nonneg_right h1 (by norm_num)) b1
  have l2 : |u| ≤ (2 : ℚ) ^ (1022 : ℤ) := by
    have e2 : (2 : ℚ) ^ (1022 : ℤ) = 2 * (2 : ℚ) ^ (1021 : ℤ) := by
      rw [← zpow_succ_two]
      norm_num
    rw [e2]
    exact le_trans b2 (mul_le_mul_of_nonneg_left h2 (by norm_num))
  exact ⟨le_trans (zpow_le_zpow_right₀ two (by norm_num)) l1,
    le_trans l2 (zpow_le_zpow_right₀ two (by norm_num)), l1, l2⟩

/-- Magnitudes between `2^-64` and `2^64` are in `InDoubleRange`. -/
theorem inDoubleRange_of_small {v : ℚ} (h1 : (2 : ℚ) ^ (-64 : ℤ) ≤ |v|)
    (h2 : |v| ≤ (2 : ℚ) ^ (64 : ℤ)) : InDoubleRange v :=
  ⟨le_trans (zpow_le_zpow_right₀ (by norm_num) (by norm_num)) h1,
    le_trans h2 (zpow_le_zpow_right₀ (by norm_num) (by norm_num))⟩

/-- Relative errors compose. -/
theorem rel_error_trans {v u r e1 e2 : ℚ} (he2 : 0 ≤ e2)
    (h1 : |u - v| ≤ |v| * e1) (h2 : |r - u| ≤ |u| * e2) :
    |r - v| ≤ |v| * ((1 + e1) * (1 + e2) - 1) := by
  have hu : |u| ≤ |v| * (1 + e1) := by
    have h := abs_add (u - v) v
    rw [sub_add_cancel] at h
    linarith
  have h3 : |u| * e2 ≤ |v| * (1 + e1) * e2 := mul_le_mul_of_nonneg_right hu he2
  have h4 : |r - v| ≤ |r - u| + |u - v| := by
    have h := abs_add (r - u) (u - v)
    rw [sub_add_sub_cancel] at h
    exact h
  have h5 : |v| * ((1 + e1) * (1 + e2) - 1) = |v| * (1 + e1) * e2 + |v| * e1 := by ring
  rw [h5]
  linarith

theorem errTwo_le_half : (1 + (2 : ℚ) ^ (-53 : ℤ)) ^ 2 - 1 ≤ 1 / 2 := by norm_num

theorem errTwo_nonneg : (0 : ℚ) ≤ (1 + (2 : ℚ) ^ (-53 : ℤ)) ^ 2 - 1 := by norm_num

/-- The value of one coordinate of `transformZoomedPoint` lies within the relative error
`(1 + 2^-53)^2 - 1` of `x * (V / W)`. -/
theorem transform_value_error (x : ℚ) {W : ℚ} (V : ℚ) (hW : W ≠ 0) :
    |toDouble (toDouble (x / W) * V) - x * (V / W)|
      ≤ |x * (V / W)| * ((1 + (2 : ℚ) ^ (-53 : ℤ)) ^ 2 - 1) :=
  two_step_error hW (by positivity) (toDouble_abs_error _) (toDouble_abs_error _)

/-- One coordinate of `transformZoomedPoint` is finite when it is zero, or when the
quotient is a normal number and the exact result is a normal number away from the ends of
the range: then neither of the two `double` operations overflows or underflows. -/
theorem transform_value {x W V : ℚ} (hW : W ≠ 0)
    (hx : x = 0 ∨ ((2 : ℚ) ^ (-1022 : ℤ) ≤ |x / W| ∧ |x / W| ≤ (2 : ℚ) ^ (1023 : ℤ)
      ∧ (2 : ℚ) ^ (-1021 : ℤ) ≤ |x * (V / W)| ∧ |x * (V / W)| ≤ (2 : ℚ) ^ (1022 : ℤ))) :
    (quotDouble x W).bind (fun q => roundDouble (q * V))
      = some (toDouble (toDouble (x / W) * V)) := by
  rcases hx with h0 | ⟨hq1, hq2, hv1, hv2⟩
  · unfold quotDouble
    rw [if_neg hW, h0, zero_div, roundDouble_zero]
    simp only [Option.some_bind, zero_mul]
    rw [roundDouble_zero, toDouble_zero, zero_mul, toDouble_zero]
  · have hv : x * (V / W) = x / W * V := by
      field_simp
    have hprod : |toDouble (x / W) * V - x / W * V| ≤ |x / W * V| * (2 : ℚ) ^ (-53 : ℤ) := by
      have e : toDouble (x / W) * V - x / W * V = (toDouble (x / W) - x / W) * V := by ring
      rw [e, abs_mul, abs_mul]
      calc |toDouble (x / W) - x / W| * |V| ≤ |x / W| * (2 : ℚ) ^ (-53 : ℤ) * |V| :=
            mul_le_mul_of_nonneg_right (toDouble_abs_error _) (abs_nonneg _)
        _ = |x / W| * |V| * (2 : ℚ) ^ (-53 : ℤ) := by ring
    obtain ⟨hb1, hb2⟩ := abs_bounds_of_error (by norm_num) hprod
    rw [← hv] at hb1 hb2
    have hn1 : (2 : ℚ) ^ (-1022 : ℤ) ≤ |toDouble (x / W) * V| := by
      have e1 : (2 : ℚ) ^ (-1022 : ℤ) = (2 : ℚ) ^ (-1021 : ℤ) / 2 := by
        rw [← zpow_pred_two]
        norm_num
      rw [e1]
      exact le_trans (div_le_div_of_nonneg_right hv1 (by norm_num)) hb1
    have hn2 : |toDouble (x / W) * V| ≤ (2 : ℚ) ^ (1023 : ℤ) := by
      have e2 : (2 : ℚ) ^ (1023 : ℤ) = 2 * (2 : ℚ) ^ (1022 : ℤ) := by
        rw [← zpow_succ_two]
        norm_num
      rw [e2]
      exact le_trans hb2 (mul_le_mul_of_nonneg_left hv2 (by norm_num))
    unfold quotDouble
    rw [if_neg hW, roundDouble_of_range hq1 hq2]
    simp only [Option.some_bind]
    exact roundDouble_of_range hn1 hn2

/-- With power-of-two sides and a `double` coordinate nothing is rounded. -/
theorem transform_value_exact {x : ℚ} (hx : toDouble x = x) (j k : ℤ) :
    toDouble (toDouble (x / (2 : ℚ) ^ j) * (2 : ℚ) ^ k) = x * (2 : ℚ) ^ (k - j) := by
  have e1 : x / (2 : ℚ) ^ j = x * (2 : ℚ) ^ (-j) := by
    rw [div_eq_mul_inv, ← zpow_neg]
  have e2 : x * (2 : ℚ) ^ (-j) * (2 : ℚ) ^ k = x * (2 : ℚ) ^ (k - j) := by
    rw [mul_assoc, ← zpow_add₀ (by norm_num : (2 : ℚ) ≠ 0)]
    congr 2
    ring
  rw [e1, toDouble_mul_zpow x (-j), hx, e2, toDouble_mul_zpow, hx]

/-- One coordinate of the transform at equal zoom levels. -/
theorem coord_same {n : ℤ} (hn : IsInt n) (hn0 : n ≠ 0) (zoom : ℤ) {x : ℚ}
    (hx : x = 0 ∨ (InDoubleRange x
      ∧ InDoubleRange (x / toFloat (toFloat (n : ℚ) * zoomToScale zoom)))) :
    ∃ r : ℚ,
      (quotDouble x (toFloat (toFloat (n : ℚ) * zoomToScale zoom))).bind
          (fun q => roundDouble (q * toFloat (toFloat (n : ℚ) * zoomToScale zoom))) = some r
      ∧ |r - x| ≤ |x| * ((1 + (2 : ℚ) ^ (-53 : ℤ)) ^ 2 - 1)
      ∧ (toDouble x = x →
          (∃ j : ℤ, toFloat (toFloat (n : ℚ) * zoomToScale zoom) = (2 : ℚ) ^ j) → r = x) := by
  have hW := (scaledSide_bounds hn hn0 zoom).1
  generalize toFloat (toFloat (n : ℚ) * zoomToScale zoom) = W at hW hx
  have hone : x * (W / W) = x := by rw [div_self hW, mul_one]
  refine ⟨toDouble (toDouble (x / W) * W), transform_value hW ?_, ?_, ?_⟩
  · rcases hx with h0 | ⟨h1, h2⟩
    · exact Or.inl h0
    · right
      rw [hone]
      exact ⟨(inDoubleRange_normal h2).1, (inDoubleRange_normal h2).2.1,
        (inDoubleRange_normal h1).2.2.1, (inDoubleRange_normal h1).2.2.2⟩
  · have h := transform_value_error x W hW
    rw [hone] at h
    exact h
  · rintro hd ⟨j, hj⟩
    rw [hj, transform_value_exact hd, sub_self, zpow_zero, mul_one]

/-- C10 (as amended): for every image with non-zero `int` width and height, every zoom
`z`, and every point whose coordinates are zero or such that the coordinate and its
quotient by the scaled side are in `InDoubleRange` (no `double` operation overflows or
underflows), `transformZoomedPoint x y z z` is a finite point `(x', y')` within the
relative rounding error `(1 + 2^-53)^2 - 1` of `(x, y)`; a `double` coordinate is returned
unchanged when the scaled side is a power of two. -/
theorem transformZoomedPoint_same_zoom (self : ImageSource) (x y : ℚ) (z : ℤ)
    (hw : IsInt self.image.width) (hh : IsInt self.image.height)
    (hw0 : self.image.width ≠ 0) (hh0 : self.image.height ≠ 0)
    (hx : x = 0 ∨ (InDoubleRange x
      ∧ InDoubleRange (x / toFloat (toFloat (self.image.width : ℚ) * zoomToScale z))))
    (hy : y = 0 ∨ (InDoubleRange y
      ∧ InDoubleRange (y / toFloat (toFloat (self.image.height : ℚ) * zoomToScale z)))) :
    ∃ x1 y1 : ℚ,
      transformZoomedPoint self x y z z = ⟨some x1, some y1⟩
      ∧ |x1 - x| ≤ |x| * ((1 + (2 : ℚ) ^ (-53 : ℤ)) ^ 2 - 1)
      ∧ |y1 - y| ≤ |y| * ((1 + (2 : ℚ) ^ (-53 : ℤ)) ^ 2 - 1)
      ∧ (toDouble x = x →
          (∃ j : ℤ, toFloat (toFloat (self.image.width : ℚ) * zoomToScale z) = (2 : ℚ) ^ j) →
          x1 = x)
      ∧ (toDouble y = y →
          (∃ j : ℤ, toFloat (toFloat (self.image.height : ℚ) * zoomToScale z) = (2 : ℚ) ^ j) →
          y1 = y) := by
  obtain ⟨x1, ex, bx, cx⟩ := coord_same hw hw0 z hx
  obtain ⟨y1, ey, by1, cy⟩ := coord_same hh hh0 z hy
  refine ⟨x1, y1, ?_, bx, by1, cx, cy⟩
  unfold transformZoomedPoint
  rw [ex, ey]

theorem toDouble_natCast_small (m : ℕ) (hm : m < 2 ^ 53) : toDouble (m : ℚ) = (m : ℚ) := by
  have h := roundToPrec_dyadic 53 (m : ℤ) 0 (by
    rw [abs_of_nonneg (Int.natCast_nonneg m)]
    exact_mod_cast hm)
  unfold toDouble
  simpa using h

/-- Witness of C10: the point `(100, 50)` at zoom `-1` of a 2048 x 1024 image, whose
scaled sides `1024` and `512` are powers of two, is returned unchanged. -/
theorem transformZoomedPoint_same_zoom_witness :
    transformZoomedPoint ⟨⟨2048, 1024, none⟩⟩ 100 50 (-1) (-1) = ⟨some 100, some 50⟩ := by
  have hW : toFloat (toFloat ((2048 : ℤ) : ℚ) * zoomToScale (-1)) = (2 : ℚ) ^ (10 : ℤ) := by
    rw [@scaledSide_eq 2048 (-1) (by decide) (by norm_num) (by norm_num)]
    norm_num
  have hH : toFloat (toFloat ((1024 : ℤ) : ℚ) * zoomToScale (-1)) = (2 : ℚ) ^ (9 : ℤ) := by
    rw [@scaledSide_eq 1024 (-1) (by decide) (by norm_num) (by norm_num)]
    norm_num
  have h100 : toDouble 100 = 100 := by
    have h := toDouble_natCast_small 100 (by norm_num)
    simpa using h
  have h50 : toDouble 50 = 50 := by
    have h := toDouble_natCast_small 50 (by norm_num)
    simpa using h
  have hx : (100 : ℚ) = 0 ∨ (InDoubleRange (100 : ℚ)
      ∧ InDoubleRange ((100 : ℚ) / toFloat (toFloat ((2048 : ℤ) : ℚ) * zoomToScale (-1)))) := by
    right
    rw [hW]
    exact ⟨inDoubleRange_of_small (by norm_num [abs_of_pos]) (by norm_num [abs_of_pos]),
      inDoubleRange_of_small (by norm_num [abs_of_pos]) (by norm_num [abs_of_pos])⟩
  have hy : (50 : ℚ) = 0 ∨ (InDoubleRange (50 : ℚ)
      ∧ InDoubleRange ((50 : ℚ) / toFloat (toFloat ((1024 : ℤ) : ℚ) * zoomToScale (-1)))) := by
    right
    rw [hH]
    exact ⟨inDoubleRange_of_small (by norm_num [abs_of_pos]) (by norm_num [abs_of_pos]),
      inDoubleRange_of_small (by norm_num [abs_of_pos]) (by norm_num [abs_of_pos])⟩
  obtain ⟨x1, y1, he, _, _, cx, cy⟩ :=
    transformZoomedPoint_same_zoom ⟨⟨2048, 1024, none⟩⟩ 100 50 (-1) (by decide) (by decide)
      (by decide) (by decide) hx hy
  rw [he, cx h100 ⟨10, hW⟩, cy h50 ⟨9, hH⟩]

/-- C10, counterexample: for a 49 x 49 image and zoom 0, the point `(1, 1)` is mapped to
`(1 - 2^-53, 1 - 2^-53)`: the `double` quotient `1 / 49` is rounded, and its product with
49 rounds to the `double` just below 1. -/
theorem transformZoomedPoint_rounds :
    transformZoomedPoint ⟨⟨49, 49, none⟩⟩ 1 1 0 0
      = ⟨some (9007199254740991 / 9007199254740992), some (9007199254740991 / 9007199254740992)⟩
    ∧ transformZoomedPoint ⟨⟨49, 49, none⟩⟩ 1 1 0 0 ≠ ⟨some 1, some 1⟩ := by
  have h49 : toFloat (toFloat ((49 : ℤ) : ℚ) * zoomToScale 0) = 49 := by
    have h := @scaledSide_eq 49 0 (by decide) (by norm_num) (by norm_num)
    simpa using h
  have hc : (quotDouble 1 49).bind (fun q => roundDouble (q * 49))
      = some (9007199254740991 / 9007199254740992) := by
    rw [transform_value (by norm_num) (Or.inr ⟨le_trans (zpow_le_zpow_right₀ (by norm_num)
        (by norm_num : (-1022 : ℤ) ≤ -6)) (by norm_num [abs_of_pos]),
      le_trans (by norm_num [abs_of_pos] : |(1 : ℚ) / 49| ≤ (2 : ℚ) ^ (0 : ℤ))
        (zpow_le_zpow_right₀ (by norm_num) (by norm_num)),
      le_trans (zpow_le_zpow_right₀ (by norm_num) (by norm_num : (-1021 : ℤ) ≤ 0))
        (by norm_num [abs_of_pos]),
      le_trans (by norm_num [abs_of_pos] : |(1 : ℚ) * (49 / 49)| ≤ (2 : ℚ) ^ (0 : ℤ))
        (zpow_le_zpow_right₀ (by norm_num) (by norm_num))⟩),
      toDouble_one_div_49, toDouble_one_div_49_mul_49]
  have hv : transformZoomedPoint ⟨⟨49, 49, none⟩⟩ 1 1 0 0
      = ⟨some (9007199254740991 / 9007199254740992),
         some (9007199254740991 / 9007199254740992)⟩ := by
    unfold transformZoomedPoint
    simp only [h49]
    rw [hc]
  refine ⟨hv, ?_⟩
  rw [hv]
  intro h
  have h1 := congrArg Point.x h
  simp only [Option.some.injEq] at h1
  norm_num at h1

/-! ## Composition of the point transform -/

theorem side_ratio {F : ℚ} (hF : F ≠ 0) (u v : ℤ) :
    F * (2 : ℚ) ^ v / (F * (2 : ℚ) ^ u) = (2 : ℚ) ^ (v - u) := by
  rw [zpow_sub₀ (by norm_num : (2 : ℚ) ≠ 0)]
  have hu : (2 : ℚ) ^ u ≠ 0 := by positivity
  field_simp
  ring

theorem zpow_compose (x : ℚ) (a b c : ℤ) :
    x * (2 : ℚ) ^ (b - a) * (2 : ℚ) ^ (c - b) = x * (2 : ℚ) ^ (c - a) := by
  rw [mul_assoc, ← zpow_add₀ (by norm_num : (2 : ℚ) ≠ 0)]
  congr 2
  ring

/-- One coordinate of the transform from zoom `u` to zoom `v`, for a side whose `float`
value is `F`: it is finite and within the relative error `(1 + 2^-53)^2 - 1` of
`x * 2^(v-u)`. -/
theorem coord_step {F : ℚ} (hF : F ≠ 0) (u v : ℤ) {x : ℚ}
    (hx : x = 0 ∨ ((2 : ℚ) ^ (-1022 : ℤ) ≤ |x / (F * (2 : ℚ) ^ u)|
      ∧ |x / (F * (2 : ℚ) ^ u)| ≤ (2 : ℚ) ^ (1023 : ℤ)
      ∧ (2 : ℚ) ^ (-1021 : ℤ) ≤ |x * (2 : ℚ) ^ (v - u)|
      ∧ |x * (2 : ℚ) ^ (v - u)| ≤ (2 : ℚ) ^ (1022 : ℤ))) :
    (quotDouble x (F * (2 : ℚ) ^ u)).bind (fun q => roundDouble (q * (F * (2 : ℚ) ^ v)))
        = some (toDouble (toDouble (x / (F * (2 : ℚ) ^ u)) * (F * (2 : ℚ) ^ v)))
    ∧ |toDouble (toDouble (x / (F * (2 : ℚ) ^ u)) * (F * (2 : ℚ) ^ v)) - x * (2 : ℚ) ^ (v - u)|
        ≤ |x * (2 : ℚ) ^ (v - u)| * ((1 + (2 : ℚ) ^ (-53 : ℤ)) ^ 2 - 1) := by
  have hW : F * (2 : ℚ) ^ u ≠ 0 := mul_ne_zero hF (by positivity)
  have herr := transform_value_error x (F * (2 : ℚ) ^ v) hW
  rw [side_ratio hF u v] at herr
  refine ⟨transform_value hW ?_, herr⟩
  rw [side_ratio hF u v]
  exact hx

/-- A coordinate that vanishes up to a relative error vanishes. -/
theorem eq_zero_of_rel_error {p v e : ℚ} (hv : v = 0) (h : |p - v| ≤ |v| * e) : p = 0 := by
  rw [hv, abs_zero, zero_mul, sub_zero] at h
  exact abs_eq_zero.mp (le_antisymm h (abs_nonneg p))

theorem errFour_eq :
    (1 + ((1 + (2 : ℚ) ^ (-53 : ℤ)) ^ 2 - 1)) * (1 + ((1 + (2 : ℚ) ^ (-53 : ℤ)) ^ 2 - 1)) - 1
      = (1 + (2 : ℚ) ^ (-53 : ℤ)) ^ 4 - 1 := by
  ring

/-- The second of two consecutive transforms, from zoom `b` to zoom `c`, applied to a
value `p` within the rounding error of `x * 2^(b-a)`: it is finite and within the relative
error `(1 + 2^-53)^4 - 1` of `x * 2^(c-a)`. -/
theorem coord_second {F : ℚ} (hF : F ≠ 0) (a b c : ℤ) {x p : ℚ}
    (hp : |p - x * (2 : ℚ) ^ (b - a)|
      ≤ |x * (2 : ℚ) ^ (b - a)| * ((1 + (2 : ℚ) ^ (-53 : ℤ)) ^ 2 - 1))
    (hx : x = 0 ∨ (InDoubleRange (x / (F * (2 : ℚ) ^ a))
      ∧ InDoubleRange (x * (2 : ℚ) ^ (c - a)))) :
    (quotDouble p (F * (2 : ℚ) ^ b)).bind (fun q => roundDouble (q * (F * (2 : ℚ) ^ c)))
        = some (toDouble (toDouble (p / (F * (2 : ℚ) ^ b)) * (F * (2 : ℚ) ^ c)))
    ∧ |toDouble (toDouble (p / (F * (2 : ℚ) ^ b)) * (F * (2 : ℚ) ^ c)) - x * (2 : ℚ) ^ (c - a)|
        ≤ |x * (2 : ℚ) ^ (c - a)| * ((1 + (2 : ℚ) ^ (-53 : ℤ)) ^ 4 - 1) := by
  have hWb : F * (2 : ℚ) ^ b ≠ 0 := mul_ne_zero hF (by positivity)
  have hWa : F * (2 : ℚ) ^ a ≠ 0 := mul_ne_zero hF (by positivity)
  have hpb : (0 : ℚ) < (2 : ℚ) ^ b := by positivity
  have hpa : (0 : ℚ) < (2 : ℚ) ^ a := by positivity
  -- the exact value after the first transform, moved on to zoom `c`
  have hmove : |p * (2 : ℚ) ^ (c - b) - x * (2 : ℚ) ^ (c - a)|
      ≤ |x * (2 : ℚ) ^ (c - a)| * ((1 + (2 : ℚ) ^ (-53 : ℤ)) ^ 2 - 1) := by
    have e : p * (2 : ℚ) ^ (c - b) - x * (2 : ℚ) ^ (c - a)
        = (p - x * (2 : ℚ) ^ (b - a)) * (2 : ℚ) ^ (c - b) := by
      rw [sub_mul, zpow_compose]
    have e2 : |x * (2 : ℚ) ^ (c - a)| = |x * (2 : ℚ) ^ (b - a)| * |(2 : ℚ) ^ (c - b)| := by
      rw [← abs_mul, zpow_compose]
    rw [e, abs_mul, e2]
    calc |p - x * (2 : ℚ) ^ (b - a)| * |(2 : ℚ) ^ (c - b)|
        ≤ |x * (2 : ℚ) ^ (b - a)| * ((1 + (2 : ℚ) ^ (-53 : ℤ)) ^ 2 - 1) * |(2 : ℚ) ^ (c - b)| :=
          mul_le_mul_of_nonneg_right hp (abs_nonneg _)
      _ = |x * (2 : ℚ) ^ (b - a)| * |(2 : ℚ) ^ (c - b)| * ((1 + (2 : ℚ) ^ (-53 : ℤ)) ^ 2 - 1) := by
          ring
  -- the quotient of the second transform
  have hquot : |p / (F * (2 : ℚ) ^ b) - x / (F * (2 : ℚ) ^ a)|
      ≤ |x / (F * (2 : ℚ) ^ a)| * ((1 + (2 : ℚ) ^ (-53 : ℤ)) ^ 2 - 1) := by
    have e : p / (F * (2 : ℚ) ^ b) - x / (F * (2 : ℚ) ^ a)
        = (p - x * (2 : ℚ) ^ (b - a)) / (F * (2 : ℚ) ^ b) := by
      rw [zpow_sub₀ (by norm_num : (2 : ℚ) ≠ 0)]
      field_simp
      ring
    have e2 : |x / (F * (2 : ℚ) ^ a)| = |x * (2 : ℚ) ^ (b - a)| / |F * (2 : ℚ) ^ b| := by
      rw [← abs_div]
      congr 1
      rw [zpow_sub₀ (by norm_num : (2 : ℚ) ≠ 0)]
      field_simp
      ring
    rw [e, abs_div, e2]
    calc |p - x * (2 : ℚ) ^ (b - a)| / |F * (2 : ℚ) ^ b|
        ≤ |x * (2 : ℚ) ^ (b - a)| * ((1 + (2 : ℚ) ^ (-53 : ℤ)) ^ 2 - 1) / |F * (2 : ℚ) ^ b| :=
          div_le_div_of_nonneg_right hp (abs_nonneg _)
      _ = |x * (2 : ℚ) ^ (b - a)| / |F * (2 : ℚ) ^ b| * ((1 + (2 : ℚ) ^ (-53 : ℤ)) ^ 2 - 1) := by
          ring
  have hstep : p = 0 ∨ ((2 : ℚ) ^ (-1022 : ℤ) ≤ |p / (F * (2 : ℚ) ^ b)|
      ∧ |p / (F * (2 : ℚ) ^ b)| ≤ (2 : ℚ) ^ (1023 : ℤ)
      ∧ (2 : ℚ) ^ (-1021 : ℤ) ≤ |p * (2 : ℚ) ^ (c - b)|
      ∧ |p * (2 : ℚ) ^ (c - b)| ≤ (2 : ℚ) ^ (1022 : ℤ)) := by
    rcases hx with h0 | ⟨h1, h2⟩
    · left
      exact eq_zero_of_rel_error (by rw [h0, zero_mul]) hp
    · right
      have n1 := inDoubleRange_near errTwo_le_half hquot h1
      have n2 := inDoubleRange_near errTwo_le_half hmove h2
      exact ⟨n1.1, n1.2.1, n2.2.2.1, n2.2.2.2⟩
  obtain ⟨hval, herr⟩ := coord_step hF b c hstep
  refine ⟨hval, ?_⟩
  have h := rel_error_trans errTwo_nonneg hmove herr
  rw [errFour_eq] at h
  exact h

/-- With a power-of-two side and a `double` coordinate the transform from zoom `u` to zoom
`v` is the exact product with `2^(v-u)`. -/
theorem coord_step_exact {x : ℚ} (hx : toDouble x = x) (j u v : ℤ) :
    toDouble (toDouble (x / ((2 : ℚ) ^ j * (2 : ℚ) ^ u)) * ((2 : ℚ) ^ j * (2 : ℚ) ^ v))
      = x * (2 : ℚ) ^ (v - u) := by
  rw [← zpow_add₀ (by norm_num : (2 : ℚ) ≠ 0), ← zpow_add₀ (by norm_num : (2 : ℚ) ≠ 0),
    transform_value_exact hx]
  congr 2
  ring

/-- One coordinate of the composition of two transforms, of the direct transform and of
the round trip. -/
theorem coord_compose {n : ℤ} (hn : IsInt n) (hn0 : n ≠ 0) {a b c : ℤ}
    (ha0 : -30 ≤ a) (ha1 : a ≤ 30) (hb0 : -30 ≤ b) (hb1 : b ≤ 30)
    (hc0 : -30 ≤ c) (hc1 : c ≤ 30) {x : ℚ}
    (hx : x = 0 ∨ (InDoubleRange x
      ∧ InDoubleRange (x / toFloat (toFloat (n : ℚ) * zoomToScale a))
      ∧ InDoubleRange (x * (2 : ℚ) ^ (b - a)) ∧ InDoubleRange (x * (2 : ℚ) ^ (c - a)))) :
    ∃ p q r s : ℚ,
      (quotDouble x (toFloat (toFloat (n : ℚ) * zoomToScale a))).bind
          (fun t => roundDouble (t * toFloat (toFloat (n : ℚ) * zoomToScale b))) = some p
      ∧ (quotDouble p (toFloat (toFloat (n : ℚ) * zoomToScale b))).bind
          (fun t => roundDouble (t * toFloat (toFloat (n : ℚ) * zoomToScale c))) = some q
      ∧ (quotDouble x (toFloat (toFloat (n : ℚ) * zoomToScale a))).bind
          (fun t => roundDouble (t * toFloat (toFloat (n : ℚ) * zoomToScale c))) = some r
      ∧ (quotDouble p (toFloat (toFloat (n : ℚ) * zoomToScale b))).bind
          (fun t => roundDouble (t * toFloat (toFloat (n : ℚ) * zoomToScale a))) = some s
      ∧ |p - x * (2 : ℚ) ^ (b - a)|
          ≤ |x * (2 : ℚ) ^ (b - a)| * ((1 + (2 : ℚ) ^ (-53 : ℤ)) ^ 2 - 1)
      ∧ |q - x * (2 : ℚ) ^ (c - a)|
          ≤ |x * (2 : ℚ) ^ (c - a)| * ((1 + (2 : ℚ) ^ (-53 : ℤ)) ^ 4 - 1)
      ∧ |r - x * (2 : ℚ) ^ (c - a)|
          ≤ |x * (2 : ℚ) ^ (c - a)| * ((1 + (2 : ℚ) ^ (-53 : ℤ)) ^ 2 - 1)
      ∧ |s - x| ≤ |x| * ((1 + (2 : ℚ) ^ (-53 : ℤ)) ^ 4 - 1)
      ∧ (toDouble x = x → (∃ j : ℤ, toFloat (n : ℚ) = (2 : ℚ) ^ j) →
          p = x * (2 : ℚ) ^ (b - a) ∧ q = r ∧ s = x) := by
  have hF : toFloat (n : ℚ) ≠ 0 := by
    have h := (scaledSide_bounds hn hn0 a).1
    rw [scaledSide_eq_mul n ha0 ha1] at h
    exact left_ne_zero_of_mul h
  rw [scaledSide_eq_mul n ha0 ha1, scaledSide_eq_mul n hb0 hb1, scaledSide_eq_mul n hc0 hc1]
    at *
  generalize toFloat (n : ℚ) = F at hF hx ⊢
  have hxa : x * (2 : ℚ) ^ (a - a) = x := by rw [sub_self, zpow_zero, mul_one]
  -- the first transform and the direct transform
  have hab : x = 0 ∨ ((2 : ℚ) ^ (-1022 : ℤ) ≤ |x / (F * (2 : ℚ) ^ a)|
      ∧ |x / (F * (2 : ℚ) ^ a)| ≤ (2 : ℚ) ^ (1023 : ℤ)
      ∧ (2 : ℚ) ^ (-1021 : ℤ) ≤ |x * (2 : ℚ) ^ (b - a)|
      ∧ |x * (2 : ℚ) ^ (b - a)| ≤ (2 : ℚ) ^ (1022 : ℤ)) := by
    rcases hx with h0 | ⟨_, h2, h3, _⟩
    · exact Or.inl h0
    · exact Or.inr ⟨(inDoubleRange_normal h2).1, (inDoubleRange_normal h2).2.1,
        (inDoubleRange_normal h3).2.2.1, (inDoubleRange_normal h3).2.2.2⟩
  have hac : x = 0 ∨ ((2 : ℚ) ^ (-1022 : ℤ) ≤ |x / (F * (2 : ℚ) ^ a)|
      ∧ |x / (F * (2 : ℚ) ^ a)| ≤ (2 : ℚ) ^ (1023 : ℤ)
      ∧ (2 : ℚ) ^ (-1021 : ℤ) ≤ |x * (2 : ℚ) ^ (c - a)|
      ∧ |x * (2 : ℚ) ^ (c - a)| ≤ (2 : ℚ) ^ (1022 : ℤ)) := by
    rcases hx with h0 | ⟨_, h2, _, h4⟩
    · exact Or.inl h0
    · exact Or.inr ⟨(inDoubleRange_normal h2).1, (inDoubleRange_normal h2).2.1,
        (inDoubleRange_normal h4).2.2.1, (inDoubleRange_normal h4).2.2.2⟩
  obtain ⟨vp, ep⟩ := coord_step hF a b hab
  obtain ⟨vr, er⟩ := coord_step hF a c hac
  -- the second transforms
  have hbc : x = 0 ∨ (InDoubleRange (x / (F * (2 : ℚ) ^ a))
      ∧ InDoubleRange (x * (2 : ℚ) ^ (c - a))) := by
    rcases hx with h0 | ⟨_, h2, _, h4⟩
    · exact Or.inl h0
    · exact Or.inr ⟨h2, h4⟩
  have hba : x = 0 ∨ (InDoubleRange (x / (F * (2 : ℚ) ^ a))
      ∧ InDoubleRange (x * (2 : ℚ) ^ (a - a))) := by
    rcases hx with h0 | ⟨h1, h2, _, _⟩
    · exact Or.inl h0
    · rw [hxa]
      exact Or.inr ⟨h2, h1⟩
  obtain ⟨vq, eq⟩ := coord_second hF a b c ep hbc
  obtain ⟨vs, es⟩ := coord_second hF a b a ep hba
  rw [hxa] at es
  refine ⟨_, _, _, _, vp, vq, vr, vs, ep, eq, er, es, ?_⟩
  rintro hd ⟨j, hj⟩
  subst hj
  have e1 := coord_step_exact hd j a b
  have hd1 : toDouble (x * (2 : ℚ) ^ (b - a)) = x * (2 : ℚ) ^ (b - a) := by
    rw [toDouble_mul_zpow, hd]
  refine ⟨e1, ?_, ?_⟩
  · rw [e1, coord_step_exact hd1 j b c, coord_step_exact hd j a c, zpow_compose]
  · rw [e1, coord_step_exact hd1 j b a, zpow_compose, hxa]

/-- C18 (as amended): for every image with non-zero `int` width and height, zoom levels
`a`, `b`, `c` between `-30` and `30`, and every point whose coordinates are zero or such
that the coordinate, its quotient by the scaled side at zoom `a` and its products with
`2^(b-a)` and `2^(c-a)` are in `InDoubleRange` (no `double` operation overflows or
underflows): all transforms are finite; `transformZoomedPoint x y a b` is within the
relative rounding error `(1 + 2^-53)^2 - 1` of `(x * 2^(b-a), y * 2^(b-a))`, whatever the
image dimensions; the transform from `a` to `b` followed by the one from `b` to `c` is
within `(1 + 2^-53)^4 - 1` of `(x * 2^(c-a), y * 2^(c-a))`, and the direct transform from
`a` to `c` within `(1 + 2^-53)^2 - 1` of it; the round trip from `a` to `b` and back is
within `(1 + 2^-53)^4 - 1` of `(x, y)`.  For a `double` coordinate and a side whose `float`
value is a power of two, all three statements of the claim hold exactly. -/
theorem transformZoomedPoint_compose (self : ImageSource) (x y : ℚ) (a b c : ℤ)
    (ha0 : -30 ≤ a) (ha1 : a ≤ 30) (hb0 : -30 ≤ b) (hb1 : b ≤ 30)
    (hc0 : -30 ≤ c) (hc1 : c ≤ 30)
    (hw : IsInt self.image.width) (hh : IsInt self.image.height)
    (hw0 : self.image.width ≠ 0) (hh0 : self.image.height ≠ 0)
    (hx : x = 0 ∨ (InDoubleRange x
      ∧ InDoubleRange (x / toFloat (toFloat (self.image.width : ℚ) * zoomToScale a))
      ∧ InDoubleRange (x * (2 : ℚ) ^ (b - a)) ∧ InDoubleRange (x * (2 : ℚ) ^ (c - a))))
    (hy : y = 0 ∨ (InDoubleRange y
      ∧ InDoubleRange (y / toFloat (toFloat (self.image.height : ℚ) * zoomToScale a))
      ∧ InDoubleRange (y * (2 : ℚ) ^ (b - a)) ∧ InDoubleRange (y * (2 : ℚ) ^ (c - a)))) :
    ∃ p q r s : Point ℚ,
      transformZoomedPoint self x y a b = ⟨some p.x, some p.y⟩
      ∧ transformZoomedPoint self p.x p.y b c = ⟨some q.x, some q.y⟩
      ∧ transformZoomedPoint self x y a c = ⟨some r.x, some r.y⟩
      ∧ transformZoomedPoint self p.x p.y b a = ⟨some s.x, some s.y⟩
      ∧ |p.x - x * (2 : ℚ) ^ (b - a)|
          ≤ |x * (2 : ℚ) ^ (b - a)| * ((1 + (2 : ℚ) ^ (-53 : ℤ)) ^ 2 - 1)
      ∧ |p.y - y * (2 : ℚ) ^ (b - a)|
          ≤ |y * (2 : ℚ) ^ (b - a)| * ((1 + (2 : ℚ) ^ (-53 : ℤ)) ^ 2 - 1)
      ∧ |q.x - x * (2 : ℚ) ^ (c - a)|
          ≤ |x * (2 : ℚ) ^ (c - a)| * ((1 + (2 : ℚ) ^ (-53 : ℤ)) ^ 4 - 1)
      ∧ |q.y - y * (2 : ℚ) ^ (c - a)|
          ≤ |y * (2 : ℚ) ^ (c - a)| * ((1 + (2 : ℚ) ^ (-53 : ℤ)) ^ 4 - 1)
      ∧ |r.x - x * (2 : ℚ) ^ (c - a)|
          ≤ |x * (2 : ℚ) ^ (c - a)| * ((1 + (2 : ℚ) ^ (-53 : ℤ)) ^ 2 - 1)
      ∧ |r.y - y * (2 : ℚ) ^ (c - a)|
          ≤ |y * (2 : ℚ) ^ (c - a)| * ((1 + (2 : ℚ) ^ (-53 : ℤ)) ^ 2 - 1)
      ∧ |s.x - x| ≤ |x| * ((1 + (2 : ℚ) ^ (-53 : ℤ)) ^ 4 - 1)
      ∧ |s.y - y| ≤ |y| * ((1 + (2 : ℚ) ^ (-53 : ℤ)) ^ 4 - 1)
      ∧ (toDouble x = x → (∃ j : ℤ, toFloat (self.image.width : ℚ) = (2 : ℚ) ^ j) →
          p.x = x * (2 : ℚ) ^ (b - a) ∧ q.x = r.x ∧ s.x = x)
      ∧ (toDouble y = y → (∃ j : ℤ, toFloat (self.image.height : ℚ) = (2 : ℚ) ^ j) →
          p.y = y * (2 : ℚ) ^ (b - a) ∧ q.y = r.y ∧ s.y = y) := by
  obtain ⟨px, qx, rx, sx, h1, h2, h3, h4, b1, b2, b3, b4, cx⟩ :=
    coord_compose hw hw0 ha0 ha1 hb0 hb1 hc0 hc1 hx
  obtain ⟨py, qy, ry, sy, k1, k2, k3, k4, d1, d2, d3, d4, cy⟩ :=
    coord_compose hh hh0 ha0 ha1 hb0 hb1 hc0 hc1 hy
  refine ⟨⟨px, py⟩, ⟨qx, qy⟩, ⟨rx, ry⟩, ⟨sx, sy⟩, ?_, ?_, ?_, ?_,
    b1, d1, b2, d2, b3, d3, b4, d4, cx, cy⟩
  · unfold transformZoomedPoint
    rw [h1, k1]
  · unfold transformZoomedPoint
    rw [h2, k2]
  · unfold transformZoomedPoint
    rw [h3, k3]
  · unfold transformZoomedPoint
    rw [h4, k4]

/-- Witness of C18: the point `(100, 50)` of a 2048 x 1024 image, whose sides are powers
of two, goes from zoom `-1` to zoom `-3` to `(25, 12.5)` exactly. -/
theorem transformZoomedPoint_compose_witness :
    transformZoomedPoint ⟨⟨2048, 1024, none⟩⟩ 100 50 (-1) (-3)
      = ⟨some (100 * (2 : ℚ) ^ (-3 - (-1) : ℤ)), some (50 * (2 : ℚ) ^ (-3 - (-1) : ℤ))⟩ := by
  have hF : toFloat ((2048 : ℤ) : ℚ) = (2 : ℚ) ^ (11 : ℤ) := by
    rw [toFloat_intCast (by decide)]
    norm_num
  have hG : toFloat ((1024 : ℤ) : ℚ) = (2 : ℚ) ^ (10 : ℤ) := by
    rw [toFloat_intCast (by decide)]
    norm_num
  have hW : toFloat (toFloat ((2048 : ℤ) : ℚ) * zoomToScale (-1)) = (2 : ℚ) ^ (10 : ℤ) := by
    rw [@scaledSide_eq 2048 (-1) (by decide) (by norm_num) (by norm_num)]
    norm_num
  have hH : toFloat (toFloat ((1024 : ℤ) : ℚ) * zoomToScale (-1)) = (2 : ℚ) ^ (9 : ℤ) := by
    rw [@scaledSide_eq 1024 (-1) (by decide) (by norm_num) (by norm_num)]
    norm_num
  have h100 : toDouble 100 = 100 := by
    have h := toDouble_natCast_small 100 (by norm_num)
    simpa using h
  have h50 : toDouble 50 = 50 := by
    have h := toDouble_natCast_small 50 (by norm_num)
    simpa using h
  have hx : (100 : ℚ) = 0 ∨ (InDoubleRange (100 : ℚ)
      ∧ InDoubleRange ((100 : ℚ) / toFloat (toFloat ((2048 : ℤ) : ℚ) * zoomToScale (-1)))
      ∧ InDoubleRange ((100 : ℚ) * (2 : ℚ) ^ (-3 - (-1) : ℤ))
      ∧ InDoubleRange ((100 : ℚ) * (2 : ℚ) ^ (0 - (-1) : ℤ))) := by
    right
    rw [hW]
    exact ⟨inDoubleRange_of_small (by norm_num [abs_of_pos]) (by norm_num [abs_of_pos]),
      inDoubleRange_of_small (by norm_num [abs_of_pos]) (by norm_num [abs_of_pos]),
      inDoubleRange_of_small (by norm_num [abs_of_pos]) (by norm_num [abs_of_pos]),
      inDoubleRange_of_small (by norm_num [abs_of_pos]) (by norm_num [abs_of_pos])⟩
  have hy : (50 : ℚ) = 0 ∨ (InDoubleRange (50 : ℚ)
      ∧ InDoubleRange ((50 : ℚ) / toFloat (toFloat ((1024 : ℤ) : ℚ) * zoomToScale (-1)))
      ∧ InDoubleRange ((50 : ℚ) * (2 : ℚ) ^ (-3 - (-1) : ℤ))
      ∧ InDoubleRange ((50 : ℚ) * (2 : ℚ) ^ (0 - (-1) : ℤ))) := by
    right
    rw [hH]
    exact ⟨inDoubleRange_of_small (by norm_num [abs_of_pos]) (by norm_num [abs_of_pos]),
      inDoubleRange_of_small (by norm_num [abs_of_pos]) (by norm_num [abs_of_pos]),
      inDoubleRange_of_small (by norm_num [abs_of_pos]) (by norm_num [abs_of_pos]),
      inDoubleRange_of_small (by norm_num [abs_of_pos]) (by norm_num [abs_of_pos])⟩
  obtain ⟨p, _, _, _, he, _, _, _, _, _, _, _, _, _, _, _, cx, cy⟩ :=
    transformZoomedPoint_compose ⟨⟨2048, 1024, none⟩⟩ 100 50 (-1) (-3) 0 (by norm_num)
      (by norm_num) (by norm_num) (by norm_num) (by norm_num) (by norm_num) (by decide)
      (by decide) (by decide) (by decide) hx hy
  rw [he, (cx h100 ⟨11, hF⟩).1, (cy h50 ⟨10, hG⟩).1]

/-- C18, counterexample: for a 49 x 49 image the point `(1, 1)` goes from zoom 0 to zoom 1
to `(2 - 2^-52, 2 - 2^-52)`, not to `(1 * 2^(1-0), 1 * 2^(1-0)) = (2, 2)`: the result
depends on the image width through the rounding of `1 / 49`. -/
theorem transformZoomedPoint_depends_on_width :
    transformZoomedPoint ⟨⟨49, 49, none⟩⟩ 1 1 0 1
      = ⟨some (9007199254740991 / 4503599627370496), some (9007199254740991 / 4503599627370496)⟩
    ∧ transformZoomedPoint ⟨⟨49, 49, none⟩⟩ 1 1 0 1
      ≠ ⟨some (1 * (2 : ℚ) ^ (1 - 0 : ℤ)), some (1 * (2 : ℚ) ^ (1 - 0 : ℤ))⟩ := by
  have h49 : toFloat (toFloat ((49 : ℤ) : ℚ) * zoomToScale 0) = 49 := by
    have h := @scaledSide_eq 49 0 (by decide) (by norm_num) (by norm_num)
    simpa using h
  have h98 : toFloat (toFloat ((49 : ℤ) : ℚ) * zoomToScale 1) = 98 := by
    have h := @scaledSide_eq 49 1 (by decide) (by norm_num) (by norm_num)
    norm_num at h
    exact h
  have hc : (quotDouble 1 49).bind (fun q => roundDouble (q * 98))
      = some (9007199254740991 / 4503599627370496) := by
    rw [transform_value (by norm_num) (Or.inr ⟨le_trans (zpow_le_zpow_right₀ (by norm_num)
        (by norm_num : (-1022 : ℤ) ≤ -6)) (by norm_num [abs_of_pos]),
      le_trans (by norm_num [abs_of_pos] : |(1 : ℚ) / 49| ≤ (2 : ℚ) ^ (0 : ℤ))
        (zpow_le_zpow_right₀ (by norm_num) (by norm_num)),
      le_trans (zpow_le_zpow_right₀ (by norm_num) (by norm_num : (-1021 : ℤ) ≤ 0))
        (by norm_num [abs_of_pos]),
      le_trans (by norm_num [abs_of_pos] : |(1 : ℚ) * (98 / 49)| ≤ (2 : ℚ) ^ (1 : ℤ))
        (zpow_le_zpow_right₀ (by norm_num) (by norm_num))⟩),
      toDouble_one_div_49, toDouble_one_div_49_mul_98]
  have hv : transformZoomedPoint ⟨⟨49, 49, none⟩⟩ 1 1 0 1
      = ⟨some (9007199254740991 / 4503599627370496),
         some (9007199254740991 / 4503599627370496)⟩ := by
    unfold transformZoomedPoint
    simp only [h49, h98]
    rw [hc]
  refine ⟨hv, ?_⟩
  rw [hv]
  intro h
  have h1 := congrArg Point.x h
  simp only [Option.some.injEq] at h1
  norm_num at h1

end maps
